import Mathlib

/-!
Round-Robin scheduling simulator (`src/main.cpp`)

A shallow embedding of the discrete-event simulator: the job table, the
Ready / Blocked FIFO queues, the event priority queue, the five transition
functions, the two dispatchers and the clock loop.

Conventions of the embedding

* `uint64_t` values are natural numbers; every arithmetic operation of the
  source is written with an explicit reduction modulo `2 ^ 64`
  (`add64`, `sub64`, `inc64`).
* The global variables of the program are the fields of `State`.
* `logf_fatal` ends the process (`exit(-1)`): a function that can reach it
  returns `Option`, and `none` is the fatal abort.
* `job*` pointers into `JOBS` (`CPU_JOB`, `IO_JOB`, the `job&` argument of
  `arrived`) are indices into the table; `nullptr` is `none`.
* `outf` appends one record to `OUT` (the tick and the message); `logf`
  lines and the periodic snapshot of `sim_output_state` only write to the
  log streams and are not part of the state.
* `std::priority_queue<event>` is a binary heap stored in a sequence: `push`
  is `push_back` followed by `std::push_heap`, `pop` is `std::pop_heap`
  followed by `pop_back`, `top` is the first element.  The two heap
  algorithms follow the usual library implementation (the hole is moved,
  the value is written once at the end).
-/

namespace RRSim

/-! ## Machine arithmetic -/

/-- Number of values of a `uint64_t`. -/
def U64 : Nat := 18446744073709551616

/-- Unsigned 64-bit addition. -/
def add64 (a b : Nat) : Nat := (a + b) % 18446744073709551616

/-- Unsigned 64-bit subtraction (wraps around below zero). -/
def sub64 (a b : Nat) : Nat :=
  (a + (18446744073709551616 - b % 18446744073709551616)) % 18446744073709551616

/-- Unsigned 64-bit increment (`x++`). -/
def inc64 (a : Nat) : Nat := (a + 1) % 18446744073709551616

/-! ## Jobs and events -/

inductive job_state where
  | JOB_NEW
  | JOB_READY
  | JOB_RUNNING
  | JOB_BLOCKED
  | JOB_TERMINATED
deriving DecidableEq, Repr

open job_state

structure job where
  state : job_state
  jid : Nat
  arrival_time : Nat
  turn_around_time : Nat
  wait_time : Nat
  io_time : Nat
  bursts : List Nat
deriving DecidableEq, Repr

inductive event_type where
  | EVT_TERMINATE
  | EVT_ARRIVE
  | EVT_IO_RECIEVE
  | EVT_IO_REQUEST
  | EVT_PREEMPT
deriving DecidableEq, Repr

open event_type

/-- Numeric value of the enumerator, in declaration order. -/
def event_type.val : event_type → Nat
  | EVT_TERMINATE => 0
  | EVT_ARRIVE => 1
  | EVT_IO_RECIEVE => 2
  | EVT_IO_REQUEST => 3
  | EVT_PREEMPT => 4

structure event where
  type : event_type
  jid : Nat
  arrival_time : Nat
deriving DecidableEq, Repr

/-- The specialisation `less<event>::operator()`. -/
def less_event (a b : event) : Bool :=
  if a.arrival_time = b.arrival_time then
    decide (a.type.val > b.type.val)
  else
    decide (a.arrival_time > b.arrival_time)

/-! ## The event priority queue -/

/-- Sift the value up from the hole: while the parent of the hole is
`less` than the value, the parent moves down into the hole. -/
def push_heap_loop : Nat → List event → Nat → Nat → event → List event
  | 0, first, holeIndex, _, value => first.set holeIndex value
  | fuel + 1, first, holeIndex, topIndex, value =>
    if holeIndex > topIndex ∧ less_event (first.getD ((holeIndex - 1) / 2) value) value = true then
      push_heap_loop fuel (first.set holeIndex (first.getD ((holeIndex - 1) / 2) value))
        ((holeIndex - 1) / 2) topIndex value
    else
      first.set holeIndex value

/-- The call `std::push_heap(c.begin(), c.end())`: the last element is the
value to insert, the hole starts at its position. -/
def push_heap (c : List event) : List event :=
  match c.getLast? with
  | none => c
  | some value => push_heap_loop (c.length - 1) c (c.length - 1) 0 value

/-- First loop of the heap adjustment: the hole moves down to the bottom,
each time the larger child moves up.  The hole and `secondChild` coincide
at every test of the loop condition. -/
def adjust_heap_down : Nat → List event → Nat → Nat → event → List event × Nat
  | 0, first, holeIndex, _, _ => (first, holeIndex)
  | fuel + 1, first, holeIndex, len, value =>
    if holeIndex < (len - 1) / 2 then
      let secondChild := 2 * (holeIndex + 1)
      let child :=
        if less_event (first.getD secondChild value) (first.getD (secondChild - 1) value) = true
        then secondChild - 1 else secondChild
      adjust_heap_down fuel (first.set holeIndex (first.getD child value)) child len value
    else
      (first, holeIndex)

/-- The heap adjustment on the first `len` elements, the hole starting at
`holeIndex`: hole down to the bottom, a lone left child handled apart, then
the value is sifted up from there. -/
def adjust_heap (first : List event) (holeIndex len : Nat) (value : event) : List event :=
  let r := adjust_heap_down len first holeIndex len value
  let first1 := r.1
  let hole1 := r.2
  if len % 2 = 0 ∧ hole1 = (len - 2) / 2 then
    let secondChild := 2 * (hole1 + 1)
    push_heap_loop (secondChild - 1)
      (first1.set hole1 (first1.getD (secondChild - 1) value)) (secondChild - 1) holeIndex value
  else
    push_heap_loop hole1 first1 hole1 holeIndex value

/-- The call `std::pop_heap(c.begin(), c.end())`: the first element goes
to the last position, the former last element is re-inserted from the top. -/
def pop_heap (c : List event) : List event :=
  if c.length > 1 then
    match c.getLast?, c.head? with
    | some value, some top => adjust_heap (c.set (c.length - 1) top) 0 (c.length - 1) value
    | _, _ => c
  else
    c

/-- The member `priority_queue::push`. -/
def pq_push (c : List event) (x : event) : List event := push_heap (c ++ [x])

/-- The member `priority_queue::top`, `none` on an empty queue. -/
def pq_top (c : List event) : Option event := c.head?

/-- The member `priority_queue::pop`. -/
def pq_pop (c : List event) : List event := (pop_heap c).dropLast

/-! ## Global state -/

/-- Lines written through `outf`. -/
inductive Msg where
  | parse_error
  | sim_started (quantum : Nat)
  | arrives (jid : Nat)
  | preempted (jid : Nat)
  | terminated (jid : Nat)
  | io_blocked (jid : Nat)
  | io_done (jid : Nat)
  | dispatched_cpu (jid burst : Nat)
  | dispatched_io (jid burst : Nat)
deriving DecidableEq, Repr

structure State where
  READY_Q : List Nat
  IO_Q : List Nat
  EVENT_Q : List event
  JOBS : List job
  TIME : Nat
  QUANTUM : Nat
  CPU_IDLE_TIME : Nat
  CPU_JOB : Option Nat
  IO_JOB : Option Nat
  OUT : List (Nat × Msg)
deriving DecidableEq, Repr

/-- The function `outf`: one line, stamped with the current `TIME`. -/
def outf (s : State) (m : Msg) : State :=
  { s with OUT := s.OUT ++ [(s.TIME, m)] }

/-- The function `get_job`: fatal when the id is not in the table. -/
def get_job (s : State) (jid : Nat) : Option job :=
  if jid < s.JOBS.length then s.JOBS[jid]? else none

def is_cpu_idle (s : State) : Bool := s.CPU_JOB.isNone

def is_io_idle (s : State) : Bool := s.IO_JOB.isNone

/-- The statement `bursts.front() -= QUANTUM` (nothing on an empty queue,
where the source has no defined behaviour). -/
def front_sub (bursts : List Nat) (q : Nat) : List Nat :=
  match bursts with
  | [] => []
  | b :: bs => sub64 b q :: bs

/-! ## Transitions -/

/-- The function `arrived`; `ref` is the position of the job in `JOBS`. -/
def arrived (s : State) (ref : Nat) : Option State :=
  match s.JOBS[ref]? with
  | none => none
  | some j =>
    if j.state ≠ JOB_NEW then none
    else
      let s1 := outf s (Msg.arrives j.jid)
      some { s1 with
        JOBS := s1.JOBS.set ref { j with state := JOB_READY }
        READY_Q := s1.READY_Q ++ [j.jid] }

/-- The function `preempted`. -/
def preempted (s : State) : Option State :=
  match s.CPU_JOB with
  | none => none
  | some ref =>
    match s.JOBS[ref]? with
    | none => none
    | some j =>
      if j.state ≠ JOB_RUNNING then none
      else
        let s1 := outf s (Msg.preempted j.jid)
        some { s1 with
          JOBS := s1.JOBS.set ref
            { j with state := JOB_READY, bursts := front_sub j.bursts s1.QUANTUM }
          READY_Q := s1.READY_Q ++ [j.jid]
          CPU_JOB := none }

/-- The function `terminated`. -/
def terminated (s : State) : Option State :=
  match s.CPU_JOB with
  | none => none
  | some ref =>
    match s.JOBS[ref]? with
    | none => none
    | some j =>
      if j.state ≠ JOB_RUNNING then none
      else
        let s1 := outf s (Msg.terminated j.jid)
        some { s1 with
          JOBS := s1.JOBS.set ref
            { j with state := JOB_TERMINATED,
                     turn_around_time := sub64 s1.TIME j.arrival_time }
          CPU_JOB := none }

/-- The function `io_requested`. -/
def io_requested (s : State) : Option State :=
  match s.CPU_JOB with
  | none => none
  | some ref =>
    match s.JOBS[ref]? with
    | none => none
    | some j =>
      if j.state ≠ JOB_RUNNING then none
      else
        let s1 := outf s (Msg.io_blocked j.jid)
        some { s1 with
          JOBS := s1.JOBS.set ref { j with state := JOB_BLOCKED, bursts := j.bursts.tail }
          IO_Q := s1.IO_Q ++ [j.jid]
          CPU_JOB := none }

/-- The function `io_recieved`. -/
def io_recieved (s : State) : Option State :=
  match s.IO_JOB with
  | none => none
  | some ref =>
    match s.JOBS[ref]? with
    | none => none
    | some j =>
      if j.state ≠ JOB_BLOCKED then none
      else
        let s1 := outf s (Msg.io_done j.jid)
        some { s1 with
          JOBS := s1.JOBS.set ref { j with state := JOB_READY, bursts := j.bursts.tail }
          READY_Q := s1.READY_Q ++ [j.jid]
          IO_JOB := none }

/-! ## Dispatchers -/

/-- The function `dispatch`. -/
def dispatch (s : State) : Option State :=
  match s.READY_Q with
  | [] => some s
  | front :: rest =>
    match get_job s front with
    | none => none
    | some j =>
      let s1 : State :=
        { s with
          CPU_JOB := some front
          READY_Q := rest
          JOBS := s.JOBS.set front { j with state := JOB_RUNNING } }
      match j.bursts with
      | [] => none
      | b :: _ =>
        let s2 := outf s1 (Msg.dispatched_cpu j.jid b)
        if b > s2.QUANTUM then
          some { s2 with
            EVENT_Q := pq_push s2.EVENT_Q ⟨EVT_PREEMPT, j.jid, add64 s2.TIME s2.QUANTUM⟩ }
        else
          some { s2 with
            EVENT_Q := pq_push s2.EVENT_Q
              ⟨if j.bursts.length = 1 then EVT_TERMINATE else EVT_IO_REQUEST,
               j.jid, add64 s2.TIME b⟩ }

/-- The function `io_dispatch`. -/
def io_dispatch (s : State) : Option State :=
  match s.IO_Q with
  | [] => some s
  | front :: rest =>
    match get_job s front with
    | none => none
    | some j =>
      let s1 : State := { s with IO_JOB := some front, IO_Q := rest }
      match j.bursts with
      | [] => none
      | b :: _ =>
        let s2 := outf s1 (Msg.dispatched_io j.jid b)
        some { s2 with
          EVENT_Q := pq_push s2.EVENT_Q ⟨EVT_IO_RECIEVE, j.jid, add64 s2.TIME b⟩ }

/-! ## Loading the workload -/

/-- The function `jobs_parse_line`.  A line is given by the unsigned decimal
numerals it holds, in order; an extraction `>>` fails at the end of the line
and on a numeral that does not fit in 64 bits. -/
def jobs_parse_line (line : List Nat) : Option job :=
  match line with
  | [] => none
  | arrival_time :: rest =>
    if arrival_time ≥ U64 then none
    else if arrival_time < 1 then none
    else
      match rest with
      | [] => none
      | cpu_burst_count :: toks =>
        if cpu_burst_count ≥ U64 then none
        else if cpu_burst_count < 1 then none
        else
          let bursts := toks.takeWhile (fun t => decide (t < U64))
          if bursts.length ≠ sub64 (cpu_burst_count * 2 % U64) 1 then none
          else
            some
              { state := JOB_NEW, jid := 0, arrival_time := arrival_time,
                turn_around_time := 0, wait_time := 0, io_time := 0, bursts := bursts }

/-- One iteration of the loop of `jobs_parse_file`. -/
def jobs_parse_step (s : State) (line : List Nat) : State :=
  match jobs_parse_line line with
  | some j0 =>
    let j : job := { j0 with jid := s.JOBS.length }
    { s with
      JOBS := s.JOBS ++ [j]
      EVENT_Q := pq_push s.EVENT_Q ⟨EVT_ARRIVE, j.jid, j.arrival_time⟩ }
  | none => outf s Msg.parse_error

/-- The function `jobs_parse_file` on the lines of the input file. -/
def jobs_parse_file (lines : List (List Nat)) (s : State) : State :=
  lines.foldl jobs_parse_step s

/-- The state of the globals when the program starts. -/
def State.zero : State :=
  { READY_Q := [], IO_Q := [], EVENT_Q := [], JOBS := [], TIME := 0, QUANTUM := 0,
    CPU_IDLE_TIME := 0, CPU_JOB := none, IO_JOB := none, OUT := [] }

/-- The function `sim_init`, for a quantum that `strtoull` has read and an
input file given by its lines. -/
def sim_init (quantum : Nat) (lines : List (List Nat)) : State :=
  let s0 : State := { State.zero with TIME := 0, QUANTUM := quantum }
  let s1 := jobs_parse_file lines s0
  outf s1 (Msg.sim_started s1.QUANTUM)

/-! ## Clock and accounting -/

/-- First loop of `sim_tally`: `get_job(jid).wait_time++` over a queue. -/
def tally_wait : List Nat → List job → Option (List job)
  | [], js => some js
  | jid :: rest, js =>
    if jid < js.length then
      match js[jid]? with
      | none => none
      | some j => tally_wait rest (js.set jid { j with wait_time := inc64 j.wait_time })
    else none

/-- Second loop of `sim_tally`: `get_job(jid).io_time++` over a queue. -/
def tally_io : List Nat → List job → Option (List job)
  | [], js => some js
  | jid :: rest, js =>
    if jid < js.length then
      match js[jid]? with
      | none => none
      | some j => tally_io rest (js.set jid { j with io_time := inc64 j.io_time })
    else none

/-- The function `sim_tally`. -/
def sim_tally (s : State) : Option State :=
  match tally_wait s.READY_Q s.JOBS with
  | none => none
  | some js1 =>
    match tally_io s.IO_Q js1 with
    | none => none
    | some js2 =>
      some { s with
        JOBS := js2
        CPU_IDLE_TIME := if is_cpu_idle s then inc64 s.CPU_IDLE_TIME else s.CPU_IDLE_TIME }

/-- The function `sim_inc_time`. -/
def sim_inc_time (s : State) : Option State :=
  match sim_tally s with
  | none => none
  | some s1 => some { s1 with TIME := inc64 s1.TIME }

/-- The loop `while (TIME < EVENT_Q.top().arrival_time) sim_inc_time();`
with a bound on the number of iterations; `none` also when the bound is
reached with the condition still true. -/
def sim_skip : Nat → State → Option State
  | 0, s =>
    match pq_top s.EVENT_Q with
    | none => none
    | some e => if s.TIME < e.arrival_time then none else some s
  | fuel + 1, s =>
    match pq_top s.EVENT_Q with
    | none => none
    | some e =>
      if s.TIME < e.arrival_time then
        match sim_inc_time s with
        | none => none
        | some s1 => sim_skip fuel s1
      else some s

/-- The `switch` of `sim_advance` on the type of the popped event. -/
def apply_event (s : State) (evt : event) : Option State :=
  match evt.type with
  | EVT_ARRIVE =>
    match get_job s evt.jid with
    | none => none
    | some _ => arrived s evt.jid
  | EVT_PREEMPT => preempted s
  | EVT_TERMINATE => terminated s
  | EVT_IO_REQUEST => io_requested s
  | EVT_IO_RECIEVE => io_recieved s

/-- The loop `while (!EVENT_Q.empty() && TIME == EVENT_Q.top().arrival_time)`
with a bound on the number of iterations; `none` also when the bound is
reached with the condition still true. -/
def sim_drain : Nat → State → Option State
  | 0, s =>
    match pq_top s.EVENT_Q with
    | none => some s
    | some evt => if s.TIME = evt.arrival_time then none else some s
  | fuel + 1, s =>
    match pq_top s.EVENT_Q with
    | none => some s
    | some evt =>
      if s.TIME = evt.arrival_time then
        match apply_event { s with EVENT_Q := pq_pop s.EVENT_Q } evt with
        | none => none
        | some s1 => sim_drain fuel s1
      else some s

/-- Number of iterations allowed to the first loop of `sim_advance`: the
distance from `TIME` to the due time of the top event. -/
def skip_bound (s : State) : Nat :=
  match pq_top s.EVENT_Q with
  | none => 0
  | some e => e.arrival_time - s.TIME

/-- The function `sim_advance`: the returned flag is its result. -/
def sim_advance (s : State) : Option (Bool × State) :=
  if s.EVENT_Q.isEmpty then some (false, s)
  else
    match sim_skip (skip_bound s) s with
    | none => none
    | some s1 =>
      match sim_drain s1.EVENT_Q.length s1 with
      | none => none
      | some s2 =>
        match (if is_cpu_idle s2 then dispatch s2 else some s2) with
        | none => none
        | some s3 =>
          match (if is_io_idle s3 then io_dispatch s3 else some s3) with
          | none => none
          | some s4 =>
            match sim_inc_time s4 with
            | none => none
            | some s5 => some (true, s5)

/-- The loop `while (sim_advance());` of `main`, with a bound on the number
of calls: `some` is the state in which `sim_advance` returned false. -/
def sim_loop : Nat → State → Option State
  | 0, _ => none
  | fuel + 1, s =>
    match sim_advance s with
    | none => none
    | some (false, s1) => some s1
    | some (true, s1) => sim_loop fuel s1

/-! ## Definitions used to state the properties -/

/-- Sort key of an event: `less<event>` compares this key, reversed. -/
def key (e : event) : Nat := e.arrival_time * 5 + e.type.val

/-- Heap order on the first `n` positions, on the sort keys. -/
def HeapUpTo (d : event) (a : List event) (n : Nat) : Prop :=
  ∀ i, 0 < i → i < n → key (a.getD ((i - 1) / 2) d) ≤ key (a.getD i d)

/-- Heap order around a hole that moves down: every pair not touching the
hole is in order, and the children of the hole are in order with its parent. -/
def DownInv (value : event) (first : List event) (hole len : Nat) : Prop :=
  (∀ i, 0 < i → i < len → i ≠ hole → (i - 1) / 2 ≠ hole →
      key (first.getD ((i - 1) / 2) value) ≤ key (first.getD i value)) ∧
  (0 < hole → ∀ c, 0 < c → c < len → (c - 1) / 2 = hole →
      key (first.getD ((hole - 1) / 2) value) ≤ key (first.getD c value))

/-- The sequence is a heap for `less<event>`: no element is `less` than
one of its children (the children of position `p` are `2p+1` and `2p+2`). -/
def IsHeap (q : List event) : Prop :=
  ∀ i x y, 0 < i → q[i]? = some x → q[(i - 1) / 2]? = some y → less_event y x = false

/-- The contents `EVENT_Q` can have: built from the empty queue by `push`
and `pop`. -/
inductive PQReach : List event → Prop where
  | empty : PQReach []
  | push (q : List event) (x : event) : PQReach q → PQReach (pq_push q x)
  | pop (q : List event) : PQReach q → PQReach (pq_pop q)

/-- A collection of events pushed into the queue one after the other, in
the order of the list. -/
def pq_push_all (q : List event) (l : List event) : List event := l.foldl pq_push q

/-- The loop `while (!q.empty()) { e = q.top(); q.pop(); ... }` with a bound
on the number of iterations: the events in the order they come out. -/
def pq_drain : Nat → List event → List event
  | 0, _ => []
  | n + 1, q =>
    match pq_top q with
    | none => []
    | some e => e :: pq_drain n (pq_pop q)

/-- The order in which the events of `l`, pushed into an empty queue in the
order of `l`, come out when the queue is popped until empty. -/
def drain_order (l : List event) : List event := pq_drain l.length (pq_push_all [] l)

/-! ## Runs and calls -/

/-- The state after `n` calls of `sim_advance` (the calls after one that
returned false return false again and leave the state as it is). -/
def advance_n : Nat → State → Option State
  | 0, s => some s
  | n + 1, s =>
    match sim_advance s with
    | none => none
    | some (_, s1) => advance_n n s1

/-- The part of `sim_advance` up to the end of the drain loop. -/
def sim_drained (s : State) : Option State :=
  match sim_skip (skip_bound s) s with
  | none => none
  | some s1 => sim_drain s1.EVENT_Q.length s1

/-- Operations that can end in the fatal abort. -/
inductive Call where
  | getJob (jid : Nat)
  | arrive (ref : Nat)
  | preempt
  | terminate
  | ioRequest
  | ioReceive
  | cpuDispatch
  | ioDispatch

/-- Whether the call ends in the fatal abort in state `s`. -/
def Call.aborts (s : State) : Call → Bool
  | Call.getJob jid => (get_job s jid).isNone
  | Call.arrive ref => (arrived s ref).isNone
  | Call.preempt => (preempted s).isNone
  | Call.terminate => (terminated s).isNone
  | Call.ioRequest => (io_requested s).isNone
  | Call.ioReceive => (io_recieved s).isNone
  | Call.cpuDispatch => (dispatch s).isNone
  | Call.ioDispatch => (io_dispatch s).isNone

/-- The job a device pointer refers to is in the given state. -/
def device_job_in (s : State) (dev : Option Nat) (st : job_state) : Bool :=
  match dev with
  | none => false
  | some ref =>
    match s.JOBS[ref]? with
    | none => false
    | some j => decide (j.state = st)

/-- The head of a waiting queue is a job of the table with a burst left. -/
def head_dispatchable (s : State) (q : List Nat) : Bool :=
  match q with
  | [] => true
  | front :: _ =>
    match s.JOBS[front]? with
    | none => false
    | some j => !j.bursts.isEmpty

/-- The conditions the transition functions and dispatchers assert. -/
def Call.guard (s : State) : Call → Bool
  | Call.getJob jid => decide (jid < s.JOBS.length)
  | Call.arrive ref =>
    match s.JOBS[ref]? with
    | none => false
    | some j => decide (j.state = JOB_NEW)
  | Call.preempt => device_job_in s s.CPU_JOB JOB_RUNNING
  | Call.terminate => device_job_in s s.CPU_JOB JOB_RUNNING
  | Call.ioRequest => device_job_in s s.CPU_JOB JOB_RUNNING
  | Call.ioReceive => device_job_in s s.IO_JOB JOB_BLOCKED
  | Call.cpuDispatch => head_dispatchable s s.READY_Q
  | Call.ioDispatch => head_dispatchable s s.IO_Q

/-! ## First come, first served -/

/-- The jobs in the order in which `arrived` was applied to them: the job
ids of the lines "arrives" of the trace. -/
def arrivals (out : List (Nat × Msg)) : List Nat :=
  out.filterMap (fun p =>
    match p.2 with
    | Msg.arrives i => some i
    | _ => none)

/-- The jobs in the order of their first dispatch to the CPU: the job ids
of the lines "dispatched to the CPU" of the trace, each at its first
occurrence. -/
def first_dispatches (out : List (Nat × Msg)) : List Nat :=
  out.foldl (fun acc p =>
    match p.2 with
    | Msg.dispatched_cpu i _ => if i ∈ acc then acc else acc ++ [i]
    | _ => acc) []

/-- The jobs of the Ready queue that were never dispatched, in queue order. -/
def never_dispatched (s : State) : List Nat :=
  s.READY_Q.filter (fun i => decide (i ∉ first_dispatches s.OUT))

/-- First come, first served: the jobs that have arrived are those that
were dispatched, in the order of their first dispatch, followed by those
of the Ready queue that were never dispatched, in queue order.  A job that
is Running or Blocked was dispatched; a job that was dispatched is in the
table and not New. -/
structure Fifo (s : State) : Prop where
  order : arrivals s.OUT = first_dispatches s.OUT ++ never_dispatched s
  seen : ∀ (i : Nat) (j : job), s.JOBS[i]? = some j →
    j.state = JOB_RUNNING ∨ j.state = JOB_BLOCKED → i ∈ first_dispatches s.OUT
  known : ∀ i ∈ first_dispatches s.OUT, ∃ j, s.JOBS[i]? = some j ∧ j.state ≠ JOB_NEW

/-! ## The invariant of the simulation -/

/-- Event types that end the stay of a job on the CPU. -/
def is_cpu_event (t : event_type) : Bool :=
  match t with
  | EVT_PREEMPT => true
  | EVT_TERMINATE => true
  | EVT_IO_REQUEST => true
  | _ => false

/-- Number of pending Arrive events for job `i`. -/
def arrive_count (q : List event) (i : Nat) : Nat :=
  q.countP (fun e => decide (e.type = EVT_ARRIVE ∧ e.jid = i))

/-- Number of pending Preempt, Terminate and IO-Request events. -/
def cpu_count (q : List event) : Nat := q.countP (fun e => is_cpu_event e.type)

/-- Number of pending IO-Receive events. -/
def io_count (q : List event) : Nat := q.countP (fun e => decide (e.type = EVT_IO_RECIEVE))

/-- 1 when the device holds job `i`, 0 otherwise. -/
def dev_count (d : Option Nat) (i : Nat) : Nat := if d = some i then 1 else 0

/-- Number of places that hold job `i`: the two queues, the two devices
and the pending Arrive events. -/
def occ (s : State) (i : Nat) : Nat :=
  s.READY_Q.count i + s.IO_Q.count i + dev_count s.CPU_JOB i + dev_count s.IO_JOB i
    + arrive_count s.EVENT_Q i

/-- Where a job in a given state is to be found. -/
def located (s : State) (i : Nat) : job_state → Prop
  | JOB_NEW => 1 ≤ arrive_count s.EVENT_Q i
  | JOB_READY => i ∈ s.READY_Q
  | JOB_RUNNING => s.CPU_JOB = some i
  | JOB_BLOCKED => s.IO_JOB = some i ∨ i ∈ s.IO_Q
  | JOB_TERMINATED => True

/-- Number of bursts a job in a given state can have. -/
def bursts_shape : job_state → Nat → Prop
  | JOB_BLOCKED, n => n % 2 = 0 ∧ n ≠ 0
  | JOB_TERMINATED, n => n = 1
  | _, n => n % 2 = 1

/-- The type of the event `dispatch` pushes for a job with these bursts. -/
def burst_end_type (bursts : List Nat) (q : Nat) : event_type :=
  match bursts with
  | [] => EVT_IO_REQUEST
  | b :: _ =>
    if b > q then EVT_PREEMPT
    else if bursts.length = 1 then EVT_TERMINATE else EVT_IO_REQUEST

/-- Structural invariant of the simulation state. -/
structure Inv (s : State) : Prop where
  heap : IsHeap s.EVENT_Q
  jid_eq : ∀ (i : Nat) (j : job), s.JOBS[i]? = some j → j.jid = i
  occ_eq : ∀ (i : Nat) (j : job), s.JOBS[i]? = some j → occ s i = if j.state = JOB_TERMINATED then 0 else 1
  occ_out : ∀ i, s.JOBS.length ≤ i → occ s i = 0
  loc : ∀ (i : Nat) (j : job), s.JOBS[i]? = some j → located s i j.state
  shape : ∀ (i : Nat) (j : job), s.JOBS[i]? = some j → bursts_shape j.state j.bursts.length
  cpu_ev : cpu_count s.EVENT_Q = if s.CPU_JOB.isSome then 1 else 0
  io_ev : io_count s.EVENT_Q = if s.IO_JOB.isSome then 1 else 0
  cpu_ty : ∀ e ∈ s.EVENT_Q, is_cpu_event e.type = true → ∀ (r : Nat) (j : job), s.CPU_JOB = some r →
    s.JOBS[r]? = some j → e.type = burst_end_type j.bursts s.QUANTUM ∧ e.jid = r
  io_ty : ∀ e ∈ s.EVENT_Q, e.type = EVT_IO_RECIEVE → s.IO_JOB = some e.jid

/-- What holds between two calls of `sim_advance`: an idle device has an
empty queue. -/
def Settled (s : State) : Prop :=
  (s.CPU_JOB = none → s.READY_Q = []) ∧ (s.IO_JOB = none → s.IO_Q = [])

/-- The places a job can occupy, in order: CPU, IO device, Ready queue,
Blocked queue. -/
def locations (s : State) : List Nat :=
  s.CPU_JOB.toList ++ s.IO_JOB.toList ++ s.READY_Q ++ s.IO_Q

/-- State after the clock loop has popped an Arrive event for the New job
`j` at position `r` and applied `arrived`. -/
def post_arrive (s : State) (r : Nat) (j : job) : State :=
  { s with
    EVENT_Q := pq_pop s.EVENT_Q
    OUT := s.OUT ++ [(s.TIME, Msg.arrives r)]
    JOBS := s.JOBS.set r { j with state := JOB_READY }
    READY_Q := s.READY_Q ++ [r] }

/-- State after a popped Preempt event, `j` at position `r` being the CPU job. -/
def post_preempt (s : State) (r : Nat) (j : job) : State :=
  { s with
    EVENT_Q := pq_pop s.EVENT_Q
    OUT := s.OUT ++ [(s.TIME, Msg.preempted r)]
    JOBS := s.JOBS.set r { j with state := JOB_READY, bursts := front_sub j.bursts s.QUANTUM }
    READY_Q := s.READY_Q ++ [r]
    CPU_JOB := none }

/-- State after a popped Terminate event, `j` at position `r` being the CPU job. -/
def post_terminate (s : State) (r : Nat) (j : job) : State :=
  { s with
    EVENT_Q := pq_pop s.EVENT_Q
    OUT := s.OUT ++ [(s.TIME, Msg.terminated r)]
    JOBS := s.JOBS.set r
      { j with state := JOB_TERMINATED, turn_around_time := sub64 s.TIME j.arrival_time }
    CPU_JOB := none }

/-- State after a popped IO-Request event, `j` at position `r` being the CPU job. -/
def post_io_request (s : State) (r : Nat) (j : job) : State :=
  { s with
    EVENT_Q := pq_pop s.EVENT_Q
    OUT := s.OUT ++ [(s.TIME, Msg.io_blocked r)]
    JOBS := s.JOBS.set r { j with state := JOB_BLOCKED, bursts := j.bursts.tail }
    IO_Q := s.IO_Q ++ [r]
    CPU_JOB := none }

/-- State after a popped IO-Receive event, `j` at position `r` being the IO job. -/
def post_io_receive (s : State) (r : Nat) (j : job) : State :=
  { s with
    EVENT_Q := pq_pop s.EVENT_Q
    OUT := s.OUT ++ [(s.TIME, Msg.io_done r)]
    JOBS := s.JOBS.set r { j with state := JOB_READY, bursts := j.bursts.tail }
    READY_Q := s.READY_Q ++ [r]
    IO_JOB := none }

/-- The event `dispatch` pushes for job `r` with front burst `b`. -/
def dispatch_event (s : State) (r : Nat) (bursts : List Nat) (b : Nat) : event :=
  if b > s.QUANTUM then event.mk EVT_PREEMPT r (add64 s.TIME s.QUANTUM)
  else event.mk (if bursts.length = 1 then EVT_TERMINATE else EVT_IO_REQUEST) r (add64 s.TIME b)

/-- State after `dispatch` has taken job `j` (position `r`, front burst `b`)
from the head of the Ready queue. -/
def post_dispatch (s : State) (r : Nat) (rest : List Nat) (j : job) (b : Nat) : State :=
  { s with
    CPU_JOB := some r
    READY_Q := rest
    JOBS := s.JOBS.set r { j with state := JOB_RUNNING }
    OUT := s.OUT ++ [(s.TIME, Msg.dispatched_cpu r b)]
    EVENT_Q := pq_push s.EVENT_Q (dispatch_event s r j.bursts b) }

/-- State after `io_dispatch` has taken job `r` (front burst `b`) from the
head of the Blocked queue. -/
def post_io_dispatch (s : State) (r : Nat) (rest : List Nat) (b : Nat) : State :=
  { s with
    IO_JOB := some r
    IO_Q := rest
    OUT := s.OUT ++ [(s.TIME, Msg.dispatched_io r b)]
    EVENT_Q := pq_push s.EVENT_Q (event.mk EVT_IO_RECIEVE r (add64 s.TIME b)) }

/-- The job at position `i` after one `sim_tally`: one `wait_time++` for
each occurrence of `i` in the Ready queue, one `io_time++` for each
occurrence in the Blocked queue. -/
def tallied (s : State) (i : Nat) (j : job) : job :=
  { j with
    wait_time := inc64^[s.READY_Q.count i] j.wait_time
    io_time := inc64^[s.IO_Q.count i] j.io_time }

/-- The values of the state are 64-bit values. -/
structure Bnd (s : State) : Prop where
  time_lt : s.TIME < U64
  ev_lt : ∀ e ∈ s.EVENT_Q, e.arrival_time < U64
  burst_lt : ∀ (i : Nat) (j : job), s.JOBS[i]? = some j → ∀ b ∈ j.bursts, b < U64

/-- One elementary step of the simulation from a state that satisfies the
invariant: a tick of the clock, an event popped at its due time and
applied, or a dispatch.  The number is 1 for a popped event, 0 otherwise. -/
inductive Step : Nat → State → State → Prop where
  | tick {s t : State} : Inv s → Bnd s → sim_inc_time s = some t → Step 0 s t
  | arrive {s : State} {e : event} {j : job} : Inv s → Bnd s →
      pq_top s.EVENT_Q = some e → s.TIME = e.arrival_time → e.type = EVT_ARRIVE →
      s.JOBS[e.jid]? = some j → j.state = JOB_NEW → Step 1 s (post_arrive s e.jid j)
  | preempt {s : State} {e : event} {r : Nat} {j : job} {b : Nat} {bs : List Nat} :
      Inv s → Bnd s →
      pq_top s.EVENT_Q = some e → s.TIME = e.arrival_time → e.type = EVT_PREEMPT →
      s.CPU_JOB = some r → s.JOBS[r]? = some j → j.state = JOB_RUNNING →
      j.bursts = b :: bs → b > s.QUANTUM → Step 1 s (post_preempt s r j)
  | terminate {s : State} {e : event} {r : Nat} {j : job} {b : Nat} : Inv s → Bnd s →
      pq_top s.EVENT_Q = some e → s.TIME = e.arrival_time → e.type = EVT_TERMINATE →
      s.CPU_JOB = some r → s.JOBS[r]? = some j → j.state = JOB_RUNNING →
      j.bursts = [b] → b ≤ s.QUANTUM → Step 1 s (post_terminate s r j)
  | io_request {s : State} {e : event} {r : Nat} {j : job} {b c : Nat} {cs : List Nat} :
      Inv s → Bnd s →
      pq_top s.EVENT_Q = some e → s.TIME = e.arrival_time → e.type = EVT_IO_REQUEST →
      s.CPU_JOB = some r → s.JOBS[r]? = some j → j.state = JOB_RUNNING →
      j.bursts = b :: c :: cs → b ≤ s.QUANTUM → Step 1 s (post_io_request s r j)
  | io_receive {s : State} {e : event} {r : Nat} {j : job} {b c : Nat} {cs : List Nat} :
      Inv s → Bnd s →
      pq_top s.EVENT_Q = some e → s.TIME = e.arrival_time → e.type = EVT_IO_RECIEVE →
      s.IO_JOB = some r → s.JOBS[r]? = some j → j.state = JOB_BLOCKED →
      j.bursts = b :: c :: cs → Step 1 s (post_io_receive s r j)
  | dispatch {s : State} {r : Nat} {rest : List Nat} {j : job} {b : Nat} {bs : List Nat} :
      Inv s → Bnd s → s.CPU_JOB = none → s.READY_Q = r :: rest →
      s.JOBS[r]? = some j → j.state = JOB_READY → j.bursts = b :: bs →
      Step 0 s (post_dispatch s r rest j b)
  | io_dispatch {s : State} {r : Nat} {rest : List Nat} {j : job} {b c : Nat}
      {cs : List Nat} :
      Inv s → Bnd s → s.IO_JOB = none → s.IO_Q = r :: rest →
      s.JOBS[r]? = some j → j.state = JOB_BLOCKED → j.bursts = b :: c :: cs →
      Step 0 s (post_io_dispatch s r rest b)

/-- A sequence of elementary steps; the number counts the popped events. -/
inductive Chain : Nat → State → State → Prop where
  | refl (s : State) : Chain 0 s s
  | cons {n m : Nat} {s t u : State} : Step n s t → Chain m t u → Chain (n + m) s u

/-- Work left in a sequence of bursts: its ticks, plus one per burst. -/
def work (bursts : List Nat) : Nat := bursts.sum + bursts.length

/-- Bound on the number of events still to be applied to a job. -/
def job_potential (j : job) : Nat :=
  match j.state with
  | JOB_NEW => work j.bursts + 1
  | JOB_TERMINATED => 0
  | _ => work j.bursts

/-- Bound on the number of events still to be applied. -/
def potential (s : State) : Nat := (s.JOBS.map job_potential).sum

/-- Ticks until the clock, counting modulo `2 ^ 64`, is at the due time of
the top event. -/
def top_distance (s : State) : Nat :=
  match pq_top s.EVENT_Q with
  | none => 0
  | some e => (e.arrival_time + U64 - s.TIME) % U64

/-- The CPU time `dispatch` grants for these bursts: the quantum when the
front burst exceeds it, the front burst otherwise. -/
def burst_slice (bursts : List Nat) (q : Nat) : Nat :=
  match bursts with
  | [] => 0
  | b :: _ => if b > q then q else b

/-- The front burst, 0 when there is none. -/
def front_burst (bursts : List Nat) : Nat :=
  match bursts with
  | [] => 0
  | b :: _ => b

/-- Accounting of job `j` at position `i`, `total` being the sum of its
original bursts; every equation is modulo `2 ^ 64`.  With
`A = arrival + wait + io + total`: a queued job has `TIME + remaining = A`;
a job on a device has `due + remaining = A + granted`, `due` being the due
time of the event that ends its stay. -/
def acc_job (s : State) (total : Nat) (i : Nat) (j : job) : Prop :=
  match j.state with
  | JOB_NEW =>
    j.wait_time = 0 ∧ j.io_time = 0 ∧ j.bursts.sum = total ∧
      ∀ e ∈ s.EVENT_Q, e.type = EVT_ARRIVE → e.jid = i → e.arrival_time = j.arrival_time
  | JOB_READY =>
    (s.TIME + j.bursts.sum) % U64
      = (j.arrival_time + j.wait_time + j.io_time + total) % U64
  | JOB_RUNNING =>
    ∀ e ∈ s.EVENT_Q, is_cpu_event e.type = true →
      (e.arrival_time + j.bursts.sum) % U64
        = (j.arrival_time + j.wait_time + j.io_time + total
            + burst_slice j.bursts s.QUANTUM) % U64
  | JOB_BLOCKED =>
    (s.IO_JOB = some i → ∀ e ∈ s.EVENT_Q, e.type = EVT_IO_RECIEVE →
      (e.arrival_time + j.bursts.sum) % U64
        = (j.arrival_time + j.wait_time + j.io_time + total + front_burst j.bursts) % U64) ∧
    (s.IO_JOB ≠ some i →
      (s.TIME + j.bursts.sum) % U64
        = (j.arrival_time + j.wait_time + j.io_time + total) % U64)
  | JOB_TERMINATED =>
    j.turn_around_time = (j.wait_time + j.io_time + total) % U64

/-- Accounting invariant, `tot i` being the sum of the original bursts of
job `i`. -/
def Acc (tot : Nat → Nat) (s : State) : Prop :=
  ∀ (i : Nat) (j : job), s.JOBS[i]? = some j → acc_job s (tot i) i j

/-- Sum of the bursts of job `i` in the table of state `s0`. -/
def orig_total (s0 : State) (i : Nat) : Nat :=
  match s0.JOBS[i]? with
  | some o => o.bursts.sum
  | none => 0

/-- The CPU bursts of a burst list: positions 1, 3, 5, ... -/
def cpu_bursts : List Nat → List Nat
  | [] => []
  | [b] => [b]
  | b :: _ :: rest => b :: cpu_bursts rest

/-- Every job of the table is as `jobs_parse_file` leaves it: New, with
no wait or IO time, and its Arrive events are due at its arrival time. -/
def Fresh (s : State) : Prop :=
  ∀ (i : Nat) (j : job), s.JOBS[i]? = some j →
    j.state = JOB_NEW ∧ j.wait_time = 0 ∧ j.io_time = 0 ∧
      ∀ e ∈ s.EVENT_Q, e.type = EVT_ARRIVE → e.jid = i → e.arrival_time = j.arrival_time

/-- CPU time a job still needs: the sum of its remaining CPU bursts (a
Blocked job has an IO burst in front, a Terminated job needs none). -/
def cpu_left (j : job) : Nat :=
  match j.state with
  | JOB_BLOCKED => (cpu_bursts j.bursts.tail).sum
  | JOB_TERMINATED => 0
  | _ => (cpu_bursts j.bursts).sum

/-- CPU time the jobs of the table still need. -/
def cpu_left_total (s : State) : Nat := (s.JOBS.map cpu_left).sum

/-- CPU accounting, `C` being the CPU time the workload needs in all;
both equations are modulo `2 ^ 64`.  With the CPU idle,
`TIME + (CPU time still needed) = CPU_IDLE_TIME + C`; with a job on the
CPU, `due + (CPU time still needed) = CPU_IDLE_TIME + C + granted`, `due`
being the due time of the event that ends its stay. -/
def CpuAcc (C : Nat) (s : State) : Prop :=
  (s.CPU_JOB = none →
    (s.TIME + cpu_left_total s) % U64 = (s.CPU_IDLE_TIME + C) % U64) ∧
  (∀ (r : Nat) (j : job), s.CPU_JOB = some r → s.JOBS[r]? = some j →
    ∀ e ∈ s.EVENT_Q, is_cpu_event e.type = true →
      (e.arrival_time + cpu_left_total s) % U64
        = (s.CPU_IDLE_TIME + C + burst_slice j.bursts s.QUANTUM) % U64)

/-- Job `x` has the bursts `bursts` and is New, Ready or Running. -/
def Unfinished (x : Nat) (bursts : List Nat) (s : State) : Prop :=
  ∃ j, s.JOBS[x]? = some j ∧ j.bursts = bursts ∧
    (j.state = JOB_NEW ∨ j.state = JOB_READY ∨ j.state = JOB_RUNNING)

/-! ## The event queue is a heap -/

theorem event_type_val_lt (t : event_type) : t.val < 5 := by
  cases t <;> simp [event_type.val]

theorem less_event_iff (a b : event) : less_event a b = true ↔ key b < key a := by
  have ha := event_type_val_lt a.type
  have hb := event_type_val_lt b.type
  unfold less_event key
  split
  · rename_i h
    simp only [decide_eq_true_eq, h]
    omega
  · rename_i h
    simp only [decide_eq_true_eq]
    omega

theorem getD_set (l : List event) (i j : Nat) (x d : event) :
    (l.set i x).getD j d = if i = j ∧ i < l.length then x else l.getD j d := by
  simp only [List.getD_eq_getElem?_getD, List.getElem?_set]
  by_cases h : i = j
  · subst h
    by_cases h2 : i < l.length
    · simp [h2]
    · have : l[i]? = none := List.getElem?_eq_none (by omega)
      simp [h2, this]
  · simp [h]

theorem set_perm_cons_eraseIdx (l : List event) (i : Nat) (x : event) (h : i < l.length) :
    (l.set i x).Perm (x :: l.eraseIdx i) := by
  induction l generalizing i with
  | nil => simp at h
  | cons a t ih =>
    cases i with
    | zero => simp
    | succ k =>
      simp only [List.set_cons_succ, List.eraseIdx_cons_succ]
      have := ih k (by simpa using h)
      exact (List.Perm.cons a this).trans (List.Perm.swap x a _)

theorem perm_getD_cons_eraseIdx (l : List event) (i : Nat) (d : event) (h : i < l.length) :
    l.Perm (l.getD i d :: l.eraseIdx i) := by
  have := set_perm_cons_eraseIdx l i (l.getD i d) h
  have e : l.set i (l.getD i d) = l := by
    apply List.ext_getElem?
    intro n
    rw [List.getElem?_set]
    by_cases hn : i = n
    · subst hn
      simp [h]
    · simp [hn]
  rw [e] at this
  exact this

theorem set_swap_perm (l : List event) (i j : Nat) (hi : i < l.length) (hj : j < l.length)
    (hne : i ≠ j) (v d : event) :
    ((l.set i (l.getD j d)).set j v).Perm (l.set i v) := by
  have h1 := set_perm_cons_eraseIdx (l.set i (l.getD j d)) j v (by simpa using hj)
  have h2 := set_perm_cons_eraseIdx l i v hi
  have h3 := set_perm_cons_eraseIdx l i (l.getD j d) hi
  have h4 := perm_getD_cons_eraseIdx (l.set i (l.getD j d)) j d (by simpa using hj)
  rw [getD_set] at h4
  simp only [hne, false_and, if_false] at h4
  have h5 : ((l.set i (l.getD j d)).eraseIdx j).Perm (l.eraseIdx i) :=
    (List.perm_cons _).1 (h4.symm.trans h3)
  exact h1.trans ((List.Perm.cons v h5).trans h2.symm)

theorem push_heap_loop_length (value : event) (top : Nat) :
    ∀ (fuel : Nat) (first : List event) (hole : Nat),
      (push_heap_loop fuel first hole top value).length = first.length := by
  intro fuel
  induction fuel with
  | zero => intro first hole; simp [push_heap_loop]
  | succ f ih =>
    intro first hole
    unfold push_heap_loop
    split
    · rw [ih]; simp
    · simp

theorem push_heap_loop_perm (value : event) (top : Nat) :
    ∀ (fuel : Nat) (first : List event) (hole : Nat), hole < first.length →
      (push_heap_loop fuel first hole top value).Perm (first.set hole value) := by
  intro fuel
  induction fuel with
  | zero => intro first hole _; simp [push_heap_loop]
  | succ f ih =>
    intro first hole hlt
    unfold push_heap_loop
    split
    · rename_i hc
      have hp : (hole - 1) / 2 < hole := by omega
      have h1 := ih (first.set hole (first.getD ((hole - 1) / 2) value)) ((hole - 1) / 2)
        (by simp; omega)
      exact h1.trans (set_swap_perm first hole ((hole - 1) / 2) hlt (by omega) (by omega) value value)
    · exact List.Perm.refl _

theorem push_heap_loop_getD_gt (value d : event) (top : Nat) :
    ∀ (fuel : Nat) (first : List event) (hole k : Nat), hole < k →
      (push_heap_loop fuel first hole top value).getD k d = first.getD k d := by
  intro fuel
  induction fuel with
  | zero =>
    intro first hole k hk
    simp only [push_heap_loop, getD_set]
    rw [if_neg]; omega
  | succ f ih =>
    intro first hole k hk
    unfold push_heap_loop
    split
    · rw [ih _ _ k (by omega), getD_set, if_neg]; omega
    · rw [getD_set, if_neg]; omega

theorem push_heap_loop_heap (value : event) (n : Nat) :
    ∀ (fuel : Nat) (first : List event) (hole : Nat),
      hole ≤ fuel → hole < n → n ≤ first.length →
      (∀ i, 0 < i → i < n → i ≠ hole →
        key ((first.set hole value).getD ((i - 1) / 2) value)
          ≤ key ((first.set hole value).getD i value)) →
      (0 < hole → ∀ c, 0 < c → c < n → (c - 1) / 2 = hole →
        key (first.getD ((hole - 1) / 2) value) ≤ key (first.getD c value)) →
      HeapUpTo value (push_heap_loop fuel first hole 0 value) n := by
  intro fuel
  induction fuel with
  | zero =>
    intro first hole hf hn hlen h1 _
    have h0 : hole = 0 := by omega
    subst h0
    intro i hi hin
    simp only [push_heap_loop]
    exact h1 i hi hin (by omega)
  | succ f ih =>
    intro first hole hf hn hlen h1 h2
    unfold push_heap_loop
    split
    · rename_i hc
      obtain ⟨hpos, hless⟩ := hc
      rw [less_event_iff] at hless
      have hp : (hole - 1) / 2 < hole := by omega
      have hpos' : 0 < hole := hpos
      have h2' := h2 hpos'
      apply ih _ _ (by omega) (by omega) (by simpa using hlen)
      · intro i hi hin hne
        have a1 := h1 i hi hin
        have a2 := h2' i hi hin
        simp only [getD_set, List.length_set] at a1 ⊢
        by_cases e1 : i = hole
        · subst e1
          rw [if_pos ⟨rfl, by omega⟩, if_neg (by omega), if_pos ⟨rfl, by omega⟩]
          omega
        · by_cases e2 : (i - 1) / 2 = hole
          · have a2' := a2 e2
            rw [if_neg (by omega), if_pos ⟨e2.symm, by omega⟩, if_neg (by omega), if_neg (by omega)]
            exact a2'
          · have a1' := a1 e1
            rw [if_neg (by omega), if_neg (by omega)] at a1'
            by_cases e3 : (i - 1) / 2 = (hole - 1) / 2
            · rw [if_pos ⟨e3.symm, by omega⟩, if_neg (by omega), if_neg (by omega)]
              rw [e3] at a1'
              omega
            · rw [if_neg (by omega), if_neg (by omega), if_neg (by omega), if_neg (by omega)]
              exact a1'
      · intro hpp c hc hcn hcp
        have b1 := h1 ((hole - 1) / 2) hpp (by omega) (by omega)
        simp only [getD_set] at b1 ⊢
        rw [if_neg (by omega), if_neg (by omega)] at b1
        rw [if_neg (by omega)]
        by_cases e1 : c = hole
        · subst e1
          rw [if_pos ⟨rfl, by omega⟩]
          exact b1
        · rw [if_neg (by omega)]
          have b2 := h1 c hc hcn e1
          simp only [getD_set] at b2
          rw [hcp, if_neg (by omega), if_neg (by omega)] at b2
          omega
    · rename_i hc
      intro i hi hin
      by_cases e1 : i = hole
      · subst e1
        have hless : ¬ less_event (first.getD ((i - 1) / 2) value) value = true := by
          intro h; exact hc ⟨hi, h⟩
        rw [less_event_iff] at hless
        rw [getD_set, getD_set, if_neg (by omega), if_pos ⟨rfl, by omega⟩]
        omega
      · exact h1 i hi hin e1

theorem getD_set_ne (l : List event) (i j : Nat) (x d : event) (h : i ≠ j) :
    (l.set i x).getD j d = l.getD j d := by
  rw [getD_set, if_neg (fun hh => h hh.1)]

theorem getD_set_eq (l : List event) (i : Nat) (x d : event) (h : i < l.length) :
    (l.set i x).getD i d = x := by
  rw [getD_set, if_pos ⟨rfl, h⟩]

theorem adjust_heap_down_step (value : event) (len f : Nat) (first : List event) (hole : Nat)
    (hc : hole < (len - 1) / 2) :
    ∃ child, (child = 2 * hole + 1 ∨ child = 2 * hole + 2) ∧
      key (first.getD child value) ≤ key (first.getD (2 * hole + 1) value) ∧
      key (first.getD child value) ≤ key (first.getD (2 * hole + 2) value) ∧
      adjust_heap_down (f + 1) first hole len value =
        adjust_heap_down f (first.set hole (first.getD child value)) child len value := by
  have e1 : 2 * (hole + 1) - 1 = 2 * hole + 1 := by omega
  have e2 : 2 * (hole + 1) = 2 * hole + 2 := by omega
  have e3 : 2 * hole + 2 - 1 = 2 * hole + 1 := by omega
  by_cases hl : less_event (first.getD (2 * hole + 2) value)
      (first.getD (2 * hole + 1) value) = true
  · refine ⟨2 * hole + 1, Or.inl rfl, le_refl _, ?_, ?_⟩
    · rw [less_event_iff] at hl; omega
    · rw [adjust_heap_down, if_pos hc]
      simp only [e1, e2, e3, hl, if_true]
  · refine ⟨2 * hole + 2, Or.inr rfl, ?_, le_refl _, ?_⟩
    · rw [less_event_iff] at hl; omega
    · rw [adjust_heap_down, if_pos hc]
      simp only [e1, e2, e3, hl]
      rfl

theorem adjust_heap_down_stop (value : event) (len f : Nat) (first : List event) (hole : Nat)
    (hc : ¬ hole < (len - 1) / 2) :
    adjust_heap_down f first hole len value = (first, hole) := by
  cases f with
  | zero => rfl
  | succ f => rw [adjust_heap_down, if_neg hc]

theorem adjust_heap_down_spec (value d : event) (len : Nat) :
    ∀ (fuel : Nat) (first : List event) (hole : Nat),
      hole < len → len ≤ first.length → (len - 1) / 2 ≤ fuel + hole →
      DownInv value first hole len →
      (adjust_heap_down fuel first hole len value).1.length = first.length ∧
      (adjust_heap_down fuel first hole len value).2 < len ∧
      ¬ (adjust_heap_down fuel first hole len value).2 < (len - 1) / 2 ∧
      hole ≤ (adjust_heap_down fuel first hole len value).2 ∧
      DownInv value (adjust_heap_down fuel first hole len value).1
        (adjust_heap_down fuel first hole len value).2 len ∧
      (((adjust_heap_down fuel first hole len value).1.set
          (adjust_heap_down fuel first hole len value).2 value).Perm (first.set hole value)) ∧
      (∀ k, len ≤ k →
        (adjust_heap_down fuel first hole len value).1.getD k d = first.getD k d) := by
  intro fuel
  induction fuel with
  | zero =>
    intro first hole hlt hlen hfuel hinv
    rw [adjust_heap_down_stop value len 0 first hole (by omega)]
    exact ⟨rfl, hlt, by omega, le_refl _, hinv, List.Perm.refl _, fun _ _ => rfl⟩
  | succ f ih =>
    intro first hole hlt hlen hfuel hinv
    by_cases hc : hole < (len - 1) / 2
    · obtain ⟨child, hcases, hk1, hk2, heq⟩ := adjust_heap_down_step value len f first hole hc
      rw [heq]
      have hchlt : child < len := by omega
      have hpar : (child - 1) / 2 = hole := by omega
      have hinv' : DownInv value (first.set hole (first.getD child value)) child len := by
        obtain ⟨ha, hb⟩ := hinv
        constructor
        · intro i hi hin hne hpne
          by_cases e1 : i = hole
          · subst e1
            rw [getD_set_eq _ _ _ _ (by omega), getD_set_ne _ _ _ _ _ (by omega)]
            exact hb hi child (by omega) hchlt hpar
          · rw [getD_set_ne _ hole i _ _ (by omega)]
            by_cases e2 : (i - 1) / 2 = hole
            · rw [e2, getD_set_eq _ _ _ _ (by omega)]
              have : i = 2 * hole + 1 ∨ i = 2 * hole + 2 := by omega
              rcases this with h | h
              · rw [h]; exact hk1
              · rw [h]; exact hk2
            · rw [getD_set_ne _ _ _ _ _ (by omega)]
              exact ha i hi hin e1 e2
        · intro _ c hc0 hcn hcp
          rw [hpar, getD_set_eq _ _ _ _ (by omega), getD_set_ne _ _ _ _ _ (by omega)]
          have hh := ha c hc0 hcn (by omega) (by omega)
          rw [hcp] at hh
          exact hh
      have := ih (first.set hole (first.getD child value)) child hchlt (by simpa using hlen)
        (by omega) hinv'
      obtain ⟨r1, r2, r3, r4, r5, r6, r7⟩ := this
      refine ⟨by rw [r1]; simp, r2, r3, by omega, r5, ?_, ?_⟩
      · exact r6.trans (set_swap_perm first hole child (by omega) (by omega) (by omega) value value)
      · intro k hk
        rw [r7 k hk, getD_set_ne _ _ _ _ _ (by omega)]
    · rw [adjust_heap_down_stop value len _ first hole hc]
      exact ⟨rfl, hlt, hc, le_refl _, hinv, List.Perm.refl _, fun _ _ => rfl⟩

theorem adjust_heap_spec (value d : event) (first : List event) (len : Nat)
    (hpos : 0 < len) (hlen : len ≤ first.length) (hinv : DownInv value first 0 len) :
    (adjust_heap first 0 len value).length = first.length ∧
    (adjust_heap first 0 len value).Perm (first.set 0 value) ∧
    (∀ k, len ≤ k → (adjust_heap first 0 len value).getD k d = first.getD k d) ∧
    HeapUpTo value (adjust_heap first 0 len value) len := by
  obtain ⟨r1, r2, r3, r4, r5, r6, r7⟩ :=
    adjust_heap_down_spec value d len len first 0 hpos hlen (by omega) hinv
  unfold adjust_heap
  simp only []
  generalize adjust_heap_down len first 0 len value = r at r1 r2 r3 r4 r5 r6 r7
  obtain ⟨first1, hole1⟩ := r
  simp only [] at r1 r2 r3 r4 r5 r6 r7 ⊢
  obtain ⟨ha, hb⟩ := r5
  split
  · rename_i hc
    obtain ⟨hev, hh⟩ := hc
    have e1 : 2 * (hole1 + 1) - 1 = len - 1 := by omega
    have hne : hole1 ≠ len - 1 := by omega
    rw [e1]
    refine ⟨?_, ?_, ?_, ?_⟩
    · rw [push_heap_loop_length]; simp [r1]
    · refine (push_heap_loop_perm value 0 _ _ _ (by simp; omega)).trans ?_
      exact (set_swap_perm first1 hole1 (len - 1) (by omega) (by omega) hne value value).trans r6
    · intro k hk
      rw [push_heap_loop_getD_gt value d 0 _ _ _ k (by omega), getD_set_ne _ _ _ _ _ (by omega)]
      exact r7 k hk
    · apply push_heap_loop_heap value len _ _ _ (le_refl _) (by omega) (by simp; omega)
      · intro i hi hin hne2
        rw [getD_set_ne _ (len - 1) ((i - 1) / 2) _ _ (by omega),
          getD_set_ne _ (len - 1) i _ _ (by omega)]
        by_cases e2 : i = hole1
        · subst e2
          rw [getD_set_eq _ _ _ _ (by omega), getD_set_ne _ _ _ _ _ (by omega)]
          exact hb hi (len - 1) (by omega) (by omega) (by omega)
        · rw [getD_set_ne _ hole1 i _ _ (by omega), getD_set_ne _ hole1 _ _ _ (by omega)]
          exact ha i hi hin e2 (by omega)
      · intro _ c hc hcn hcp
        omega
  · rename_i hc
    have hnochild : ∀ c, 0 < c → c < len → (c - 1) / 2 ≠ hole1 := by
      intro c hc0 hcn hcp
      apply hc
      omega
    refine ⟨?_, ?_, ?_, ?_⟩
    · rw [push_heap_loop_length]; exact r1
    · exact (push_heap_loop_perm value 0 _ _ _ (by omega)).trans r6
    · intro k hk
      rw [push_heap_loop_getD_gt value d 0 _ _ _ k (by omega)]
      exact r7 k hk
    · apply push_heap_loop_heap value len _ _ _ (le_refl _) r2 (by omega)
      · intro i hi hin hne2
        rw [getD_set_ne _ hole1 i _ _ (by omega),
          getD_set_ne _ hole1 _ _ _ (by have := hnochild i hi hin; omega)]
        exact ha i hi hin hne2 (hnochild i hi hin)
      · intro _ c hc0 hcn hcp
        exact absurd hcp (hnochild c hc0 hcn)

theorem getD_of_getElem_opt (q : List event) (i : Nat) (x d : event) (h : q[i]? = some x) :
    q.getD i d = x := by
  simp [List.getD_eq_getElem?_getD, h]

theorem getElem_opt_of_lt (q : List event) (i : Nat) (d : event) (h : i < q.length) :
    q[i]? = some (q.getD i d) := by
  simp [List.getD_eq_getElem?_getD, List.getElem?_eq_getElem h]

theorem isHeap_iff_heapUpTo (d : event) (q : List event) :
    IsHeap q ↔ HeapUpTo d q q.length := by
  constructor
  · intro h i hi hlt
    have h1 := getElem_opt_of_lt q i d hlt
    have h2 := getElem_opt_of_lt q ((i - 1) / 2) d (by omega)
    have := h i _ _ hi h1 h2
    have hn : ¬ less_event (q.getD ((i - 1) / 2) d) (q.getD i d) = true := by
      rw [this]; exact Bool.false_ne_true
    rw [less_event_iff] at hn
    omega
  · intro h i x y hi hx hy
    have hlt : i < q.length := by
      by_contra hc
      rw [List.getElem?_eq_none (by omega)] at hx
      cases hx
    have := h i hi hlt
    rw [getD_of_getElem_opt q i x d hx, getD_of_getElem_opt q _ y d hy] at this
    have hn : ¬ less_event y x = true := by
      rw [less_event_iff]; omega
    exact Bool.eq_false_iff.mpr hn

theorem heapUpTo_congr (d d' : event) (a b : List event) (n : Nat) (hb : n ≤ b.length)
    (h : ∀ k, k < n → a.getD k d = b.getD k d) (ha : HeapUpTo d a n) : HeapUpTo d' b n := by
  intro i hi hlt
  have e1 : b.getD i d' = b.getD i d := by
    rw [List.getD_eq_getElem _ _ (by omega), List.getD_eq_getElem _ _ (by omega)]
  have e2 : b.getD ((i - 1) / 2) d' = b.getD ((i - 1) / 2) d := by
    rw [List.getD_eq_getElem _ _ (by omega), List.getD_eq_getElem _ _ (by omega)]
  rw [e1, e2, ← h i hlt, ← h _ (by omega)]
  exact ha i hi hlt

theorem isHeap_nil : IsHeap [] := by
  intro i x y _ hx _
  simp at hx

theorem pq_push_eq (q : List event) (x : event) :
    pq_push q x = push_heap_loop q.length (q ++ [x]) q.length 0 x := by
  simp [pq_push, push_heap]

theorem pq_push_perm (q : List event) (x : event) : (pq_push q x).Perm (x :: q) := by
  rw [pq_push_eq]
  refine (push_heap_loop_perm x 0 _ _ _ (by simp)).trans ?_
  have : (q ++ [x]).set q.length x = q ++ [x] := by
    apply List.ext_getElem?
    intro n
    rw [List.getElem?_set]
    by_cases h : q.length = n
    · subst h; simp
    · simp [h]
  rw [this]
  exact List.perm_append_singleton x q

theorem pq_push_heap (q : List event) (x : event) (h : IsHeap q) : IsHeap (pq_push q x) := by
  rw [isHeap_iff_heapUpTo x] at h ⊢
  rw [pq_push_eq, push_heap_loop_length]
  have hl : (q ++ [x]).length = q.length + 1 := by simp
  rw [hl]
  apply push_heap_loop_heap x (q.length + 1) _ _ _ (le_refl _) (by omega) (by omega)
  · intro i hi hin hne
    have hi' : i < q.length := by omega
    rw [getD_set_ne _ _ _ _ _ (by omega), getD_set_ne _ _ _ _ _ (by omega),
      List.getD_append _ _ _ _ hi', List.getD_append _ _ _ _ (by omega)]
    exact h i hi hi'
  · intro _ k hc hcn hcp
    omega

theorem pop_heap_eq (q : List event) (a b : event) (t : List event) (hc : q = a :: b :: t) (d : event) :
    pop_heap q = adjust_heap (q.set (q.length - 1) a) 0 (q.length - 1) (q.getD (q.length - 1) d) := by
  subst hc
  have hl : (a :: b :: t).getLast? = some ((a :: b :: t).getD ((a :: b :: t).length - 1) d) := by
    rw [List.getLast?_eq_getElem?]
    exact getElem_opt_of_lt _ _ d (by simp)
  unfold pop_heap
  rw [if_pos (by simp), hl]
  rfl

theorem set_getD_self (q : List event) (i : Nat) (d : event) : q.set i (q.getD i d) = q := by
  apply List.ext_getElem?
  intro n
  rw [List.getElem?_set]
  by_cases hn : i = n
  · subst hn
    by_cases hl : i < q.length
    · rw [if_pos rfl, if_pos hl]
      exact (getElem_opt_of_lt q _ d hl).symm
    · rw [if_pos rfl, if_neg hl, List.getElem?_eq_none (by omega)]
  · simp [hn]

theorem pop_heap_spec (q : List event) (a b : event) (t : List event) (hq : q = a :: b :: t)
    (hheap : IsHeap q) :
    (pop_heap q).length = q.length ∧ (pop_heap q).Perm q ∧
      (pop_heap q).getD (q.length - 1) a = a ∧
      HeapUpTo (q.getD (q.length - 1) a) (pop_heap q) (q.length - 1) := by
  have hlen : q.length = t.length + 2 := by rw [hq]; simp
  have ha0 : q.getD 0 a = a := by rw [hq]; rfl
  have hpop := pop_heap_eq q a b t hq a
  rw [hpop]
  have hdown : DownInv (q.getD (q.length - 1) a) (q.set (q.length - 1) a) 0 (q.length - 1) := by
    rw [isHeap_iff_heapUpTo (q.getD (q.length - 1) a)] at hheap
    constructor
    · intro i hi hin _ _
      rw [getD_set_ne _ _ _ _ _ (by omega), getD_set_ne _ _ _ _ _ (by omega)]
      exact hheap i hi (by omega)
    · intro h; omega
  obtain ⟨s1, s2, s3, s4⟩ :=
    adjust_heap_spec (q.getD (q.length - 1) a) a (q.set (q.length - 1) a) (q.length - 1)
      (by omega) (by simp) hdown
  refine ⟨by rw [s1]; simp, ?_, ?_, s4⟩
  · refine s2.trans ?_
    have := set_swap_perm q (q.length - 1) 0 (by omega) (by omega) (by omega)
      (q.getD (q.length - 1) a) a
    rw [ha0] at this
    refine this.trans ?_
    rw [set_getD_self]
  · rw [s3 (q.length - 1) (le_refl _), getD_set_eq _ _ _ _ (by omega)]

theorem dropLast_append_getD (r : List event) (d : event) (h : 0 < r.length) :
    r = r.dropLast ++ [r.getD (r.length - 1) d] := by
  have hne : r ≠ [] := by
    intro h0; rw [h0] at h; simp at h
  have := (List.dropLast_append_getLast hne).symm
  have e : r.getLast hne = r.getD (r.length - 1) d := by
    rw [List.getLast_eq_getElem, List.getD_eq_getElem]
  rw [e] at this
  exact this

theorem pq_pop_spec (q : List event) (e : event) (htop : pq_top q = some e) (hheap : IsHeap q) :
    q.Perm (e :: pq_pop q) ∧ IsHeap (pq_pop q) := by
  match q, htop, hheap with
  | [a], htop, _ =>
    simp [pq_top] at htop
    subst htop
    have : pq_pop [a] = [] := by simp [pq_pop, pop_heap]
    rw [this]
    exact ⟨List.Perm.refl _, isHeap_nil⟩
  | a :: b :: t, htop, hheap =>
    simp [pq_top] at htop
    subst htop
    generalize hq : a :: b :: t = q at hheap ⊢
    have hlen : q.length = t.length + 2 := by rw [← hq]; simp
    obtain ⟨s1, s2, s3, s4⟩ := pop_heap_spec q a b t hq.symm hheap
    have hsplit := dropLast_append_getD (pop_heap q) a (by omega)
    rw [s1, s3] at hsplit
    constructor
    · have h1 : q.Perm (pq_pop q ++ [a]) := by
        unfold pq_pop
        rw [← hsplit]
        exact s2.symm
      exact h1.trans (List.perm_append_singleton a _)
    · rw [isHeap_iff_heapUpTo a]
      have hl : (pq_pop q).length = q.length - 1 := by simp [pq_pop, s1]
      rw [hl]
      apply heapUpTo_congr _ a (pop_heap q) (pq_pop q) (q.length - 1) (by omega) _ s4
      intro k hk
      unfold pq_pop
      conv_lhs => rw [hsplit]
      rw [List.getD_append _ _ _ _ (by simp [s1]; omega)]

theorem key_top_le (d : event) (q : List event) (h : HeapUpTo d q q.length) :
    ∀ i, i < q.length → key (q.getD 0 d) ≤ key (q.getD i d) := by
  intro i
  induction i using Nat.strong_induction_on with
  | _ i ih =>
    intro hi
    by_cases h0 : i = 0
    · subst h0; exact le_refl _
    · have h1 := h i (by omega) hi
      have h2 := ih ((i - 1) / 2) (by omega) (by omega)
      omega

theorem pq_top_max (q : List event) (e : event) (hheap : IsHeap q) (htop : pq_top q = some e) :
    ∀ x ∈ q, key e ≤ key x := by
  intro x hx
  rw [isHeap_iff_heapUpTo e] at hheap
  obtain ⟨i, hi, hget⟩ := List.getElem_of_mem hx
  have := key_top_le e q hheap i hi
  have e0 : q.getD 0 e = e := by
    unfold pq_top at htop
    cases q with
    | nil => simp at htop
    | cons a t => simp at htop; subst htop; rfl
  rw [e0, List.getD_eq_getElem _ _ hi, hget] at this
  exact this

theorem pqReach_isHeap (q : List event) (h : PQReach q) : IsHeap q := by
  induction h with
  | empty => exact isHeap_nil
  | push q x _ ih => exact pq_push_heap q x ih
  | pop q _ ih =>
    cases htop : pq_top q with
    | none =>
      have : q = [] := by
        cases q with
        | nil => rfl
        | cons a t => simp [pq_top] at htop
      subst this
      exact isHeap_nil
    | some e => exact (pq_pop_spec q e htop ih).2

/-! ## Popping a queue until it is empty -/

theorem pq_push_all_spec (l : List event) : ∀ (q : List event), IsHeap q →
    IsHeap (pq_push_all q l) ∧ (pq_push_all q l).Perm (q ++ l) := by
  induction l with
  | nil => intro q h; exact ⟨h, by simp [pq_push_all]⟩
  | cons x xs ih =>
    intro q h
    obtain ⟨h1, h2⟩ := ih (pq_push q x) (pq_push_heap q x h)
    refine ⟨h1, ?_⟩
    have h3 : (pq_push q x ++ xs).Perm (q ++ x :: xs) := by
      have := (pq_push_perm q x).append_right xs
      refine this.trans ?_
      simp only [List.cons_append]
      exact List.perm_middle.symm
    exact h2.trans h3

/-- Popping a heap until it is empty gives its events in ascending order
of the sort key. -/
theorem pq_drain_spec : ∀ (n : Nat) (q : List event), IsHeap q → q.length ≤ n →
    (pq_drain n q).Perm q ∧ (pq_drain n q).Pairwise (fun a b => key a ≤ key b) := by
  intro n
  induction n with
  | zero =>
    intro q _ hl
    have : q = [] := List.length_eq_zero.1 (by omega)
    subst this
    exact ⟨List.Perm.refl _, List.Pairwise.nil⟩
  | succ n ih =>
    intro q hq hl
    cases htop : pq_top q with
    | none =>
      have : q = [] := by
        cases q with
        | nil => rfl
        | cons a t => simp [pq_top] at htop
      subst this
      simp [pq_drain, pq_top]
    | some e =>
      obtain ⟨hp, hh⟩ := pq_pop_spec q e htop hq
      have hlen : (pq_pop q).length ≤ n := by
        have := hp.length_eq
        simp only [List.length_cons] at this
        omega
      obtain ⟨i1, i2⟩ := ih (pq_pop q) hh hlen
      have hd : pq_drain (n + 1) q = e :: pq_drain n (pq_pop q) := by
        simp only [pq_drain, htop]
      rw [hd]
      refine ⟨((List.Perm.cons e i1).trans hp.symm), List.Pairwise.cons ?_ i2⟩
      intro b hb
      have hb2 : b ∈ q := hp.symm.subset (List.mem_cons_of_mem _ (i1.subset hb))
      exact pq_top_max q e hq htop b hb2

theorem drain_order_spec (l : List event) :
    (drain_order l).Perm l ∧ (drain_order l).Pairwise (fun a b => key a ≤ key b) := by
  obtain ⟨h1, h2⟩ := pq_push_all_spec l [] isHeap_nil
  simp only [List.nil_append] at h2
  obtain ⟨h3, h4⟩ := pq_drain_spec l.length (pq_push_all [] l) h1 (le_of_eq h2.length_eq)
  exact ⟨h3.trans h2, h4⟩

theorem key_eq_iff (a b : event) :
    key a = key b ↔ a.arrival_time = b.arrival_time ∧ a.type = b.type := by
  have ha := event_type_val_lt a.type
  have hb := event_type_val_lt b.type
  unfold key
  constructor
  · intro h
    have h1 : a.arrival_time = b.arrival_time := by omega
    refine ⟨h1, ?_⟩
    have h2 : a.type.val = b.type.val := by omega
    revert h2
    cases a.type <;> cases b.type <;> simp [event_type.val]
  · rintro ⟨h1, h2⟩
    rw [h1, h2]

theorem eq_of_map_key_eq : ∀ (a b : List event), a.map key = b.map key →
    (∀ x ∈ a, ∀ y ∈ b, key x = key y → x = y) → a = b := by
  intro a
  induction a with
  | nil =>
    intro b h _
    cases b with
    | nil => rfl
    | cons y ys => simp at h
  | cons x xs ih =>
    intro b h hinj
    cases b with
    | nil => simp at h
    | cons y ys =>
      simp only [List.map_cons, List.cons.injEq] at h
      have e1 : x = y := hinj x (List.mem_cons_self _ _) y (List.mem_cons_self _ _) h.1
      have e2 := ih ys h.2 (fun u hu v hv huv =>
        hinj u (List.mem_cons_of_mem _ hu) v (List.mem_cons_of_mem _ hv) huv)
      rw [e1, e2]

/-! ## Ticks with empty queues -/

theorem sim_inc_time_empty (s : State) (h1 : s.READY_Q = []) (h2 : s.IO_Q = []) :
    sim_inc_time s = some { s with
      CPU_IDLE_TIME := if is_cpu_idle s then inc64 s.CPU_IDLE_TIME else s.CPU_IDLE_TIME
      TIME := inc64 s.TIME } := by
  simp [sim_inc_time, sim_tally, tally_wait, tally_io, h1, h2]

theorem sim_skip_empty : ∀ (n : Nat) (s : State) (e : event),
    s.READY_Q = [] → s.IO_Q = [] → pq_top s.EVENT_Q = some e →
    e.arrival_time = s.TIME + n → e.arrival_time < U64 →
    ∃ idle, sim_skip n s = some { s with TIME := s.TIME + n, CPU_IDLE_TIME := idle } := by
  intro n
  induction n with
  | zero =>
    intro s e h1 h2 htop ht _
    exact ⟨s.CPU_IDLE_TIME, by simp [sim_skip, htop, ht]⟩
  | succ n ih =>
    intro s e h1 h2 htop ht hlt
    have hinc : inc64 s.TIME = s.TIME + 1 := by
      unfold inc64; unfold U64 at hlt; omega
    obtain ⟨idle, hidle⟩ := ih
      { s with
        CPU_IDLE_TIME := if is_cpu_idle s then inc64 s.CPU_IDLE_TIME else s.CPU_IDLE_TIME
        TIME := inc64 s.TIME } e h1 h2 htop (by simp only [hinc]; omega) hlt
    refine ⟨idle, ?_⟩
    rw [sim_skip, htop]
    simp only []
    rw [if_pos (by omega), sim_inc_time_empty s h1 h2]
    simp only []
    rw [hidle]
    simp only [hinc]
    congr 2
    omega

theorem pq_push_nil (e : event) : pq_push [] e = [e] := rfl

theorem pq_pop_singleton (e : event) : pq_pop [e] = [] := rfl


theorem sim_init_single (q a d : Nat) (ha : 1 ≤ a) (ha2 : a < U64) (hd : d < U64) :
    sim_init q [[a, 1, d]] =
      { READY_Q := [], IO_Q := [], EVENT_Q := [event.mk EVT_ARRIVE 0 a],
        JOBS := [job.mk JOB_NEW 0 a 0 0 0 [d]], TIME := 0, QUANTUM := q, CPU_IDLE_TIME := 0,
        CPU_JOB := none, IO_JOB := none, OUT := [(0, Msg.sim_started q)] } := by
  have hp : jobs_parse_line [a, 1, d] = some (job.mk JOB_NEW 0 a 0 0 0 [d]) := by
    have h1 : ¬ a ≥ U64 := by omega
    have h2 : ¬ a < 1 := by omega
    have h3 : ¬ (1 : Nat) ≥ U64 := by unfold U64; omega
    have h4 : List.takeWhile (fun t => decide (t < U64)) [d] = [d] := by
      simp [List.takeWhile, hd]
    have h5 : sub64 (1 * 2 % U64) 1 = 1 := by decide
    simp only [jobs_parse_line, if_neg h1, if_neg h2, if_neg h3, h4, h5]
    simp
  simp only [sim_init, jobs_parse_file, List.foldl, jobs_parse_step, hp, State.zero, outf,
    pq_push_nil]
  rfl

/-! ## Counting the places of a job -/


theorem getElem_opt_set_cases {l : List job} {r i : Nat} {x j : job}
    (h : (l.set r x)[i]? = some j) : (i = r ∧ j = x) ∨ (i ≠ r ∧ l[i]? = some j) := by
  rw [List.getElem?_set] at h
  by_cases hir : r = i
  · rw [if_pos hir] at h
    split at h
    · exact Or.inl ⟨hir.symm, by cases h; rfl⟩
    · cases h
  · rw [if_neg hir] at h
    exact Or.inr ⟨fun hh => hir hh.symm, h⟩

theorem getElem_opt_lt {l : List job} {i : Nat} {j : job} (h : l[i]? = some j) : i < l.length := by
  by_contra hc
  rw [List.getElem?_eq_none (by omega)] at h
  cases h

theorem arrive_count_cons (e : event) (q : List event) (i : Nat) :
    arrive_count (e :: q) i
      = arrive_count q i + (if e.type = EVT_ARRIVE ∧ e.jid = i then 1 else 0) := by
  unfold arrive_count
  rw [List.countP_cons]
  by_cases h : e.type = EVT_ARRIVE ∧ e.jid = i
  · simp [h]
  · simp [h]

theorem cpu_count_cons (e : event) (q : List event) :
    cpu_count (e :: q) = cpu_count q + (if is_cpu_event e.type = true then 1 else 0) := by
  unfold cpu_count
  rw [List.countP_cons]

theorem io_count_cons (e : event) (q : List event) :
    io_count (e :: q) = io_count q + (if e.type = EVT_IO_RECIEVE then 1 else 0) := by
  unfold io_count
  rw [List.countP_cons]
  by_cases h : e.type = EVT_IO_RECIEVE
  · simp [h]
  · simp [h]

theorem arrive_count_perm {q q1 : List event} (h : q.Perm q1) (i : Nat) :
    arrive_count q i = arrive_count q1 i := h.countP_eq _

theorem cpu_count_perm {q q1 : List event} (h : q.Perm q1) : cpu_count q = cpu_count q1 :=
  h.countP_eq _

theorem io_count_perm {q q1 : List event} (h : q.Perm q1) : io_count q = io_count q1 :=
  h.countP_eq _

theorem count_pos_of_mem {l : List Nat} {i : Nat} (h : i ∈ l) : 1 ≤ l.count i :=
  List.count_pos_iff.2 h

theorem mem_of_count_pos {l : List Nat} {i : Nat} (h : 1 ≤ l.count i) : i ∈ l :=
  List.count_pos_iff.1 h

theorem dev_count_some (i : Nat) : dev_count (some i) i = 1 := by simp [dev_count]

theorem dev_count_none (i : Nat) : dev_count none i = 0 := by simp [dev_count]

theorem dev_count_pos {d : Option Nat} {i : Nat} (h : 1 ≤ dev_count d i) : d = some i := by
  unfold dev_count at h
  by_contra hc
  rw [if_neg hc] at h
  omega

theorem located_num {s : State} {i : Nat} {st : job_state} (h : located s i st) :
    (st = JOB_NEW → 1 ≤ arrive_count s.EVENT_Q i) ∧
    (st = JOB_READY → 1 ≤ s.READY_Q.count i) ∧
    (st = JOB_RUNNING → 1 ≤ dev_count s.CPU_JOB i) ∧
    (st = JOB_BLOCKED → 1 ≤ dev_count s.IO_JOB i + s.IO_Q.count i) := by
  refine ⟨?_, ?_, ?_, ?_⟩
  · intro e; subst e; exact h
  · intro e; subst e; exact count_pos_of_mem h
  · intro e; subst e
    simp only [located] at h
    rw [h, dev_count_some]
  · intro e; subst e
    simp only [located] at h
    rcases h with h | h
    · rw [h, dev_count_some]; omega
    · have := count_pos_of_mem h; omega

/-- The location of a job determines its state. -/
theorem Inv.state_of_loc {s : State} (hI : Inv s) {i : Nat} {j : job} (hij : s.JOBS[i]? = some j) :
    (1 ≤ arrive_count s.EVENT_Q i → j.state = JOB_NEW) ∧
    (i ∈ s.READY_Q → j.state = JOB_READY) ∧
    (s.CPU_JOB = some i → j.state = JOB_RUNNING) ∧
    (s.IO_JOB = some i → j.state = JOB_BLOCKED) ∧
    (i ∈ s.IO_Q → j.state = JOB_BLOCKED) := by
  have h1 := hI.occ_eq i j hij
  obtain ⟨n1, n2, n3, n4⟩ := located_num (hI.loc i j hij)
  unfold occ at h1
  have k2 : i ∈ s.READY_Q → 1 ≤ s.READY_Q.count i := count_pos_of_mem
  have k3 : s.CPU_JOB = some i → dev_count s.CPU_JOB i = 1 := by
    intro h; rw [h]; exact dev_count_some i
  have k4 : s.IO_JOB = some i → dev_count s.IO_JOB i = 1 := by
    intro h; rw [h]; exact dev_count_some i
  have k5 : i ∈ s.IO_Q → 1 ≤ s.IO_Q.count i := count_pos_of_mem
  cases hst : j.state <;> rw [hst] at h1 n1 n2 n3 n4 <;>
    simp only [reduceCtorEq, if_false, if_true, false_implies, true_implies] at h1 n1 n2 n3 n4
  all_goals refine ⟨fun h => ?_, fun h => ?_, fun h => ?_, fun h => ?_, fun h => ?_⟩
  all_goals first
    | rfl
    | (exfalso; omega)
    | (exfalso; have a2 := k2 h; omega)
    | (exfalso; have a3 := k3 h; omega)
    | (exfalso; have a4 := k4 h; omega)
    | (exfalso; have a5 := k5 h; omega)

/-! ## Events and transitions -/


theorem Inv.lt_of_occ {s : State} (hI : Inv s) {i : Nat} (h : 1 ≤ occ s i) :
    i < s.JOBS.length := by
  by_contra hc
  have := hI.occ_out i (by omega)
  omega

theorem Inv.job_of_occ {s : State} (hI : Inv s) {i : Nat} (h : 1 ≤ occ s i) :
    ∃ j, s.JOBS[i]? = some j :=
  ⟨_, List.getElem?_eq_getElem (hI.lt_of_occ h)⟩

/-- What popping the top event does to the counts. -/
theorem Inv.pop_facts {s : State} (hI : Inv s) {e : event} (htop : pq_top s.EVENT_Q = some e) :
    IsHeap (pq_pop s.EVENT_Q) ∧
    (∀ i, arrive_count s.EVENT_Q i
      = arrive_count (pq_pop s.EVENT_Q) i + (if e.type = EVT_ARRIVE ∧ e.jid = i then 1 else 0)) ∧
    cpu_count s.EVENT_Q
      = cpu_count (pq_pop s.EVENT_Q) + (if is_cpu_event e.type = true then 1 else 0) ∧
    io_count s.EVENT_Q
      = io_count (pq_pop s.EVENT_Q) + (if e.type = EVT_IO_RECIEVE then 1 else 0) ∧
    (∀ x ∈ pq_pop s.EVENT_Q, x ∈ s.EVENT_Q) ∧ e ∈ s.EVENT_Q := by
  obtain ⟨hp, hh⟩ := pq_pop_spec s.EVENT_Q e htop hI.heap
  refine ⟨hh, ?_, ?_, ?_, ?_, ?_⟩
  · intro i; rw [arrive_count_perm hp i, arrive_count_cons]
  · rw [cpu_count_perm hp, cpu_count_cons]
  · rw [io_count_perm hp, io_count_cons]
  · intro x hx; exact hp.symm.subset (List.mem_cons_of_mem _ hx)
  · exact hp.symm.subset (List.mem_cons_self _ _)

/-- What pushing an event does to the counts. -/
theorem push_facts (q : List event) (x : event) :
    (∀ i, arrive_count (pq_push q x) i
      = arrive_count q i + (if x.type = EVT_ARRIVE ∧ x.jid = i then 1 else 0)) ∧
    cpu_count (pq_push q x) = cpu_count q + (if is_cpu_event x.type = true then 1 else 0) ∧
    io_count (pq_push q x) = io_count q + (if x.type = EVT_IO_RECIEVE then 1 else 0) ∧
    (∀ y ∈ pq_push q x, y = x ∨ y ∈ q) := by
  have hp := pq_push_perm q x
  refine ⟨?_, ?_, ?_, ?_⟩
  · intro i; rw [arrive_count_perm hp i, arrive_count_cons]
  · rw [cpu_count_perm hp, cpu_count_cons]
  · rw [io_count_perm hp, io_count_cons]
  · intro y hy
    have := hp.subset hy
    simpa using this

theorem cpu_count_zero_not_mem {q : List event} (h : cpu_count q = 0) :
    ∀ e ∈ q, is_cpu_event e.type = false := by
  intro e he
  unfold cpu_count at h
  rw [List.countP_eq_zero] at h
  have := h e he
  simpa using this

theorem io_count_zero_not_mem {q : List event} (h : io_count q = 0) :
    ∀ e ∈ q, e.type ≠ EVT_IO_RECIEVE := by
  intro e he
  unfold io_count at h
  rw [List.countP_eq_zero] at h
  have := h e he
  simpa using this

/-! ### The transitions as functions of the state before -/

theorem apply_arrive_eq (s : State) (e : event) (j : job) (hj : s.JOBS[e.jid]? = some j)
    (hst : j.state = JOB_NEW) (hjid : j.jid = e.jid) (hty : e.type = EVT_ARRIVE) :
    apply_event { s with EVENT_Q := pq_pop s.EVENT_Q } e = some (post_arrive s e.jid j) := by
  have hlt := getElem_opt_lt hj
  simp only [apply_event, hty, get_job, hj, if_pos hlt, arrived, hst, outf, hjid, post_arrive]
  simp

theorem apply_preempt_eq (s : State) (e : event) (r : Nat) (j : job) (hc : s.CPU_JOB = some r)
    (hj : s.JOBS[r]? = some j) (hst : j.state = JOB_RUNNING) (hjid : j.jid = r)
    (hty : e.type = EVT_PREEMPT) :
    apply_event { s with EVENT_Q := pq_pop s.EVENT_Q } e = some (post_preempt s r j) := by
  simp only [apply_event, hty, preempted, hc, hj, hst, outf, hjid, post_preempt]
  simp

theorem apply_terminate_eq (s : State) (e : event) (r : Nat) (j : job) (hc : s.CPU_JOB = some r)
    (hj : s.JOBS[r]? = some j) (hst : j.state = JOB_RUNNING) (hjid : j.jid = r)
    (hty : e.type = EVT_TERMINATE) :
    apply_event { s with EVENT_Q := pq_pop s.EVENT_Q } e = some (post_terminate s r j) := by
  simp only [apply_event, hty, terminated, hc, hj, hst, outf, hjid, post_terminate]
  simp

theorem apply_io_request_eq (s : State) (e : event) (r : Nat) (j : job)
    (hc : s.CPU_JOB = some r) (hj : s.JOBS[r]? = some j) (hst : j.state = JOB_RUNNING)
    (hjid : j.jid = r) (hty : e.type = EVT_IO_REQUEST) :
    apply_event { s with EVENT_Q := pq_pop s.EVENT_Q } e = some (post_io_request s r j) := by
  simp only [apply_event, hty, io_requested, hc, hj, hst, outf, hjid, post_io_request]
  simp

theorem apply_io_receive_eq (s : State) (e : event) (r : Nat) (j : job)
    (hc : s.IO_JOB = some r) (hj : s.JOBS[r]? = some j) (hst : j.state = JOB_BLOCKED)
    (hjid : j.jid = r) (hty : e.type = EVT_IO_RECIEVE) :
    apply_event { s with EVENT_Q := pq_pop s.EVENT_Q } e = some (post_io_receive s r j) := by
  simp only [apply_event, hty, io_recieved, hc, hj, hst, outf, hjid, post_io_receive]
  simp

theorem dispatch_eq (s : State) (r : Nat) (rest : List Nat) (j : job) (b : Nat) (bs : List Nat)
    (hq : s.READY_Q = r :: rest) (hj : s.JOBS[r]? = some j) (hjid : j.jid = r)
    (hb : j.bursts = b :: bs) :
    dispatch s = some (post_dispatch s r rest j b) := by
  have hlt := getElem_opt_lt hj
  simp only [dispatch, hq, get_job, if_pos hlt, hj, hb, outf, hjid, post_dispatch, dispatch_event]
  split <;> rfl

theorem io_dispatch_eq (s : State) (r : Nat) (rest : List Nat) (j : job) (b : Nat)
    (bs : List Nat) (hq : s.IO_Q = r :: rest) (hj : s.JOBS[r]? = some j) (hjid : j.jid = r)
    (hb : j.bursts = b :: bs) :
    io_dispatch s = some (post_io_dispatch s r rest b) := by
  have hlt := getElem_opt_lt hj
  simp only [io_dispatch, hq, get_job, if_pos hlt, hj, hb, outf, hjid, post_io_dispatch]

theorem dev_count_some_eq (r i : Nat) : dev_count (some r) i = if r = i then 1 else 0 := by
  unfold dev_count
  by_cases h : r = i
  · simp [h]
  · simp [h]

theorem located_mono {s t : State} {i : Nat}
    (h1 : arrive_count s.EVENT_Q i ≤ arrive_count t.EVENT_Q i)
    (h2 : i ∈ s.READY_Q → i ∈ t.READY_Q)
    (h3 : s.CPU_JOB = some i → t.CPU_JOB = some i)
    (h4 : s.IO_JOB = some i ∨ i ∈ s.IO_Q → t.IO_JOB = some i ∨ i ∈ t.IO_Q)
    (st : job_state) (h : located s i st) : located t i st := by
  cases st with
  | JOB_NEW => exact le_trans h h1
  | JOB_READY => exact h2 h
  | JOB_RUNNING => exact h3 h
  | JOB_BLOCKED => exact h4 h
  | JOB_TERMINATED => trivial



theorem inv_post_arrive {s : State} (hI : Inv s) {e : event} (htop : pq_top s.EVENT_Q = some e)
    (hty : e.type = EVT_ARRIVE) :
    ∃ j, s.JOBS[e.jid]? = some j ∧ j.state = JOB_NEW ∧ j.jid = e.jid ∧
      Inv (post_arrive s e.jid j) := by
  obtain ⟨hheap, ha, hc, hio, hsub, hmem⟩ := hI.pop_facts htop
  have hcnt : 1 ≤ arrive_count s.EVENT_Q e.jid := by
    rw [ha e.jid, if_pos ⟨hty, rfl⟩]; omega
  have hocc : 1 ≤ occ s e.jid := by unfold occ; omega
  obtain ⟨j, hj⟩ := hI.job_of_occ hocc
  have hst : j.state = JOB_NEW := (hI.state_of_loc hj).1 hcnt
  have hjid := hI.jid_eq _ _ hj
  have hcpu_ne : is_cpu_event e.type = false := by rw [hty]; rfl
  have hio_ne : e.type ≠ EVT_IO_RECIEVE := by rw [hty]; decide
  rw [hcpu_ne] at hc
  rw [if_neg hio_ne] at hio
  have hoccj := hI.occ_eq _ _ hj
  rw [hst] at hoccj
  have hcpu_r : s.CPU_JOB ≠ some e.jid := by
    intro h
    have := dev_count_some e.jid
    rw [← h] at this
    unfold occ at hoccj
    simp at hoccj
    omega
  have key : ∀ i, occ (post_arrive s e.jid j) i = occ s i := by
    intro i
    simp only [occ, post_arrive, List.count_append, List.count_singleton, ha i, hty, true_and]
    by_cases h : e.jid = i
    · simp [h]; omega
    · simp [h]
  refine ⟨j, hj, hst, hjid, ?_⟩
  constructor
  · exact hheap
  · intro i x hx
    rcases getElem_opt_set_cases hx with ⟨rfl, rfl⟩ | ⟨_, hold⟩
    · exact hjid
    · exact hI.jid_eq _ _ hold
  · intro i x hx
    rw [key]
    rcases getElem_opt_set_cases hx with ⟨rfl, rfl⟩ | ⟨_, hold⟩
    · rw [hI.occ_eq _ _ hj, hst]; simp
    · exact hI.occ_eq _ _ hold
  · intro i hi
    rw [key]
    exact hI.occ_out i (by simpa [post_arrive] using hi)
  · intro i x hx
    rcases getElem_opt_set_cases hx with ⟨rfl, rfl⟩ | ⟨hne, hold⟩
    · simp [located, post_arrive]
    · refine located_mono ?_ ?_ ?_ ?_ _ (hI.loc _ _ hold)
      · simp only [post_arrive]
        rw [ha i, if_neg (fun h => hne h.2.symm)]
        omega
      · intro h; simp only [post_arrive]; exact List.mem_append_left _ h
      · exact id
      · exact id
  · intro i x hx
    rcases getElem_opt_set_cases hx with ⟨rfl, rfl⟩ | ⟨hne, hold⟩
    · have := hI.shape _ _ hj
      rw [hst] at this
      exact this
    · exact hI.shape _ _ hold
  · simp only [post_arrive]
    rw [← hI.cpu_ev, hc]; simp
  · simp only [post_arrive]
    rw [← hI.io_ev, hio]; simp
  · intro x hx hcx r y hr hy
    simp only [post_arrive] at hx hr hy ⊢
    rcases getElem_opt_set_cases hy with ⟨rfl, _⟩ | ⟨_, hold⟩
    · exact absurd hr hcpu_r
    · exact hI.cpu_ty x (hsub x hx) hcx r y hr hold
  · intro x hx hxt
    exact hI.io_ty x (hsub x hx) hxt



theorem burst_end_type_preempt {bursts : List Nat} {q : Nat}
    (h : burst_end_type bursts q = EVT_PREEMPT) : ∃ b bs, bursts = b :: bs ∧ b > q := by
  cases bursts with
  | nil => simp [burst_end_type] at h
  | cons b bs =>
    refine ⟨b, bs, rfl, ?_⟩
    by_contra hc
    simp only [burst_end_type, if_neg hc] at h
    split at h <;> cases h

theorem burst_end_type_terminate {bursts : List Nat} {q : Nat}
    (h : burst_end_type bursts q = EVT_TERMINATE) : ∃ b, bursts = [b] ∧ b ≤ q := by
  cases bursts with
  | nil => simp [burst_end_type] at h
  | cons b bs =>
    by_cases hc : b > q
    · simp [burst_end_type, if_pos hc] at h
    · simp only [burst_end_type, if_neg hc] at h
      cases bs with
      | nil => exact ⟨b, rfl, by omega⟩
      | cons c cs => simp at h

theorem burst_end_type_io_request {bursts : List Nat} {q : Nat}
    (h : burst_end_type bursts q = EVT_IO_REQUEST) (hne : bursts.length % 2 = 1) :
    ∃ b c cs, bursts = b :: c :: cs ∧ b ≤ q := by
  cases bursts with
  | nil => simp at hne
  | cons b bs =>
    by_cases hc : b > q
    · simp [burst_end_type, if_pos hc] at h
    · simp only [burst_end_type, if_neg hc] at h
      cases bs with
      | nil => simp at h
      | cons c cs => exact ⟨b, c, cs, rfl, by omega⟩

/-- A popped CPU event finds its job Running on the CPU. -/
theorem Inv.cpu_event_facts {s : State} (hI : Inv s) {e : event}
    (htop : pq_top s.EVENT_Q = some e) (hty : is_cpu_event e.type = true) :
    ∃ r j, s.CPU_JOB = some r ∧ s.JOBS[r]? = some j ∧ j.state = JOB_RUNNING ∧ j.jid = r ∧
      e.type = burst_end_type j.bursts s.QUANTUM ∧ e.jid = r ∧
      j.bursts.length % 2 = 1 ∧
      IsHeap (pq_pop s.EVENT_Q) ∧
      (∀ i, arrive_count (pq_pop s.EVENT_Q) i = arrive_count s.EVENT_Q i) ∧
      cpu_count (pq_pop s.EVENT_Q) = 0 ∧
      io_count (pq_pop s.EVENT_Q) = io_count s.EVENT_Q ∧
      (∀ x ∈ pq_pop s.EVENT_Q, x ∈ s.EVENT_Q) := by
  obtain ⟨hheap, ha, hc, hio, hsub, hmem⟩ := hI.pop_facts htop
  rw [if_pos hty] at hc
  have hne_arr : e.type ≠ EVT_ARRIVE := by
    intro h; rw [h] at hty; cases hty
  have hne_io : e.type ≠ EVT_IO_RECIEVE := by
    intro h; rw [h] at hty; cases hty
  rw [if_neg hne_io] at hio
  have hcpu := hI.cpu_ev
  cases hcj : s.CPU_JOB with
  | none =>
    rw [hcj] at hcpu
    simp at hcpu
    omega
  | some r =>
    rw [hcj] at hcpu
    simp at hcpu
    have hocc : 1 ≤ occ s r := by
      unfold occ
      rw [hcj, dev_count_some]
      omega
    obtain ⟨j, hj⟩ := hI.job_of_occ hocc
    have hst := (hI.state_of_loc hj).2.2.1 hcj
    have hty2 := hI.cpu_ty e hmem hty r j hcj hj
    have hshape := hI.shape _ _ hj
    rw [hst] at hshape
    refine ⟨r, j, rfl, hj, hst, hI.jid_eq _ _ hj, hty2.1, hty2.2, hshape, hheap, ?_, by omega,
      by omega, hsub⟩
    intro i
    rw [ha i, if_neg (fun h => hne_arr h.1)]
    rfl

theorem inv_post_cpu_common {s : State} (hI : Inv s) {r : Nat} {j : job}
    (hcj : s.CPU_JOB = some r) (hj : s.JOBS[r]? = some j) (hst : j.state = JOB_RUNNING)
    (t : State) (x : job)
    (hJ : t.JOBS = s.JOBS.set r x) (hQ : t.EVENT_Q = pq_pop s.EVENT_Q)
    (hC : t.CPU_JOB = none) (hdev : t.IO_JOB = s.IO_JOB)
    (hjid : x.jid = r)
    (hheap : IsHeap (pq_pop s.EVENT_Q))
    (ha : ∀ i, arrive_count (pq_pop s.EVENT_Q) i = arrive_count s.EVENT_Q i)
    (hc : cpu_count (pq_pop s.EVENT_Q) = 0)
    (hio : io_count (pq_pop s.EVENT_Q) = io_count s.EVENT_Q)
    (hsub : ∀ x ∈ pq_pop s.EVENT_Q, x ∈ s.EVENT_Q)
    (hocc : ∀ i, occ t i = if i = r ∧ x.state = JOB_TERMINATED then 0 else occ s i)
    (hloc : located t r x.state)
    (hmono : ∀ i, i ≠ r → (i ∈ s.READY_Q → i ∈ t.READY_Q) ∧
      (s.IO_JOB = some i ∨ i ∈ s.IO_Q → t.IO_JOB = some i ∨ i ∈ t.IO_Q))
    (hshape : bursts_shape x.state x.bursts.length) :
    Inv t := by
  constructor
  · rw [hQ]; exact hheap
  · intro i y hy
    rw [hJ] at hy
    rcases getElem_opt_set_cases hy with ⟨rfl, rfl⟩ | ⟨_, hold⟩
    · exact hjid
    · exact hI.jid_eq _ _ hold
  · intro i y hy
    rw [hJ] at hy
    rw [hocc]
    rcases getElem_opt_set_cases hy with ⟨rfl, rfl⟩ | ⟨hne, hold⟩
    · by_cases ht : y.state = JOB_TERMINATED
      · simp [ht]
      · rw [if_neg (fun h => ht h.2), if_neg ht, hI.occ_eq _ _ hj, hst]
        simp
    · rw [if_neg (fun h => hne h.1)]
      exact hI.occ_eq _ _ hold
  · intro i hi
    rw [hJ] at hi
    rw [hocc]
    split
    · rfl
    · exact hI.occ_out i (by simpa using hi)
  · intro i y hy
    rw [hJ] at hy
    rcases getElem_opt_set_cases hy with ⟨rfl, rfl⟩ | ⟨hne, hold⟩
    · exact hloc
    · refine located_mono ?_ (hmono i hne).1 ?_ (hmono i hne).2 _ (hI.loc _ _ hold)
      · rw [hQ, ha]
      · intro h
        rw [hcj] at h
        exact absurd (Option.some.inj h).symm hne
  · intro i y hy
    rw [hJ] at hy
    rcases getElem_opt_set_cases hy with ⟨rfl, rfl⟩ | ⟨hne, hold⟩
    · exact hshape
    · exact hI.shape _ _ hold
  · rw [hQ, hC, hc]; rfl
  · rw [hQ, hdev, hio]; exact hI.io_ev
  · intro e he _ r2 y hr2
    rw [hC] at hr2
    cases hr2
  · intro e he het
    rw [hQ] at he
    rw [hdev]
    exact hI.io_ty e (hsub e he) het


theorem inv_post_preempt {s : State} (hI : Inv s) {e : event}
    (htop : pq_top s.EVENT_Q = some e) (hty : e.type = EVT_PREEMPT) :
    ∃ r j b bs, s.CPU_JOB = some r ∧ s.JOBS[r]? = some j ∧ j.state = JOB_RUNNING ∧ j.jid = r ∧
      e.jid = r ∧ j.bursts = b :: bs ∧ b > s.QUANTUM ∧ Inv (post_preempt s r j) := by
  obtain ⟨r, j, hcj, hj, hst, hjid, hbt, hejid, hodd, hheap, ha, hc, hio, hsub⟩ :=
    hI.cpu_event_facts htop (by rw [hty]; rfl)
  rw [hty] at hbt
  obtain ⟨b, bs, hb, hgt⟩ := burst_end_type_preempt hbt.symm
  refine ⟨r, j, b, bs, hcj, hj, hst, hjid, hejid, hb, hgt, ?_⟩
  apply inv_post_cpu_common hI hcj hj hst (post_preempt s r j) _ rfl rfl rfl rfl hjid hheap ha hc
    hio hsub
  · intro i
    simp only [occ, post_preempt, List.count_append, List.count_singleton, ha i, hcj,
      dev_count_none, dev_count_some_eq, reduceCtorEq, and_false, if_false]
    by_cases h : r = i
    · simp [h]; omega
    · simp [h]
  · simp [located, post_preempt]
  · intro i _
    exact ⟨fun h => List.mem_append_left _ h, id⟩
  · simp only [bursts_shape, hb, front_sub, List.length_cons]
    rw [hb] at hodd
    simpa using hodd

theorem inv_post_terminate {s : State} (hI : Inv s) {e : event}
    (htop : pq_top s.EVENT_Q = some e) (hty : e.type = EVT_TERMINATE) :
    ∃ r j b, s.CPU_JOB = some r ∧ s.JOBS[r]? = some j ∧ j.state = JOB_RUNNING ∧ j.jid = r ∧
      e.jid = r ∧ j.bursts = [b] ∧ b ≤ s.QUANTUM ∧ Inv (post_terminate s r j) := by
  obtain ⟨r, j, hcj, hj, hst, hjid, hbt, hejid, hodd, hheap, ha, hc, hio, hsub⟩ :=
    hI.cpu_event_facts htop (by rw [hty]; rfl)
  rw [hty] at hbt
  obtain ⟨b, hb, hle⟩ := burst_end_type_terminate hbt.symm
  refine ⟨r, j, b, hcj, hj, hst, hjid, hejid, hb, hle, ?_⟩
  have hoccr := hI.occ_eq _ _ hj
  rw [hst] at hoccr
  simp only [reduceCtorEq, if_false] at hoccr
  apply inv_post_cpu_common hI hcj hj hst (post_terminate s r j) _ rfl rfl rfl rfl hjid hheap ha
    hc hio hsub
  · intro i
    simp only [and_true]
    by_cases h : i = r
    · subst h
      rw [if_pos rfl]
      unfold occ at hoccr ⊢
      simp only [post_terminate, ha, hcj, dev_count_none, dev_count_some] at hoccr ⊢
      omega
    · rw [if_neg h]
      simp only [occ, post_terminate, ha i, hcj, dev_count_none, dev_count_some_eq]
      rw [if_neg (fun hh => h hh.symm)]
  · trivial
  · intro i _
    exact ⟨id, id⟩
  · simp [bursts_shape, hb]

theorem inv_post_io_request {s : State} (hI : Inv s) {e : event}
    (htop : pq_top s.EVENT_Q = some e) (hty : e.type = EVT_IO_REQUEST) :
    ∃ r j b c cs, s.CPU_JOB = some r ∧ s.JOBS[r]? = some j ∧ j.state = JOB_RUNNING ∧ j.jid = r ∧
      e.jid = r ∧ j.bursts = b :: c :: cs ∧ b ≤ s.QUANTUM ∧ Inv (post_io_request s r j) := by
  obtain ⟨r, j, hcj, hj, hst, hjid, hbt, hejid, hodd, hheap, ha, hc, hio, hsub⟩ :=
    hI.cpu_event_facts htop (by rw [hty]; rfl)
  rw [hty] at hbt
  obtain ⟨b, c, cs, hb, hle⟩ := burst_end_type_io_request hbt.symm hodd
  refine ⟨r, j, b, c, cs, hcj, hj, hst, hjid, hejid, hb, hle, ?_⟩
  apply inv_post_cpu_common hI hcj hj hst (post_io_request s r j) _ rfl rfl rfl rfl hjid hheap ha
    hc hio hsub
  · intro i
    simp only [occ, post_io_request, List.count_append, List.count_singleton, ha i, hcj,
      dev_count_none, dev_count_some_eq, reduceCtorEq, and_false, if_false]
    by_cases h : r = i
    · simp [h]; omega
    · simp [h]
  · simp [located, post_io_request]
  · intro i _
    refine ⟨id, ?_⟩
    intro h
    rcases h with h | h
    · exact Or.inl h
    · exact Or.inr (List.mem_append_left _ h)
  · simp only [bursts_shape, hb, List.tail_cons, List.length_cons]
    rw [hb] at hodd
    simp only [List.length_cons] at hodd
    omega



theorem inv_post_io_receive {s : State} (hI : Inv s) {e : event}
    (htop : pq_top s.EVENT_Q = some e) (hty : e.type = EVT_IO_RECIEVE) :
    ∃ r j b c cs, s.IO_JOB = some r ∧ s.JOBS[r]? = some j ∧ j.state = JOB_BLOCKED ∧ j.jid = r ∧
      e.jid = r ∧ j.bursts = b :: c :: cs ∧ Inv (post_io_receive s r j) := by
  obtain ⟨hheap, ha, hc, hio, hsub, hmem⟩ := hI.pop_facts htop
  have hcpu_ne : is_cpu_event e.type = false := by rw [hty]; rfl
  rw [hcpu_ne] at hc
  rw [if_pos hty] at hio
  have ha2 : ∀ i, arrive_count (pq_pop s.EVENT_Q) i = arrive_count s.EVENT_Q i := by
    intro i
    rw [ha i, if_neg (fun h => by rw [hty] at h; cases h.1)]
    rfl
  have hioj := hI.io_ty e hmem hty
  have hocc : 1 ≤ occ s e.jid := by
    unfold occ
    rw [hioj, dev_count_some]
    omega
  obtain ⟨j, hj⟩ := hI.job_of_occ hocc
  have hst := (hI.state_of_loc hj).2.2.2.1 hioj
  have hjid := hI.jid_eq _ _ hj
  have hshape := hI.shape _ _ hj
  rw [hst] at hshape
  obtain ⟨hev, hnz⟩ := hshape
  obtain ⟨b, c, cs, hb⟩ : ∃ b c cs, j.bursts = b :: c :: cs := by
    cases hbs : j.bursts with
    | nil => rw [hbs] at hnz; simp at hnz
    | cons b t =>
      cases t with
      | nil => rw [hbs] at hev; simp at hev
      | cons c cs => exact ⟨b, c, cs, rfl⟩
  have hio_ev := hI.io_ev
  rw [hioj] at hio_ev
  simp only [Option.isSome_some, if_true] at hio_ev
  have hcpu_r : s.CPU_JOB ≠ some e.jid := by
    intro h
    have h2 := (hI.state_of_loc hj).2.2.1 h
    rw [hst] at h2
    cases h2
  have key : ∀ i, occ (post_io_receive s e.jid j) i = occ s i := by
    intro i
    simp only [occ, post_io_receive, List.count_append, List.count_singleton, ha2 i, hioj,
      dev_count_none, dev_count_some_eq]
    by_cases h : e.jid = i
    · simp [h]; omega
    · simp [h]
  refine ⟨e.jid, j, b, c, cs, hioj, hj, hst, hjid, rfl, hb, ?_⟩
  constructor
  · exact hheap
  · intro i x hx
    rcases getElem_opt_set_cases hx with ⟨rfl, rfl⟩ | ⟨_, hold⟩
    · exact hjid
    · exact hI.jid_eq _ _ hold
  · intro i x hx
    rw [key]
    rcases getElem_opt_set_cases hx with ⟨rfl, rfl⟩ | ⟨_, hold⟩
    · rw [hI.occ_eq _ _ hj, hst]; simp
    · exact hI.occ_eq _ _ hold
  · intro i hi
    rw [key]
    exact hI.occ_out i (by simpa [post_io_receive] using hi)
  · intro i x hx
    rcases getElem_opt_set_cases hx with ⟨rfl, rfl⟩ | ⟨hne, hold⟩
    · simp [located, post_io_receive]
    · refine located_mono ?_ ?_ ?_ ?_ _ (hI.loc _ _ hold)
      · simp only [post_io_receive]
        rw [ha2 i]
      · intro h; simp only [post_io_receive]; exact List.mem_append_left _ h
      · exact id
      · intro h
        simp only [post_io_receive]
        rcases h with h | h
        · rw [hioj] at h
          exact absurd (Option.some.inj h).symm hne
        · exact Or.inr h
  · intro i x hx
    rcases getElem_opt_set_cases hx with ⟨rfl, rfl⟩ | ⟨hne, hold⟩
    · simp only [bursts_shape, hb, List.tail_cons, List.length_cons]
      rw [hb] at hev
      simp only [List.length_cons] at hev
      omega
    · exact hI.shape _ _ hold
  · simp only [post_io_receive]
    rw [← hI.cpu_ev, hc]; simp
  · simp only [post_io_receive]
    simp only [Option.isSome_none, Bool.false_eq_true, if_false]
    omega
  · intro x hx hcx r y hr hy
    simp only [post_io_receive] at hx hr hy ⊢
    rcases getElem_opt_set_cases hy with ⟨rfl, _⟩ | ⟨_, hold⟩
    · exact absurd hr hcpu_r
    · exact hI.cpu_ty x (hsub x hx) hcx r y hr hold
  · intro x hx hxt
    simp only [post_io_receive] at hx
    have hz : io_count (pq_pop s.EVENT_Q) = 0 := by omega
    exact absurd hxt (io_count_zero_not_mem hz x hx)



theorem dispatch_event_facts (s : State) (r : Nat) (bursts : List Nat) (b : Nat)
    (bs : List Nat) (hb : bursts = b :: bs) :
    is_cpu_event (dispatch_event s r bursts b).type = true ∧
    (dispatch_event s r bursts b).type = burst_end_type bursts s.QUANTUM ∧
    (dispatch_event s r bursts b).jid = r ∧
    (dispatch_event s r bursts b).type ≠ EVT_ARRIVE ∧
    (dispatch_event s r bursts b).type ≠ EVT_IO_RECIEVE := by
  subst hb
  unfold dispatch_event burst_end_type
  by_cases h : b > s.QUANTUM
  · simp [h, is_cpu_event]
  · by_cases h2 : (b :: bs).length = 1
    · simp only [if_neg h, h2, if_true]
      simp [is_cpu_event]
    · simp only [if_neg h, h2, if_false]
      simp [is_cpu_event]

theorem inv_post_dispatch {s : State} (hI : Inv s) (hidle : s.CPU_JOB = none) {r : Nat}
    {rest : List Nat} (hq : s.READY_Q = r :: rest) :
    ∃ j b bs, s.JOBS[r]? = some j ∧ j.state = JOB_READY ∧ j.jid = r ∧ j.bursts = b :: bs ∧
      Inv (post_dispatch s r rest j b) := by
  have hmem : r ∈ s.READY_Q := by rw [hq]; exact List.mem_cons_self _ _
  have hocc : 1 ≤ occ s r := by
    have := count_pos_of_mem hmem
    unfold occ; omega
  obtain ⟨j, hj⟩ := hI.job_of_occ hocc
  have hst := (hI.state_of_loc hj).2.1 hmem
  have hjid := hI.jid_eq _ _ hj
  have hshape := hI.shape _ _ hj
  rw [hst] at hshape
  obtain ⟨b, bs, hb⟩ : ∃ b bs, j.bursts = b :: bs := by
    cases hbs : j.bursts with
    | nil => rw [hbs] at hshape; simp [bursts_shape] at hshape
    | cons b t => exact ⟨b, t, rfl⟩
  obtain ⟨f1, f2, f3, f4, f5⟩ := dispatch_event_facts s r j.bursts b bs hb
  obtain ⟨pa, pc, pio, pmem⟩ := push_facts s.EVENT_Q (dispatch_event s r j.bursts b)
  have hcpu0 : cpu_count s.EVENT_Q = 0 := by
    have := hI.cpu_ev
    rw [hidle] at this
    simpa using this
  have pa2 : ∀ i, arrive_count (pq_push s.EVENT_Q (dispatch_event s r j.bursts b)) i
      = arrive_count s.EVENT_Q i := by
    intro i
    rw [pa i, if_neg (fun h => f4 h.1)]
    rfl
  have key : ∀ i, occ (post_dispatch s r rest j b) i = occ s i := by
    intro i
    simp only [occ, post_dispatch, pa2 i, hidle, hq, dev_count_none, dev_count_some_eq,
      List.count_cons]
    by_cases h : r = i
    · simp [h]; omega
    · simp [h]
  refine ⟨j, b, bs, hj, hst, hjid, hb, ?_⟩
  constructor
  · exact pq_push_heap _ _ hI.heap
  · intro i x hx
    rcases getElem_opt_set_cases hx with ⟨rfl, rfl⟩ | ⟨_, hold⟩
    · exact hjid
    · exact hI.jid_eq _ _ hold
  · intro i x hx
    rw [key]
    rcases getElem_opt_set_cases hx with ⟨rfl, rfl⟩ | ⟨_, hold⟩
    · rw [hI.occ_eq _ _ hj, hst]; simp
    · exact hI.occ_eq _ _ hold
  · intro i hi
    rw [key]
    exact hI.occ_out i (by simpa [post_dispatch] using hi)
  · intro i x hx
    rcases getElem_opt_set_cases hx with ⟨rfl, rfl⟩ | ⟨hne, hold⟩
    · simp [located, post_dispatch]
    · refine located_mono ?_ ?_ ?_ ?_ _ (hI.loc _ _ hold)
      · simp only [post_dispatch]
        rw [pa2 i]
      · intro h
        simp only [post_dispatch]
        rw [hq] at h
        rcases List.mem_cons.1 h with h | h
        · exact absurd h hne
        · exact h
      · intro h
        rw [hidle] at h
        cases h
      · exact id
  · intro i x hx
    rcases getElem_opt_set_cases hx with ⟨rfl, rfl⟩ | ⟨hne, hold⟩
    · exact hshape
    · exact hI.shape _ _ hold
  · simp only [post_dispatch]
    rw [pc, hcpu0, f1]
    simp
  · simp only [post_dispatch]
    rw [pio, if_neg f5]
    exact hI.io_ev
  · intro x hx hcx r2 y hr2 hy
    simp only [post_dispatch] at hx hr2 hy ⊢
    have hr : r2 = r := (Option.some.inj hr2).symm
    subst hr
    rcases pmem x hx with rfl | hx2
    · rcases getElem_opt_set_cases hy with ⟨_, rfl⟩ | ⟨hne, _⟩
      · exact ⟨f2, f3⟩
      · exact absurd rfl hne
    · have := cpu_count_zero_not_mem hcpu0 x hx2
      rw [this] at hcx
      cases hcx
  · intro x hx hxt
    simp only [post_dispatch] at hx ⊢
    rcases pmem x hx with rfl | hx2
    · exact absurd hxt f5
    · exact hI.io_ty x hx2 hxt

theorem inv_post_io_dispatch {s : State} (hI : Inv s) (hidle : s.IO_JOB = none) {r : Nat}
    {rest : List Nat} (hq : s.IO_Q = r :: rest) :
    ∃ j b c cs, s.JOBS[r]? = some j ∧ j.state = JOB_BLOCKED ∧ j.jid = r ∧
      j.bursts = b :: c :: cs ∧ Inv (post_io_dispatch s r rest b) := by
  have hmem : r ∈ s.IO_Q := by rw [hq]; exact List.mem_cons_self _ _
  have hocc : 1 ≤ occ s r := by
    have := count_pos_of_mem hmem
    unfold occ; omega
  obtain ⟨j, hj⟩ := hI.job_of_occ hocc
  have hst := (hI.state_of_loc hj).2.2.2.2 hmem
  have hjid := hI.jid_eq _ _ hj
  have hshape := hI.shape _ _ hj
  rw [hst] at hshape
  obtain ⟨hev, hnz⟩ := hshape
  obtain ⟨b, c, cs, hb⟩ : ∃ b c cs, j.bursts = b :: c :: cs := by
    cases hbs : j.bursts with
    | nil => rw [hbs] at hnz; simp at hnz
    | cons b t =>
      cases t with
      | nil => rw [hbs] at hev; simp at hev
      | cons c cs => exact ⟨b, c, cs, rfl⟩
  obtain ⟨pa, pc, pio, pmem⟩ :=
    push_facts s.EVENT_Q (event.mk EVT_IO_RECIEVE r (add64 s.TIME b))
  have hio0 : io_count s.EVENT_Q = 0 := by
    have := hI.io_ev
    rw [hidle] at this
    simpa using this
  have pa2 : ∀ i, arrive_count (pq_push s.EVENT_Q (event.mk EVT_IO_RECIEVE r (add64 s.TIME b))) i
      = arrive_count s.EVENT_Q i := by
    intro i
    rw [pa i, if_neg (fun h => by cases h.1)]
    rfl
  have key : ∀ i, occ (post_io_dispatch s r rest b) i = occ s i := by
    intro i
    simp only [occ, post_io_dispatch, pa2 i, hidle, hq, dev_count_none, dev_count_some_eq,
      List.count_cons]
    by_cases h : r = i
    · simp [h]; omega
    · simp [h]
  refine ⟨j, b, c, cs, hj, hst, hjid, hb, ?_⟩
  constructor
  · exact pq_push_heap _ _ hI.heap
  · exact hI.jid_eq
  · intro i x hx
    rw [key]
    exact hI.occ_eq _ _ hx
  · intro i hi
    rw [key]
    exact hI.occ_out i hi
  · intro i x hx
    refine located_mono ?_ ?_ ?_ ?_ _ (hI.loc _ _ hx)
    · simp only [post_io_dispatch]
      rw [pa2 i]
    · exact id
    · exact id
    · intro h
      simp only [post_io_dispatch]
      rcases h with h | h
      · rw [hidle] at h; cases h
      · rw [hq] at h
        rcases List.mem_cons.1 h with h | h
        · exact Or.inl (by rw [h])
        · exact Or.inr h
  · exact hI.shape
  · simp only [post_io_dispatch]
    rw [pc]
    simp only [is_cpu_event, Bool.false_eq_true, if_false, Nat.add_zero]
    exact hI.cpu_ev
  · simp only [post_io_dispatch]
    rw [pio, hio0]
    simp
  · intro x hx hcx r2 y hr2 hy
    simp only [post_io_dispatch] at hx hr2 hy ⊢
    rcases pmem x hx with rfl | hx2
    · cases hcx
    · exact hI.cpu_ty x hx2 hcx r2 y hr2 hy
  · intro x hx hxt
    simp only [post_io_dispatch] at hx ⊢
    rcases pmem x hx with rfl | hx2
    · rfl
    · exact absurd hxt (io_count_zero_not_mem hio0 x hx2)



theorem tally_wait_spec : ∀ (q : List Nat) (js : List job), (∀ i ∈ q, i < js.length) →
    ∃ js1, tally_wait q js = some js1 ∧ js1.length = js.length ∧
      ∀ i : Nat, js1[i]? = (js[i]?).map
        (fun j : job => { j with wait_time := inc64^[q.count i] j.wait_time }) := by
  intro q
  induction q with
  | nil =>
    intro js _
    refine ⟨js, rfl, rfl, ?_⟩
    intro i
    cases js[i]? <;> rfl
  | cons r rest ih =>
    intro js hv
    have hr : r < js.length := hv r (List.mem_cons_self _ _)
    have hjr : js[r]? = some js[r] := List.getElem?_eq_getElem hr
    obtain ⟨js1, h1, h2, h3⟩ := ih (js.set r { js[r] with wait_time := inc64 js[r].wait_time })
      (by
        intro i hi
        rw [List.length_set]
        exact hv i (List.mem_cons_of_mem _ hi))
    refine ⟨js1, ?_, ?_, ?_⟩
    · rw [tally_wait, if_pos hr, hjr]
      exact h1
    · rw [h2, List.length_set]
    · intro i
      rw [h3 i, List.getElem?_set]
      by_cases h : r = i
      · subst h
        rw [if_pos rfl, if_pos hr, hjr]
        simp only [Option.map_some', List.count_cons_self, Function.iterate_succ_apply]
      · rw [if_neg h, List.count_cons_of_ne (fun hh => h hh.symm)]

theorem tally_io_spec : ∀ (q : List Nat) (js : List job), (∀ i ∈ q, i < js.length) →
    ∃ js1, tally_io q js = some js1 ∧ js1.length = js.length ∧
      ∀ i : Nat, js1[i]? = (js[i]?).map
        (fun j : job => { j with io_time := inc64^[q.count i] j.io_time }) := by
  intro q
  induction q with
  | nil =>
    intro js _
    refine ⟨js, rfl, rfl, ?_⟩
    intro i
    cases js[i]? <;> rfl
  | cons r rest ih =>
    intro js hv
    have hr : r < js.length := hv r (List.mem_cons_self _ _)
    have hjr : js[r]? = some js[r] := List.getElem?_eq_getElem hr
    obtain ⟨js1, h1, h2, h3⟩ := ih (js.set r { js[r] with io_time := inc64 js[r].io_time })
      (by
        intro i hi
        rw [List.length_set]
        exact hv i (List.mem_cons_of_mem _ hi))
    refine ⟨js1, ?_, ?_, ?_⟩
    · rw [tally_io, if_pos hr, hjr]
      exact h1
    · rw [h2, List.length_set]
    · intro i
      rw [h3 i, List.getElem?_set]
      by_cases h : r = i
      · subst h
        rw [if_pos rfl, if_pos hr, hjr]
        simp only [Option.map_some', List.count_cons_self, Function.iterate_succ_apply]
      · rw [if_neg h, List.count_cons_of_ne (fun hh => h hh.symm)]

/-- One tick of the clock: every job is tallied, `TIME` moves on by one,
the idle counter moves when the CPU is idle, nothing else changes. -/
theorem sim_inc_time_spec {s : State} (hI : Inv s) :
    ∃ js, js.length = s.JOBS.length ∧
      (∀ i : Nat, js[i]? = (s.JOBS[i]?).map (tallied s i)) ∧
      sim_inc_time s = some { s with
        JOBS := js
        CPU_IDLE_TIME := if is_cpu_idle s then inc64 s.CPU_IDLE_TIME else s.CPU_IDLE_TIME
        TIME := inc64 s.TIME } := by
  have hv1 : ∀ i ∈ s.READY_Q, i < s.JOBS.length := by
    intro i hi
    apply hI.lt_of_occ
    have := count_pos_of_mem hi
    unfold occ; omega
  have hv2 : ∀ i ∈ s.IO_Q, i < s.JOBS.length := by
    intro i hi
    apply hI.lt_of_occ
    have := count_pos_of_mem hi
    unfold occ; omega
  obtain ⟨js1, a1, a2, a3⟩ := tally_wait_spec s.READY_Q s.JOBS hv1
  obtain ⟨js2, b1, b2, b3⟩ := tally_io_spec s.IO_Q js1 (by rw [a2]; exact hv2)
  refine ⟨js2, by rw [b2, a2], ?_, ?_⟩
  · intro i
    rw [b3 i, a3 i]
    cases s.JOBS[i]? <;> rfl
  · simp only [sim_inc_time, sim_tally, a1, b1]

/-- A change of the statistics and of the clock keeps the invariant. -/
theorem inv_of_same_shape {s t : State} (hI : Inv s)
    (h1 : t.READY_Q = s.READY_Q) (h2 : t.IO_Q = s.IO_Q) (h3 : t.EVENT_Q = s.EVENT_Q)
    (h4 : t.CPU_JOB = s.CPU_JOB) (h5 : t.IO_JOB = s.IO_JOB) (h6 : t.QUANTUM = s.QUANTUM)
    (hlen : t.JOBS.length = s.JOBS.length)
    (hjobs : ∀ (i : Nat) (y : job), t.JOBS[i]? = some y →
      ∃ x, s.JOBS[i]? = some x ∧ y.state = x.state ∧ y.jid = x.jid ∧ y.bursts = x.bursts) :
    Inv t := by
  have hocc : ∀ i, occ t i = occ s i := by
    intro i
    simp only [occ, h1, h2, h3, h4, h5]
  constructor
  · rw [h3]; exact hI.heap
  · intro i y hy
    obtain ⟨x, hx, _, e2, _⟩ := hjobs i y hy
    rw [e2]; exact hI.jid_eq _ _ hx
  · intro i y hy
    obtain ⟨x, hx, e1, _, _⟩ := hjobs i y hy
    rw [hocc, e1]; exact hI.occ_eq _ _ hx
  · intro i hi
    rw [hocc]; exact hI.occ_out i (by omega)
  · intro i y hy
    obtain ⟨x, hx, e1, _, _⟩ := hjobs i y hy
    rw [e1]
    refine located_mono ?_ ?_ ?_ ?_ _ (hI.loc _ _ hx)
    · rw [h3]
    · rw [h1]; exact id
    · rw [h4]; exact id
    · rw [h5, h2]; exact id
  · intro i y hy
    obtain ⟨x, hx, e1, _, e3⟩ := hjobs i y hy
    rw [e1, e3]; exact hI.shape _ _ hx
  · rw [h3, h4]; exact hI.cpu_ev
  · rw [h3, h5]; exact hI.io_ev
  · intro e he hce r y hr hy
    obtain ⟨x, hx, _, _, e3⟩ := hjobs r y hy
    rw [h3] at he
    rw [h4] at hr
    rw [e3, h6]
    exact hI.cpu_ty e he hce r x hr hx
  · intro e he het
    rw [h3] at he
    rw [h5]
    exact hI.io_ty e he het

theorem inv_sim_inc_time {s : State} (hI : Inv s) :
    ∃ t, sim_inc_time s = some t ∧ Inv t ∧
      t.READY_Q = s.READY_Q ∧ t.IO_Q = s.IO_Q ∧ t.EVENT_Q = s.EVENT_Q ∧
      t.CPU_JOB = s.CPU_JOB ∧ t.IO_JOB = s.IO_JOB ∧ t.QUANTUM = s.QUANTUM ∧
      t.OUT = s.OUT ∧ t.TIME = inc64 s.TIME ∧
      t.CPU_IDLE_TIME = (if is_cpu_idle s then inc64 s.CPU_IDLE_TIME else s.CPU_IDLE_TIME) ∧
      t.JOBS.length = s.JOBS.length ∧
      (∀ i : Nat, t.JOBS[i]? = (s.JOBS[i]?).map (tallied s i)) := by
  obtain ⟨js, hlen, hjs, heq⟩ := sim_inc_time_spec hI
  refine ⟨_, heq, ?_, rfl, rfl, rfl, rfl, rfl, rfl, rfl, rfl, rfl, hlen, hjs⟩
  refine inv_of_same_shape hI ?_ ?_ ?_ ?_ ?_ ?_ hlen ?_
  any_goals rfl
  intro i y hy
  simp only [] at hy
  rw [hjs i] at hy
  cases hx : s.JOBS[i]? with
  | none => rw [hx] at hy; cases hy
  | some x =>
    rw [hx] at hy
    simp only [Option.map_some', Option.some.injEq] at hy
    subst hy
    exact ⟨x, rfl, rfl, rfl, rfl⟩



theorem add64_lt (a b : Nat) : add64 a b < U64 := by
  unfold add64 U64; omega

theorem sub64_lt (a b : Nat) : sub64 a b < U64 := by
  unfold sub64 U64; omega

theorem inc64_lt (a : Nat) : inc64 a < U64 := by
  unfold inc64 U64; omega

theorem bnd_set {s t : State} (hB : Bnd s) {r : Nat} {x : job}
    (hT : t.TIME = s.TIME) (hJ : t.JOBS = s.JOBS.set r x)
    (hQ : ∀ e ∈ t.EVENT_Q, e ∈ s.EVENT_Q ∨ e.arrival_time < U64)
    (hx : ∀ b ∈ x.bursts, b < U64) : Bnd t := by
  constructor
  · rw [hT]; exact hB.time_lt
  · intro e he
    rcases hQ e he with h | h
    · exact hB.ev_lt e h
    · exact h
  · intro i y hy
    rw [hJ] at hy
    rcases getElem_opt_set_cases hy with ⟨_, rfl⟩ | ⟨_, hold⟩
    · exact hx
    · exact hB.burst_lt _ _ hold

theorem pop_subset {s : State} (hI : Inv s) {e : event} (htop : pq_top s.EVENT_Q = some e) :
    ∀ x ∈ pq_pop s.EVENT_Q, x ∈ s.EVENT_Q ∨ x.arrival_time < U64 := by
  intro x hx
  exact Or.inl ((hI.pop_facts htop).2.2.2.2.1 x hx)

theorem push_subset (q : List event) (e : event) (h : e.arrival_time < U64) :
    ∀ x ∈ pq_push q e, x ∈ q ∨ x.arrival_time < U64 := by
  intro x hx
  rcases (push_facts q e).2.2.2 x hx with rfl | h2
  · exact Or.inr h
  · exact Or.inl h2

theorem dispatch_event_lt (s : State) (r : Nat) (bursts : List Nat) (b : Nat) :
    (dispatch_event s r bursts b).arrival_time < U64 := by
  unfold dispatch_event
  split
  · exact add64_lt _ _
  · exact add64_lt _ _

/-- Every elementary step keeps the invariant and the bounds. -/
theorem Step.keeps_good {n : Nat} {s t : State} (h : Step n s t) : Inv t ∧ Bnd t := by
  cases h with
  | tick hI hB heq =>
    obtain ⟨t2, h1, h2, _, _, hq, _, _, _, _, htime, _, _, hjobs⟩ := inv_sim_inc_time hI
    rw [heq] at h1
    cases h1
    refine ⟨h2, ?_⟩
    constructor
    · rw [htime]; exact inc64_lt _
    · rw [hq]; exact hB.ev_lt
    · intro i y hy
      rw [hjobs i] at hy
      cases hx : s.JOBS[i]? with
      | none => rw [hx] at hy; cases hy
      | some x =>
        rw [hx] at hy
        simp only [Option.map_some', Option.some.injEq] at hy
        subst hy
        intro b hb
        exact hB.burst_lt _ _ hx b hb
  | arrive hI hB htop htime hty hj hst =>
    obtain ⟨j2, hj2, _, _, hinv⟩ := inv_post_arrive hI htop hty
    rw [hj] at hj2
    cases hj2
    refine ⟨hinv, bnd_set hB rfl rfl (pop_subset hI htop) ?_⟩
    intro x hx
    exact hB.burst_lt _ _ hj x hx
  | preempt hI hB htop htime hty hc hj hst hb hgt =>
    obtain ⟨r2, j2, _, _, hc2, hj2, _, _, _, _, _, hinv⟩ := inv_post_preempt hI htop hty
    rw [hc] at hc2
    cases hc2
    rw [hj] at hj2
    cases hj2
    refine ⟨hinv, bnd_set hB rfl rfl (pop_subset hI htop) ?_⟩
    intro x hx
    simp only [hb, front_sub] at hx
    rcases List.mem_cons.1 hx with h | h
    · rw [h]; exact sub64_lt _ _
    · exact hB.burst_lt _ _ hj x (by rw [hb]; exact List.mem_cons_of_mem _ h)
  | terminate hI hB htop htime hty hc hj hst hb hle =>
    obtain ⟨r2, j2, _, hc2, hj2, _, _, _, _, _, hinv⟩ := inv_post_terminate hI htop hty
    rw [hc] at hc2
    cases hc2
    rw [hj] at hj2
    cases hj2
    refine ⟨hinv, bnd_set hB rfl rfl (pop_subset hI htop) ?_⟩
    intro x hx
    exact hB.burst_lt _ _ hj x hx
  | io_request hI hB htop htime hty hc hj hst hb hle =>
    obtain ⟨r2, j2, _, _, _, hc2, hj2, _, _, _, _, _, hinv⟩ := inv_post_io_request hI htop hty
    rw [hc] at hc2
    cases hc2
    rw [hj] at hj2
    cases hj2
    refine ⟨hinv, bnd_set hB rfl rfl (pop_subset hI htop) ?_⟩
    intro x hx
    exact hB.burst_lt _ _ hj x (List.mem_of_mem_tail hx)
  | io_receive hI hB htop htime hty hc hj hst hb =>
    obtain ⟨r2, j2, _, _, _, hc2, hj2, _, _, _, _, hinv⟩ := inv_post_io_receive hI htop hty
    rw [hc] at hc2
    cases hc2
    rw [hj] at hj2
    cases hj2
    refine ⟨hinv, bnd_set hB rfl rfl (pop_subset hI htop) ?_⟩
    intro x hx
    exact hB.burst_lt _ _ hj x (List.mem_of_mem_tail hx)
  | dispatch hI hB hidle hq hj hst hb =>
    obtain ⟨j2, b2, bs2, hj2, _, _, hb2, hinv⟩ := inv_post_dispatch hI hidle hq
    rw [hj] at hj2
    cases hj2
    rw [hb] at hb2
    cases hb2
    refine ⟨hinv, bnd_set hB rfl rfl (push_subset _ _ (dispatch_event_lt _ _ _ _)) ?_⟩
    intro x hx
    exact hB.burst_lt _ _ hj x hx
  | io_dispatch hI hB hidle hq hj hst hb =>
    obtain ⟨j2, b2, c2, cs2, hj2, _, _, hb2, hinv⟩ := inv_post_io_dispatch hI hidle hq
    rw [hj] at hj2
    cases hj2
    rw [hb] at hb2
    cases hb2
    refine ⟨hinv, ?_⟩
    constructor
    · exact hB.time_lt
    · intro e he
      rcases push_subset _ _ (add64_lt _ _) e he with h | h
      · exact hB.ev_lt e h
      · exact h
    · exact hB.burst_lt

theorem Chain.stays_good {n : Nat} {s t : State} (h : Chain n s t) (hI : Inv s) (hB : Bnd s) :
    Inv t ∧ Bnd t := by
  induction h with
  | refl => exact ⟨hI, hB⟩
  | cons hs _ ih => exact ih hs.keeps_good.1 hs.keeps_good.2

theorem Chain.trans {n m : Nat} {s t u : State} (h1 : Chain n s t) (h2 : Chain m t u) :
    Chain (n + m) s u := by
  induction h1 with
  | refl => rw [Nat.zero_add]; exact h2
  | cons hs _ ih =>
    rw [Nat.add_assoc]
    exact Chain.cons hs (ih h2)

theorem Chain.single {n : Nat} {s t : State} (h : Step n s t) : Chain n s t := by
  have := Chain.cons h (Chain.refl t)
  rw [Nat.add_zero] at this
  exact this



theorem pq_pop_length {s : State} (hI : Inv s) {e : event} (htop : pq_top s.EVENT_Q = some e) :
    (pq_pop s.EVENT_Q).length + 1 = s.EVENT_Q.length := by
  have := (pq_pop_spec s.EVENT_Q e htop hI.heap).1.length_eq
  simp only [List.length_cons] at this
  omega

/-- Popping the top event at its due time and applying it is an
elementary step: the clock loop never aborts there. -/
theorem drain_step {s : State} (hI : Inv s) (hB : Bnd s) {e : event}
    (htop : pq_top s.EVENT_Q = some e) (htime : s.TIME = e.arrival_time) :
    ∃ t, apply_event { s with EVENT_Q := pq_pop s.EVENT_Q } e = some t ∧ Step 1 s t ∧
      t.EVENT_Q = pq_pop s.EVENT_Q ∧ t.TIME = s.TIME := by
  cases hty : e.type with
  | EVT_ARRIVE =>
    obtain ⟨j, hj, hst, hjid, _⟩ := inv_post_arrive hI htop hty
    exact ⟨_, apply_arrive_eq s e j hj hst hjid hty,
      Step.arrive hI hB htop htime hty hj hst, rfl, rfl⟩
  | EVT_PREEMPT =>
    obtain ⟨r, j, b, bs, hc, hj, hst, hjid, _, hb, hgt, _⟩ := inv_post_preempt hI htop hty
    exact ⟨_, apply_preempt_eq s e r j hc hj hst hjid hty,
      Step.preempt hI hB htop htime hty hc hj hst hb hgt, rfl, rfl⟩
  | EVT_TERMINATE =>
    obtain ⟨r, j, b, hc, hj, hst, hjid, _, hb, hle, _⟩ := inv_post_terminate hI htop hty
    exact ⟨_, apply_terminate_eq s e r j hc hj hst hjid hty,
      Step.terminate hI hB htop htime hty hc hj hst hb hle, rfl, rfl⟩
  | EVT_IO_REQUEST =>
    obtain ⟨r, j, b, c, cs, hc, hj, hst, hjid, _, hb, hle, _⟩ := inv_post_io_request hI htop hty
    exact ⟨_, apply_io_request_eq s e r j hc hj hst hjid hty,
      Step.io_request hI hB htop htime hty hc hj hst hb hle, rfl, rfl⟩
  | EVT_IO_RECIEVE =>
    obtain ⟨r, j, b, c, cs, hc, hj, hst, hjid, _, hb, _⟩ := inv_post_io_receive hI htop hty
    exact ⟨_, apply_io_receive_eq s e r j hc hj hst hjid hty,
      Step.io_receive hI hB htop htime hty hc hj hst hb, rfl, rfl⟩

/-- The drain loop ends without abort, having applied every event due at
the current tick that reached the top. -/
theorem sim_drain_spec : ∀ (fuel : Nat) (s : State), Inv s → Bnd s →
    s.EVENT_Q.length ≤ fuel →
    ∃ n t, sim_drain fuel s = some t ∧ Chain n s t ∧ t.TIME = s.TIME ∧
      (∀ e, pq_top t.EVENT_Q = some e → t.TIME ≠ e.arrival_time) ∧
      (∀ e, pq_top s.EVENT_Q = some e → s.TIME = e.arrival_time → 1 ≤ n) ∧
      (∀ e, pq_top s.EVENT_Q = some e → s.TIME ≠ e.arrival_time → t = s) := by
  intro fuel
  induction fuel with
  | zero =>
    intro s hI hB hlen
    have hnil : s.EVENT_Q = [] := List.length_eq_zero.1 (by omega)
    refine ⟨0, s, ?_, Chain.refl s, rfl, ?_, ?_, ?_⟩
    · simp [sim_drain, pq_top, hnil]
    · intro e he; simp [pq_top, hnil] at he
    · intro e he; simp [pq_top, hnil] at he
    · intro _ _ _; rfl
  | succ f ih =>
    intro s hI hB hlen
    cases htop : pq_top s.EVENT_Q with
    | none =>
      refine ⟨0, s, ?_, Chain.refl s, rfl, ?_, ?_, ?_⟩
      · simp [sim_drain, htop]
      · intro e he; rw [htop] at he; cases he
      · intro e he; cases he
      · intro _ _ _; rfl
    | some e =>
      by_cases htime : s.TIME = e.arrival_time
      · obtain ⟨t, h1, h2, h3, h4⟩ := drain_step hI hB htop htime
        have hlen2 := pq_pop_length hI htop
        obtain ⟨n, u, g1, g2, g3, g4, _, _⟩ := ih t h2.keeps_good.1 h2.keeps_good.2 (by rw [h3]; omega)
        refine ⟨1 + n, u, ?_, Chain.cons h2 g2, by rw [g3, h4], g4, ?_, ?_⟩
        · simp only [sim_drain, htop, if_pos htime, h1]
          exact g1
        · intro _ _ _; omega
        · intro e2 he2 hne
          cases he2
          exact absurd htime hne
      · refine ⟨0, s, ?_, Chain.refl s, rfl, ?_, ?_, ?_⟩
        · simp [sim_drain, htop, htime]
        · intro e2 he2
          rw [htop] at he2
          cases he2
          exact htime
        · intro e2 he2 h2
          cases he2
          exact absurd h2 htime
        · intro _ _ _; rfl

/-- The waiting loop ends without abort at the due time of the top event. -/
theorem sim_skip_spec : ∀ (n : Nat) (s : State) (e : event), Inv s → Bnd s →
    pq_top s.EVENT_Q = some e → s.TIME + n = e.arrival_time →
    ∃ t, sim_skip n s = some t ∧ Chain 0 s t ∧ t.TIME = e.arrival_time ∧
      t.EVENT_Q = s.EVENT_Q ∧ t.READY_Q = s.READY_Q ∧ t.IO_Q = s.IO_Q ∧
      t.CPU_JOB = s.CPU_JOB ∧ t.IO_JOB = s.IO_JOB := by
  intro n
  induction n with
  | zero =>
    intro s e hI hB htop htime
    refine ⟨s, ?_, Chain.refl s, by omega, rfl, rfl, rfl, rfl, rfl⟩
    simp only [sim_skip, htop]
    rw [if_neg (by omega)]
  | succ n ih =>
    intro s e hI hB htop htime
    obtain ⟨t, h1, h2, a1, a2, a3, a4, a5, _, _, a6, _, _, _⟩ := inv_sim_inc_time hI
    have hstep : Step 0 s t := Step.tick hI hB h1
    have helt := hB.ev_lt e ((hI.pop_facts htop).2.2.2.2.2)
    have hinc : t.TIME = s.TIME + 1 := by
      rw [a6]; unfold inc64; unfold U64 at helt; omega
    obtain ⟨u, g1, g2, g3, g4, g5, g6, g7, g8⟩ :=
      ih t e hstep.keeps_good.1 hstep.keeps_good.2 (by rw [a3]; exact htop) (by omega)
    refine ⟨u, ?_, Chain.cons hstep g2, g3, by rw [g4, a3], by rw [g5, a1], by rw [g6, a2],
      by rw [g7, a4], by rw [g8, a5]⟩
    simp only [sim_skip, htop]
    rw [if_pos (by omega), h1]
    exact g1

theorem dispatch_spec {s : State} (hI : Inv s) (hB : Bnd s) :
    ∃ t, (if is_cpu_idle s then dispatch s else some s) = some t ∧ Chain 0 s t ∧
      (t.CPU_JOB = none → t.READY_Q = []) ∧ t.IO_Q = s.IO_Q ∧ t.IO_JOB = s.IO_JOB ∧
      t.TIME = s.TIME ∧ ((s.CPU_JOB = none → s.READY_Q = []) → t = s) := by
  cases hc : s.CPU_JOB with
  | some r =>
    refine ⟨s, ?_, Chain.refl s, ?_, rfl, rfl, rfl, fun _ => rfl⟩
    · simp [is_cpu_idle, hc]
    · intro h; rw [hc] at h; cases h
  | none =>
    cases hq : s.READY_Q with
    | nil =>
      refine ⟨s, ?_, Chain.refl s, fun _ => hq, rfl, rfl, rfl, fun _ => rfl⟩
      simp [is_cpu_idle, hc, dispatch, hq]
    | cons r rest =>
      obtain ⟨j, b, bs, hj, hst, hjid, hb, _⟩ := inv_post_dispatch hI hc hq
      refine ⟨_, ?_, Chain.single (Step.dispatch hI hB hc hq hj hst hb), ?_, rfl, rfl, rfl, ?_⟩
      · simp only [is_cpu_idle, hc, Option.isNone_none, if_true]
        exact dispatch_eq s r rest j b bs hq hj hjid hb
      · intro h; simp [post_dispatch] at h
      · intro h
        have := h rfl
        cases this

theorem io_dispatch_spec {s : State} (hI : Inv s) (hB : Bnd s) :
    ∃ t, (if is_io_idle s then io_dispatch s else some s) = some t ∧ Chain 0 s t ∧
      (t.IO_JOB = none → t.IO_Q = []) ∧ t.READY_Q = s.READY_Q ∧ t.CPU_JOB = s.CPU_JOB ∧
      t.TIME = s.TIME ∧ ((s.IO_JOB = none → s.IO_Q = []) → t = s) := by
  cases hc : s.IO_JOB with
  | some r =>
    refine ⟨s, ?_, Chain.refl s, ?_, rfl, rfl, rfl, fun _ => rfl⟩
    · simp [is_io_idle, hc]
    · intro h; rw [hc] at h; cases h
  | none =>
    cases hq : s.IO_Q with
    | nil =>
      refine ⟨s, ?_, Chain.refl s, fun _ => hq, rfl, rfl, rfl, fun _ => rfl⟩
      simp [is_io_idle, hc, io_dispatch, hq]
    | cons r rest =>
      obtain ⟨j, b, c, cs, hj, hst, hjid, hb, _⟩ := inv_post_io_dispatch hI hc hq
      refine ⟨_, ?_, Chain.single (Step.io_dispatch hI hB hc hq hj hst hb), ?_, rfl, rfl, rfl,
        ?_⟩
      · simp only [is_io_idle, hc, Option.isNone_none, if_true]
        exact io_dispatch_eq s r rest j b (c :: cs) hq hj hjid hb
      · intro h; simp [post_io_dispatch] at h
      · intro h
        have := h rfl
        cases this



theorem Settled.of_tick {s t : State} (h1 : t.READY_Q = s.READY_Q) (h2 : t.IO_Q = s.IO_Q)
    (h3 : t.CPU_JOB = s.CPU_JOB) (h4 : t.IO_JOB = s.IO_JOB) (hS : Settled s) : Settled t := by
  unfold Settled at *
  rw [h1, h2, h3, h4]
  exact hS

/-- One call of `sim_advance` with a non-empty event queue: it returns
true without abort; when the top event is not overdue at least one event
is applied, and when it is overdue the call is a single tick. -/
theorem sim_advance_spec {s : State} (hI : Inv s) (hB : Bnd s) (hS : Settled s) {e : event}
    (htop : pq_top s.EVENT_Q = some e) :
    ∃ n t, sim_advance s = some (true, t) ∧ Chain n s t ∧ Settled t ∧
      (s.TIME ≤ e.arrival_time → 1 ≤ n) ∧
      (e.arrival_time < s.TIME → sim_inc_time s = some t ∧ n = 0) := by
  have hne : s.EVENT_Q.isEmpty = false := by
    cases hq : s.EVENT_Q with
    | nil => rw [hq] at htop; cases htop
    | cons a l => rfl
  have hbound : skip_bound s = e.arrival_time - s.TIME := by
    simp only [skip_bound, htop]
  by_cases hle : s.TIME ≤ e.arrival_time
  · obtain ⟨s1, a1, a2, a3, a4, _, _, _, _⟩ :=
      sim_skip_spec (e.arrival_time - s.TIME) s e hI hB htop (by omega)
    have g1 := a2.stays_good hI hB
    obtain ⟨n, s2, b1, b2, b3, _, b5, _⟩ := sim_drain_spec s1.EVENT_Q.length s1 g1.1 g1.2
      (le_refl _)
    have hn : 1 ≤ n := b5 e (by rw [a4]; exact htop) a3
    have g2 := b2.stays_good g1.1 g1.2
    obtain ⟨s3, c1, c2, c3, _, _, _, _⟩ := dispatch_spec g2.1 g2.2
    have g3 := c2.stays_good g2.1 g2.2
    obtain ⟨s4, d1, d2, d3, d4, d5, _, _⟩ := io_dispatch_spec g3.1 g3.2
    have g4 := d2.stays_good g3.1 g3.2
    obtain ⟨s5, f1, _, f3, f4, _, f6, f7, _⟩ := inv_sim_inc_time g4.1
    have hch : Chain n s s5 := by
      have h := (a2.trans b2).trans ((c2.trans d2).trans (Chain.single (Step.tick g4.1 g4.2 f1)))
      simpa using h
    refine ⟨n, s5, ?_, hch, ?_, fun _ => hn, fun h => absurd hle (by omega)⟩
    · simp only [sim_advance, hne, hbound, a1, b1, c1, d1, f1]
      rfl
    · constructor
      · intro h
        rw [f3]
        rw [f6, d5] at h
        rw [d4]
        exact c3 h
      · intro h
        rw [f4]
        rw [f7] at h
        exact d3 h
  · have hlt : e.arrival_time < s.TIME := by omega
    have a1 : sim_skip (e.arrival_time - s.TIME) s = some s := by
      have h0 : e.arrival_time - s.TIME = 0 := by omega
      rw [h0]
      simp only [sim_skip, htop]
      rw [if_neg (by omega)]
    obtain ⟨n, s2, b1, _, _, _, _, b6⟩ := sim_drain_spec s.EVENT_Q.length s hI hB (le_refl _)
    have e2 : s2 = s := b6 e htop (by omega)
    subst e2
    obtain ⟨s3, c1, _, _, _, _, _, c7⟩ := dispatch_spec hI hB
    have e3 : s3 = s2 := c7 hS.1
    subst e3
    obtain ⟨s4, d1, _, _, _, _, _, d7⟩ := io_dispatch_spec hI hB
    have e4 : s4 = s3 := d7 hS.2
    subst e4
    obtain ⟨s5, f1, _, f3, f4, _, f6, f7, _⟩ := inv_sim_inc_time hI
    refine ⟨0, s5, ?_, Chain.single (Step.tick hI hB f1), Settled.of_tick f3 f4 f6 f7 hS,
      fun h => absurd h (by omega), fun _ => ⟨f1, rfl⟩⟩
    simp only [sim_advance, hne, hbound, a1, b1, c1, d1, f1]
    rfl

theorem sim_advance_empty {s : State} (h : s.EVENT_Q = []) : sim_advance s = some (false, s) := by
  simp [sim_advance, h]



theorem jobs_parse_line_facts {line : List Nat} {j : job} (h : jobs_parse_line line = some j) :
    j.state = JOB_NEW ∧ j.bursts.length % 2 = 1 ∧ 1 ≤ j.arrival_time ∧ j.arrival_time < U64 ∧
      (∀ b ∈ j.bursts, b < U64) ∧ j.wait_time = 0 ∧ j.io_time = 0 ∧ j.turn_around_time = 0 := by
  unfold jobs_parse_line at h
  cases line with
  | nil => cases h
  | cons a rest =>
    simp only [] at h
    by_cases h1 : a ≥ U64
    · rw [if_pos h1] at h; cases h
    · rw [if_neg h1] at h
      by_cases h2 : a < 1
      · rw [if_pos h2] at h; cases h
      · rw [if_neg h2] at h
        cases rest with
        | nil => cases h
        | cons c toks =>
          simp only [] at h
          by_cases h3 : c ≥ U64
          · rw [if_pos h3] at h; cases h
          · rw [if_neg h3] at h
            by_cases h4 : c < 1
            · rw [if_pos h4] at h; cases h
            · rw [if_neg h4] at h
              by_cases h5 : (List.takeWhile (fun t => decide (t < U64)) toks).length
                  ≠ sub64 (c * 2 % U64) 1
              · rw [if_pos h5] at h; cases h
              · rw [if_neg h5] at h
                cases h
                refine ⟨rfl, ?_, (by show 1 ≤ a; omega), (by show a < U64; omega), ?_, rfl, rfl, rfl⟩
                · simp only []
                  have h6 : (List.takeWhile (fun t => decide (t < U64)) toks).length
                      = sub64 (c * 2 % U64) 1 := by
                    by_contra hc; exact h5 hc
                  rw [h6]
                  unfold sub64 U64
                  omega
                · intro b hb
                  have := List.mem_takeWhile_imp hb
                  simpa using this

theorem getElem_opt_append_singleton {l : List job} {x y : job} {i : Nat}
    (h : (l ++ [x])[i]? = some y) :
    (i < l.length ∧ l[i]? = some y) ∨ (i = l.length ∧ y = x) := by
  by_cases hi : i < l.length
  · rw [List.getElem?_append_left hi] at h
    exact Or.inl ⟨hi, h⟩
  · rw [List.getElem?_append_right (by omega)] at h
    have h0 : i - l.length = 0 := by
      by_contra hc
      rw [List.getElem?_eq_none (by simp; omega)] at h
      cases h
    rw [h0] at h
    simp only [List.getElem?_cons_zero, Option.some.injEq] at h
    exact Or.inr ⟨by omega, h.symm⟩

theorem inv_parse_step {s : State} (hI : Inv s) (hB : Bnd s) (line : List Nat) :
    Inv (jobs_parse_step s line) ∧ Bnd (jobs_parse_step s line) ∧
      (jobs_parse_step s line).READY_Q = s.READY_Q ∧ (jobs_parse_step s line).IO_Q = s.IO_Q ∧
      (jobs_parse_step s line).CPU_JOB = s.CPU_JOB ∧ (jobs_parse_step s line).IO_JOB = s.IO_JOB ∧
      (jobs_parse_step s line).TIME = s.TIME ∧ (jobs_parse_step s line).QUANTUM = s.QUANTUM := by
  unfold jobs_parse_step
  cases hp : jobs_parse_line line with
  | none =>
    refine ⟨?_, ?_, rfl, rfl, rfl, rfl, rfl, rfl⟩
    · refine inv_of_same_shape hI ?_ ?_ ?_ ?_ ?_ ?_ ?_ ?_
      any_goals rfl
      intro i y hy
      exact ⟨y, hy, rfl, rfl, rfl⟩
    · exact ⟨hB.time_lt, hB.ev_lt, hB.burst_lt⟩
  | some j0 =>
    obtain ⟨p1, p2, _, p4, p5, _, _, _⟩ := jobs_parse_line_facts hp
    simp only []
    obtain ⟨pa, pc, pio, pmem⟩ :=
      push_facts s.EVENT_Q (event.mk EVT_ARRIVE s.JOBS.length j0.arrival_time)
    simp only [true_and] at pa
    simp only [is_cpu_event, Bool.false_eq_true, if_false, Nat.add_zero] at pc
    simp only [reduceCtorEq, if_false, Nat.add_zero] at pio
    refine ⟨?_, ?_, trivial, trivial, trivial, trivial, trivial, trivial⟩
    · have key : ∀ i, occ { s with
            JOBS := s.JOBS ++ [{ j0 with jid := s.JOBS.length }]
            EVENT_Q := pq_push s.EVENT_Q
              (event.mk EVT_ARRIVE s.JOBS.length j0.arrival_time) } i
          = occ s i + (if s.JOBS.length = i then 1 else 0) := by
        intro i
        simp only [occ, pa i]
        omega
      constructor
      · exact pq_push_heap _ _ hI.heap
      · intro i y hy
        rcases getElem_opt_append_singleton hy with ⟨_, hold⟩ | ⟨rfl, rfl⟩
        · exact hI.jid_eq _ _ hold
        · rfl
      · intro i y hy
        rw [key]
        rcases getElem_opt_append_singleton hy with ⟨hlt, hold⟩ | ⟨rfl, rfl⟩
        · rw [if_neg (by omega), hI.occ_eq _ _ hold]
          rfl
        · rw [hI.occ_out _ (le_refl _), if_pos rfl]
          simp [p1]
      · intro i hi
        rw [key]
        simp only [List.length_append, List.length_singleton] at hi
        rw [hI.occ_out i (by omega), if_neg (by omega)]
      · intro i y hy
        rcases getElem_opt_append_singleton hy with ⟨hlt, hold⟩ | ⟨rfl, rfl⟩
        · refine located_mono ?_ ?_ ?_ ?_ _ (hI.loc _ _ hold)
          · simp only []
            rw [pa i]
            omega
          · exact id
          · exact id
          · exact id
        · simp only [p1, located]
          rw [pa]
          simp
      · intro i y hy
        rcases getElem_opt_append_singleton hy with ⟨hlt, hold⟩ | ⟨rfl, rfl⟩
        · exact hI.shape _ _ hold
        · simp only [p1, bursts_shape]
          exact p2
      · simp only []
        rw [pc]
        exact hI.cpu_ev
      · simp only []
        rw [pio]
        exact hI.io_ev
      · intro x hx hcx r y hr hy
        simp only [] at hx hr hy ⊢
        have hocc : 1 ≤ occ s r := by
          unfold occ
          rw [hr, dev_count_some]
          omega
        have hlt := hI.lt_of_occ hocc
        rcases getElem_opt_append_singleton hy with ⟨_, hold⟩ | ⟨h1, _⟩
        · rcases pmem x hx with rfl | hx2
          · cases hcx
          · exact hI.cpu_ty x hx2 hcx r y hr hold
        · omega
      · intro x hx hxt
        simp only [] at hx ⊢
        rcases pmem x hx with rfl | hx2
        · cases hxt
        · exact hI.io_ty x hx2 hxt
    · constructor
      · exact hB.time_lt
      · intro e he
        rcases push_subset _ _ (by simpa using p4) e he with h | h
        · exact hB.ev_lt e h
        · exact h
      · intro i y hy
        rcases getElem_opt_append_singleton hy with ⟨_, hold⟩ | ⟨_, rfl⟩
        · exact hB.burst_lt _ _ hold
        · exact p5

theorem inv_zero (q : Nat) : Inv { State.zero with TIME := 0, QUANTUM := q } ∧
    Bnd { State.zero with TIME := 0, QUANTUM := q } := by
  constructor
  · constructor
    · exact isHeap_nil
    · intro i j h; simp [State.zero] at h
    · intro i j h; simp [State.zero] at h
    · intro i _; simp [occ, State.zero, dev_count, arrive_count]
    · intro i j h; simp [State.zero] at h
    · intro i j h; simp [State.zero] at h
    · simp [State.zero, cpu_count]
    · simp [State.zero, io_count]
    · intro e he; simp [State.zero] at he
    · intro e he; simp [State.zero] at he
  · constructor
    · simp [U64]
    · intro e he; simp [State.zero] at he
    · intro i j h; simp [State.zero] at h

theorem inv_parse_file (lines : List (List Nat)) : ∀ (s : State), Inv s → Bnd s →
    Inv (jobs_parse_file lines s) ∧ Bnd (jobs_parse_file lines s) ∧
      (jobs_parse_file lines s).READY_Q = s.READY_Q ∧ (jobs_parse_file lines s).IO_Q = s.IO_Q ∧
      (jobs_parse_file lines s).CPU_JOB = s.CPU_JOB ∧ (jobs_parse_file lines s).IO_JOB = s.IO_JOB ∧
      (jobs_parse_file lines s).TIME = s.TIME ∧ (jobs_parse_file lines s).QUANTUM = s.QUANTUM := by
  induction lines with
  | nil => intro s hI hB; exact ⟨hI, hB, rfl, rfl, rfl, rfl, rfl, rfl⟩
  | cons l ls ih =>
    intro s hI hB
    obtain ⟨a1, a2, a3, a4, a5, a6, a7, a8⟩ := inv_parse_step hI hB l
    obtain ⟨b1, b2, b3, b4, b5, b6, b7, b8⟩ := ih (jobs_parse_step s l) a1 a2
    simp only [jobs_parse_file, List.foldl_cons] at b1 b2 b3 b4 b5 b6 b7 b8 ⊢
    exact ⟨b1, b2, by rw [b3, a3], by rw [b4, a4], by rw [b5, a5], by rw [b6, a6],
      by rw [b7, a7], by rw [b8, a8]⟩

/-- The state `sim_init` builds satisfies the invariant, whatever the
lines of the input file. -/
theorem sim_init_good (q : Nat) (lines : List (List Nat)) :
    Inv (sim_init q lines) ∧ Bnd (sim_init q lines) ∧ Settled (sim_init q lines) ∧
      (sim_init q lines).QUANTUM = q ∧ (sim_init q lines).TIME = 0 := by
  obtain ⟨z1, z2⟩ := inv_zero q
  obtain ⟨a1, a2, a3, a4, a5, a6, a7, a8⟩ := inv_parse_file lines _ z1 z2
  unfold sim_init
  simp only [outf]
  refine ⟨?_, ⟨a2.time_lt, a2.ev_lt, a2.burst_lt⟩, ?_, a8, a7⟩
  · refine inv_of_same_shape a1 ?_ ?_ ?_ ?_ ?_ ?_ ?_ ?_
    any_goals rfl
    intro i y hy
    exact ⟨y, hy, rfl, rfl, rfl⟩
  · constructor
    · intro _; exact a3
    · intro _; exact a4


/-! ## Reachable states -/

/-- From a state that satisfies the invariant, any number of calls of
`sim_advance` runs without abort and ends in such a state. -/
theorem advance_n_good : ∀ (n : Nat) (s : State), Inv s → Bnd s → Settled s →
    ∃ t, advance_n n s = some t ∧ Inv t ∧ Bnd t ∧ Settled t := by
  intro n
  induction n with
  | zero => intro s hI hB hS; exact ⟨s, rfl, hI, hB, hS⟩
  | succ n ih =>
    intro s hI hB hS
    cases htop : pq_top s.EVENT_Q with
    | none =>
      have hnil : s.EVENT_Q = [] := by
        cases hq : s.EVENT_Q with
        | nil => rfl
        | cons a l => rw [hq] at htop; cases htop
      obtain ⟨t, h1, h2⟩ := ih s hI hB hS
      refine ⟨t, ?_, h2⟩
      simp only [advance_n, sim_advance_empty hnil]
      exact h1
    | some e =>
      obtain ⟨k, u, a1, a2, a3, _, _⟩ := sim_advance_spec hI hB hS htop
      have g := a2.stays_good hI hB
      obtain ⟨t, h1, h2⟩ := ih u g.1 g.2 a3
      refine ⟨t, ?_, h2⟩
      simp only [advance_n, a1]
      exact h1

theorem count_toList (o : Option Nat) (i : Nat) : o.toList.count i = dev_count o i := by
  cases o with
  | none => rfl
  | some r =>
    rw [dev_count_some_eq]
    simp only [Option.toList, List.count_singleton]
    by_cases h : r = i
    · simp [h]
    · simp [h]

theorem count_locations (s : State) (i : Nat) :
    (locations s).count i
      = dev_count s.CPU_JOB i + dev_count s.IO_JOB i + s.READY_Q.count i + s.IO_Q.count i := by
  simp only [locations, List.count_append, count_toList]

/-- In a state that satisfies the invariant the four places are disjoint,
without repetition, and hold exactly the jobs that are neither New nor
Terminated. -/
theorem Inv.locations_spec {s : State} (hI : Inv s) :
    (locations s).Nodup ∧
      ∀ i, i ∈ locations s ↔
        ∃ j, s.JOBS[i]? = some j ∧ j.state ≠ JOB_NEW ∧ j.state ≠ JOB_TERMINATED := by
  constructor
  · rw [List.nodup_iff_count_le_one]
    intro i
    rw [count_locations]
    by_cases hlt : i < s.JOBS.length
    · have := hI.occ_eq i _ (List.getElem?_eq_getElem hlt)
      unfold occ at this
      split at this <;> omega
    · have := hI.occ_out i (by omega)
      unfold occ at this
      omega
  · intro i
    constructor
    · intro hmem
      have hc : 1 ≤ (locations s).count i := count_pos_of_mem hmem
      rw [count_locations] at hc
      have hocc : 1 ≤ occ s i := by unfold occ; omega
      obtain ⟨j, hj⟩ := hI.job_of_occ hocc
      refine ⟨j, hj, ?_⟩
      obtain ⟨_, f2, f3, f4, f5⟩ := hI.state_of_loc hj
      simp only [locations, List.mem_append, Option.mem_toList, Option.mem_def] at hmem
      rcases hmem with ((h | h) | h) | h
      · rw [f3 h]; exact ⟨by decide, by decide⟩
      · rw [f4 h]; exact ⟨by decide, by decide⟩
      · rw [f2 h]; exact ⟨by decide, by decide⟩
      · rw [f5 h]; exact ⟨by decide, by decide⟩
    · rintro ⟨j, hj, h1, h2⟩
      have hloc := hI.loc i j hj
      simp only [locations, List.mem_append, Option.mem_toList, Option.mem_def]
      cases hst : j.state <;> rw [hst] at hloc <;> simp only [located] at hloc
      · exact absurd hst h1
      · exact Or.inl (Or.inr hloc)
      · exact Or.inl (Or.inl (Or.inl hloc))
      · rcases hloc with h | h
        · exact Or.inl (Or.inl (Or.inr h))
        · exact Or.inr h
      · exact absurd hst h2

/-! ## Termination measure -/


theorem sum_map_set (f : job → Nat) : ∀ (l : List job) (r : Nat) (j x : job),
    l[r]? = some j → ((l.set r x).map f).sum + f j = (l.map f).sum + f x := by
  intro l
  induction l with
  | nil => intro r j x h; simp at h
  | cons a t ih =>
    intro r j x h
    cases r with
    | zero =>
      simp only [List.getElem?_cons_zero, Option.some.injEq] at h
      subst h
      simp only [List.set_cons_zero, List.map_cons, List.sum_cons]
      omega
    | succ k =>
      simp only [List.getElem?_cons_succ] at h
      have := ih k j x h
      simp only [List.set_cons_succ, List.map_cons, List.sum_cons]
      omega

theorem potential_set {s t : State} {r : Nat} {j x : job} (hj : s.JOBS[r]? = some j)
    (hJ : t.JOBS = s.JOBS.set r x) :
    potential t + job_potential j = potential s + job_potential x := by
  unfold potential
  rw [hJ]
  exact sum_map_set job_potential s.JOBS r j x hj

theorem potential_tick {s t : State}
    (h : ∀ i : Nat, t.JOBS[i]? = (s.JOBS[i]?).map (tallied s i)) :
    potential t = potential s := by
  unfold potential
  congr 1
  apply List.ext_getElem?
  intro i
  rw [List.getElem?_map, List.getElem?_map, h i]
  cases s.JOBS[i]? <;> rfl

theorem sub64_of_le {a b : Nat} (h : b ≤ a) (ha : a < U64) : sub64 a b = a - b := by
  unfold sub64
  unfold U64 at ha
  omega

/-- An elementary step does not raise the potential, and a popped event
lowers it, when the quantum is at least 1. -/
theorem Step.lowers_potential {n : Nat} {s t : State} (h : Step n s t) (hq : 1 ≤ s.QUANTUM) :
    potential t + n ≤ potential s ∧ t.QUANTUM = s.QUANTUM := by
  cases h with
  | tick hI hB heq =>
    obtain ⟨t2, h1, _, _, _, _, _, _, hqu, _, _, _, _, hjobs⟩ := inv_sim_inc_time hI
    rw [heq] at h1
    cases h1
    exact ⟨by rw [potential_tick hjobs]; omega, hqu⟩
  | @arrive _ e j hI hB htop htime hty hj hst =>
    refine ⟨?_, rfl⟩
    have := @potential_set s (post_arrive s e.jid j) _ _ _ hj rfl
    simp only [job_potential, hst] at this
    omega
  | @preempt _ e r j b bs hI hB htop htime hty hc hj hst hb hgt =>
    refine ⟨?_, rfl⟩
    have := @potential_set s (post_preempt s r j) _ _ _ hj rfl
    have hlt := hB.burst_lt _ _ hj _ (by rw [hb]; exact List.mem_cons_self _ _)
    simp only [job_potential, hst, hb, front_sub, work, List.sum_cons, List.length_cons,
      sub64_of_le (le_of_lt hgt) hlt] at this
    omega
  | @terminate _ e r j b hI hB htop htime hty hc hj hst hb hle =>
    refine ⟨?_, rfl⟩
    have := @potential_set s (post_terminate s r j) _ _ _ hj rfl
    simp only [job_potential, hst, hb, work, List.sum_cons, List.length_cons] at this
    omega
  | @io_request _ e r j b c cs hI hB htop htime hty hc hj hst hb hle =>
    refine ⟨?_, rfl⟩
    have := @potential_set s (post_io_request s r j) _ _ _ hj rfl
    simp only [job_potential, hst, hb, work, List.sum_cons, List.length_cons, List.tail_cons]
      at this
    omega
  | @io_receive _ e r j b c cs hI hB htop htime hty hc hj hst hb =>
    refine ⟨?_, rfl⟩
    have := @potential_set s (post_io_receive s r j) _ _ _ hj rfl
    simp only [job_potential, hst, hb, work, List.sum_cons, List.length_cons, List.tail_cons]
      at this
    omega
  | @dispatch _ r rest j b bs hI hB hidle hrq hj hst hb =>
    refine ⟨?_, rfl⟩
    have := @potential_set s (post_dispatch s r rest j b) _ _ _ hj rfl
    simp only [job_potential, hst] at this
    omega
  | io_dispatch hI hB hidle hrq hj hst hb =>
    exact ⟨le_refl _, rfl⟩

theorem Chain.potential_bound {n : Nat} {s t : State} (h : Chain n s t) (hq : 1 ≤ s.QUANTUM) :
    potential t + n ≤ potential s ∧ t.QUANTUM = s.QUANTUM := by
  induction h with
  | refl => exact ⟨le_refl _, rfl⟩
  | cons hs _ ih =>
    obtain ⟨a1, a2⟩ := hs.lowers_potential hq
    obtain ⟨b1, b2⟩ := ih (by rw [a2]; exact hq)
    exact ⟨by omega, by rw [b2, a2]⟩


/-! ## The loop ends -/

theorem top_distance_lt (s : State) : top_distance s < U64 := by
  unfold top_distance
  cases pq_top s.EVENT_Q with
  | none => simp [U64]
  | some e =>
    simp only []
    exact Nat.mod_lt _ (by simp [U64])

/-- In a settled state with an empty event queue everything is over. -/
theorem Inv.final {s : State} (hI : Inv s) (hS : Settled s) (hq : s.EVENT_Q = []) :
    (∀ j ∈ s.JOBS, j.state = JOB_TERMINATED) ∧ s.READY_Q = [] ∧ s.IO_Q = [] ∧
      s.CPU_JOB = none ∧ s.IO_JOB = none := by
  have hc : s.CPU_JOB = none := by
    have := hI.cpu_ev
    rw [hq] at this
    cases h : s.CPU_JOB with
    | none => rfl
    | some r => rw [h] at this; simp [cpu_count] at this
  have hio : s.IO_JOB = none := by
    have := hI.io_ev
    rw [hq] at this
    cases h : s.IO_JOB with
    | none => rfl
    | some r => rw [h] at this; simp [io_count] at this
  have hr := hS.1 hc
  have hi := hS.2 hio
  refine ⟨?_, hr, hi, hc, hio⟩
  intro j hj
  obtain ⟨i, hlt, hget⟩ := List.getElem_of_mem hj
  have hij : s.JOBS[i]? = some j := by rw [List.getElem?_eq_getElem hlt, hget]
  have := hI.occ_eq i j hij
  simp only [occ, hr, hi, hc, hio, hq, dev_count_none, arrive_count, List.count_nil,
    List.countP_nil] at this
  by_contra hne
  rw [if_neg hne] at this
  omega

/-- The loop `while (sim_advance());` ends, without abort, from every
settled state that satisfies the invariant, when the quantum is at least 1. -/
theorem sim_loop_terminates : ∀ (N : Nat) (s : State), Inv s → Bnd s → Settled s →
    1 ≤ s.QUANTUM → potential s * U64 + top_distance s < N →
    ∃ n t, sim_loop n s = some t ∧ Inv t ∧ Bnd t ∧ Settled t ∧ t.EVENT_Q = [] := by
  intro N
  induction N with
  | zero => intro s _ _ _ _ h; omega
  | succ N ih =>
    intro s hI hB hS hq hm
    cases htop : pq_top s.EVENT_Q with
    | none =>
      have hnil : s.EVENT_Q = [] := by
        cases hq : s.EVENT_Q with
        | nil => rfl
        | cons a l => rw [hq] at htop; cases htop
      refine ⟨1, s, ?_, hI, hB, hS, hnil⟩
      simp only [sim_loop, sim_advance_empty hnil]
    | some e =>
      obtain ⟨k, u, a1, a2, a3, a4, a5⟩ := sim_advance_spec hI hB hS htop
      have g := a2.stays_good hI hB
      obtain ⟨p1, p2⟩ := a2.potential_bound hq
      have hdu := top_distance_lt u
      have hlt : potential u * U64 + top_distance u < N := by
        by_cases hle : s.TIME ≤ e.arrival_time
        · have hk := a4 hle
          have h1 : (potential u + 1) * U64 ≤ potential s * U64 :=
            Nat.mul_le_mul_right _ (by omega)
          rw [Nat.add_mul] at h1
          omega
        · obtain ⟨b1, _⟩ := a5 (by omega)
          obtain ⟨u2, c1, _, _, _, c3, _, _, _, _, c6, _, _, _⟩ := inv_sim_inc_time hI
          rw [b1] at c1
          cases c1
          have hpu : potential u * U64 ≤ potential s * U64 :=
            Nat.mul_le_mul_right _ (by omega)
          have helt := hB.ev_lt e ((hI.pop_facts htop).2.2.2.2.2)
          have htl := hB.time_lt
          have hd : top_distance u + 1 = top_distance s := by
            unfold top_distance
            rw [c3, htop]
            simp only []
            rw [c6]
            unfold inc64
            unfold U64 at helt htl ⊢
            omega
          omega
      obtain ⟨n, t, h1, h2⟩ := ih u g.1 g.2 a3 (by rw [p2]; exact hq) hlt
      refine ⟨n + 1, t, ?_, h2⟩
      simp only [sim_loop, a1]
      exact h1

/-! ## Accounting -/


/-- The queue counts of a job follow from its state. -/
theorem Inv.queue_counts {s : State} (hI : Inv s) {i : Nat} {j : job}
    (hij : s.JOBS[i]? = some j) :
    (j.state = JOB_READY → s.READY_Q.count i = 1 ∧ s.IO_Q.count i = 0) ∧
    (j.state = JOB_BLOCKED → s.IO_JOB ≠ some i → s.READY_Q.count i = 0 ∧ s.IO_Q.count i = 1) ∧
    (j.state = JOB_BLOCKED → s.IO_JOB = some i → s.READY_Q.count i = 0 ∧ s.IO_Q.count i = 0) ∧
    (j.state = JOB_NEW → s.READY_Q.count i = 0 ∧ s.IO_Q.count i = 0) ∧
    (j.state = JOB_RUNNING → s.READY_Q.count i = 0 ∧ s.IO_Q.count i = 0) ∧
    (j.state = JOB_TERMINATED → s.READY_Q.count i = 0 ∧ s.IO_Q.count i = 0) := by
  have h1 := hI.occ_eq i j hij
  have h2 := hI.loc i j hij
  unfold occ at h1
  refine ⟨?_, ?_, ?_, ?_, ?_, ?_⟩
  · intro hst
    rw [hst] at h1 h2
    simp only [reduceCtorEq, if_false] at h1
    have := count_pos_of_mem h2
    omega
  · intro hst hio
    rw [hst] at h1 h2
    simp only [reduceCtorEq, if_false] at h1
    rcases h2 with h2 | h2
    · exact absurd h2 hio
    · have := count_pos_of_mem h2
      omega
  · intro hst hio
    rw [hst] at h1
    simp only [reduceCtorEq, if_false] at h1
    rw [hio, dev_count_some] at h1
    omega
  · intro hst
    rw [hst] at h1 h2
    simp only [reduceCtorEq, if_false] at h1
    simp only [located] at h2
    omega
  · intro hst
    rw [hst] at h1 h2
    simp only [reduceCtorEq, if_false] at h1
    simp only [located] at h2
    rw [h2, dev_count_some] at h1
    omega
  · intro hst
    rw [hst] at h1
    simp only [if_true] at h1
    omega

theorem inc64_mod (a : Nat) : inc64 a % U64 = (a + 1) % U64 := by
  unfold inc64 U64; omega

/-- A tick keeps the accounting: queued jobs gain one tick of wait or IO
time as the clock gains one. -/
theorem acc_tick {tot : Nat → Nat} {s t : State} (hI : Inv s) (hA : Acc tot s)
    (hQ : t.EVENT_Q = s.EVENT_Q) (hio : t.IO_JOB = s.IO_JOB) (hqu : t.QUANTUM = s.QUANTUM)
    (hT : t.TIME = inc64 s.TIME)
    (hjobs : ∀ i : Nat, t.JOBS[i]? = (s.JOBS[i]?).map (tallied s i)) : Acc tot t := by
  intro i y hy
  rw [hjobs i] at hy
  cases hx : s.JOBS[i]? with
  | none => rw [hx] at hy; cases hy
  | some x =>
    rw [hx] at hy
    simp only [Option.map_some', Option.some.injEq] at hy
    subst hy
    have ha := hA i x hx
    obtain ⟨c1, c2, c3, c4, c5, c6⟩ := hI.queue_counts hx
    unfold acc_job at ha ⊢
    simp only [tallied]
    cases hst : x.state <;> rw [hst] at ha <;> simp only [] at ha ⊢
    · obtain ⟨e1, e2⟩ := c4 hst
      rw [e1, e2, hQ]
      exact ha
    · obtain ⟨e1, e2⟩ := c1 hst
      rw [e1, e2, hT]
      simp only [Function.iterate_one, Function.iterate_zero, id]
      have h1 := inc64_mod s.TIME
      have h2 := inc64_mod x.wait_time
      unfold U64 at *
      omega
    · obtain ⟨e1, e2⟩ := c5 hst
      rw [e1, e2, hQ, hqu]
      exact ha
    · rw [hio, hQ]
      constructor
      · intro h
        obtain ⟨e1, e2⟩ := c3 hst h
        rw [e1, e2]
        exact ha.1 h
      · intro h
        obtain ⟨e1, e2⟩ := c2 hst h
        rw [e1, e2, hT]
        simp only [Function.iterate_one, Function.iterate_zero, id]
        have h0 := ha.2 h
        have h1 := inc64_mod s.TIME
        have h2 := inc64_mod x.io_time
        unfold U64 at *
        omega
    · obtain ⟨e1, e2⟩ := c6 hst
      rw [e1, e2]
      exact ha

/-- The accounting of a job that a step leaves alone. -/
theorem acc_frame {s t : State} {T i : Nat} {j : job} (h : acc_job s T i j)
    (hT : t.TIME = s.TIME) (hq : t.QUANTUM = s.QUANTUM)
    (hArr : ∀ e ∈ t.EVENT_Q, e.type = EVT_ARRIVE → e ∈ s.EVENT_Q)
    (hCpu : j.state = JOB_RUNNING → ∀ e ∈ t.EVENT_Q, is_cpu_event e.type = true →
      e ∈ s.EVENT_Q)
    (hIo : j.state = JOB_BLOCKED → t.IO_JOB = some i →
      s.IO_JOB = some i ∧ ∀ e ∈ t.EVENT_Q, e.type = EVT_IO_RECIEVE → e ∈ s.EVENT_Q)
    (hIo2 : j.state = JOB_BLOCKED → t.IO_JOB ≠ some i → s.IO_JOB ≠ some i) :
    acc_job t T i j := by
  unfold acc_job at h ⊢
  cases hst : j.state <;> rw [hst] at h <;> simp only [] at h ⊢
  · refine ⟨h.1, h.2.1, h.2.2.1, ?_⟩
    intro e he hty hjid
    exact h.2.2.2 e (hArr e he hty) hty hjid
  · rw [hT]; exact h
  · intro e he hty
    rw [hq]
    exact h e (hCpu hst e he hty) hty
  · constructor
    · intro hio e he hty
      obtain ⟨g1, g2⟩ := hIo hst hio
      exact h.1 g1 e (g2 e he hty) hty
    · intro hio
      rw [hT]
      exact h.2 (hIo2 hst hio)
  · exact h



theorem acc_frame_pop {s t : State} (hI : Inv s) {e : event}
    (htop : pq_top s.EVENT_Q = some e) {T i : Nat} {j : job} (h : acc_job s T i j)
    (hT : t.TIME = s.TIME) (hq : t.QUANTUM = s.QUANTUM) (hQ : t.EVENT_Q = pq_pop s.EVENT_Q)
    (hio : t.IO_JOB = s.IO_JOB ∨ (t.IO_JOB = none ∧ s.IO_JOB ≠ some i)) :
    acc_job t T i j := by
  have hsub := (hI.pop_facts htop).2.2.2.2.1
  rw [← hQ] at hsub
  refine acc_frame h hT hq (fun x hx _ => hsub x hx) (fun _ x hx _ => hsub x hx) ?_ ?_
  · intro _ h2
    rcases hio with h3 | ⟨h3, _⟩
    · exact ⟨by rw [← h3]; exact h2, fun x hx _ => hsub x hx⟩
    · rw [h3] at h2; cases h2
  · intro _ h2
    rcases hio with h3 | ⟨_, h4⟩
    · rw [← h3]; exact h2
    · exact h4

/-- Every elementary step keeps the accounting. -/
theorem Step.keeps_acc {tot : Nat → Nat} {n : Nat} {s t : State} (h : Step n s t)
    (hA : Acc tot s) : Acc tot t := by
  cases h with
  | tick hI hB heq =>
    obtain ⟨t2, h1, _, _, _, hQ, _, hio, hqu, _, hT, _, _, hjobs⟩ := inv_sim_inc_time hI
    rw [heq] at h1
    cases h1
    exact acc_tick hI hA hQ hio hqu hT hjobs
  | @arrive _ e j hI hB htop htime hty hj hst =>
    intro i y hy
    rcases getElem_opt_set_cases hy with ⟨rfl, rfl⟩ | ⟨hne, hold⟩
    · have ha := hA _ _ hj
      unfold acc_job at ha ⊢
      rw [hst] at ha
      simp only [] at ha ⊢
      obtain ⟨w0, i0, hsum, hev⟩ := ha
      have := hev e ((hI.pop_facts htop).2.2.2.2.2) hty rfl
      simp only [post_arrive]
      rw [w0, i0, hsum, htime, this]
      simp
    · exact acc_frame_pop hI htop (hA _ _ hold) rfl rfl rfl (Or.inl rfl)
  | @preempt _ e r j b bs hI hB htop htime hty hc hj hst hb hgt =>
    intro i y hy
    rcases getElem_opt_set_cases hy with ⟨rfl, rfl⟩ | ⟨hne, hold⟩
    · have ha := hA _ _ hj
      unfold acc_job at ha ⊢
      rw [hst] at ha
      simp only [] at ha ⊢
      have := ha e ((hI.pop_facts htop).2.2.2.2.2) (by rw [hty]; rfl)
      have hlt := hB.burst_lt _ _ hj _ (by rw [hb]; exact List.mem_cons_self _ _)
      simp only [hb, burst_slice, if_pos hgt, List.sum_cons] at this
      simp only [post_preempt, hb, front_sub, List.sum_cons, sub64_of_le (le_of_lt hgt) hlt]
      rw [htime]
      unfold U64 at *
      omega
    · exact acc_frame_pop hI htop (hA _ _ hold) rfl rfl rfl (Or.inl rfl)
  | @terminate _ e r j b hI hB htop htime hty hc hj hst hb hle =>
    intro i y hy
    rcases getElem_opt_set_cases hy with ⟨rfl, rfl⟩ | ⟨hne, hold⟩
    · have ha := hA _ _ hj
      unfold acc_job at ha ⊢
      rw [hst] at ha
      simp only [] at ha ⊢
      have := ha e ((hI.pop_facts htop).2.2.2.2.2) (by rw [hty]; rfl)
      simp only [hb, burst_slice, if_neg (Nat.not_lt.2 hle), List.sum_cons, List.sum_nil]
        at this
      rw [htime]
      unfold sub64
      unfold U64 at *
      omega
    · exact acc_frame_pop hI htop (hA _ _ hold) rfl rfl rfl (Or.inl rfl)
  | @io_request _ e r j b c cs hI hB htop htime hty hc hj hst hb hle =>
    intro i y hy
    rcases getElem_opt_set_cases hy with ⟨rfl, rfl⟩ | ⟨hne, hold⟩
    · have ha := hA _ _ hj
      unfold acc_job at ha ⊢
      rw [hst] at ha
      simp only [] at ha ⊢
      have := ha e ((hI.pop_facts htop).2.2.2.2.2) (by rw [hty]; rfl)
      simp only [hb, burst_slice, if_neg (Nat.not_lt.2 hle), List.sum_cons] at this
      have hio_ne : s.IO_JOB ≠ some i := by
        intro h
        have h2 := (hI.state_of_loc hj).2.2.2.1 h
        rw [hst] at h2
        cases h2
      simp only [post_io_request, hb, List.tail_cons, List.sum_cons]
      refine ⟨fun h => absurd h hio_ne, fun _ => ?_⟩
      rw [htime]
      unfold U64 at *
      omega
    · exact acc_frame_pop hI htop (hA _ _ hold) rfl rfl rfl (Or.inl rfl)
  | @io_receive _ e r j b c cs hI hB htop htime hty hc hj hst hb =>
    intro i y hy
    rcases getElem_opt_set_cases hy with ⟨rfl, rfl⟩ | ⟨hne, hold⟩
    · have ha := hA _ _ hj
      unfold acc_job at ha ⊢
      rw [hst] at ha
      simp only [] at ha ⊢
      have := ha.1 hc e ((hI.pop_facts htop).2.2.2.2.2) hty
      simp only [hb, front_burst, List.sum_cons] at this
      simp only [post_io_receive, hb, List.tail_cons, List.sum_cons]
      rw [htime]
      unfold U64 at *
      omega
    · refine acc_frame_pop hI htop (hA _ _ hold) rfl rfl rfl (Or.inr ⟨rfl, ?_⟩)
      rw [hc]
      intro h
      exact hne (Option.some.inj h).symm
  | @dispatch _ r rest j b bs hI hB hidle hrq hj hst hb =>
    obtain ⟨pa, pc, pio, pmem⟩ := push_facts s.EVENT_Q (dispatch_event s r j.bursts b)
    obtain ⟨f1, f2, f3, f4, f5⟩ := dispatch_event_facts s r j.bursts b bs hb
    have hcpu0 : cpu_count s.EVENT_Q = 0 := by
      have := hI.cpu_ev
      rw [hidle] at this
      simpa using this
    intro i y hy
    rcases getElem_opt_set_cases hy with ⟨rfl, rfl⟩ | ⟨hne, hold⟩
    · have ha := hA _ _ hj
      unfold acc_job at ha ⊢
      rw [hst] at ha
      simp only [] at ha ⊢
      intro x hx hcx
      simp only [post_dispatch] at hx ⊢
      rcases pmem x hx with rfl | hx2
      · simp only [dispatch_event, hb, burst_slice]
        by_cases hgt : b > s.QUANTUM
        · simp only [if_pos hgt, add64]
          rw [hb] at ha
          unfold U64 at *
          omega
        · simp only [if_neg hgt, add64]
          rw [hb] at ha
          unfold U64 at *
          omega
      · have := cpu_count_zero_not_mem hcpu0 x hx2
        rw [this] at hcx
        cases hcx
    · refine acc_frame (hA _ _ hold) rfl rfl ?_ ?_ ?_ ?_
      · intro x hx hty
        rcases pmem x hx with rfl | hx2
        · exact absurd hty f4
        · exact hx2
      · intro hrun
        have := (hI.loc _ _ hold)
        rw [hrun] at this
        simp only [located] at this
        rw [hidle] at this
        cases this
      · intro _ h2
        refine ⟨h2, ?_⟩
        intro x hx hty
        rcases pmem x hx with rfl | hx2
        · exact absurd hty f5
        · exact hx2
      · intro _ h2
        exact h2
  | @io_dispatch _ r rest j b c cs hI hB hidle hrq hj hst hb =>
    obtain ⟨pa, pc, pio, pmem⟩ :=
      push_facts s.EVENT_Q (event.mk EVT_IO_RECIEVE r (add64 s.TIME b))
    have hio0 : io_count s.EVENT_Q = 0 := by
      have := hI.io_ev
      rw [hidle] at this
      simpa using this
    intro i y hy
    have hy2 : s.JOBS[i]? = some y := hy
    by_cases hir : i = r
    · subst hir
      rw [hj] at hy2
      cases hy2
      have ha := hA _ _ hj
      unfold acc_job at ha ⊢
      rw [hst] at ha ⊢
      simp only [] at ha ⊢
      have h0 := ha.2 (by rw [hidle]; exact fun h => by cases h)
      refine ⟨fun _ => ?_, fun h => absurd rfl h⟩
      intro x hx hty
      simp only [post_io_dispatch] at hx
      rcases pmem x hx with rfl | hx2
      · simp only [hb, front_burst, add64, List.sum_cons] at h0 ⊢
        unfold U64 at *
        omega
      · exact absurd hty (io_count_zero_not_mem hio0 x hx2)
    · refine acc_frame (hA _ _ hy2) rfl rfl ?_ ?_ ?_ ?_
      · intro x hx hty
        rcases pmem x hx with rfl | hx2
        · cases hty
        · exact hx2
      · intro _ x hx hcx
        rcases pmem x hx with rfl | hx2
        · cases hcx
        · exact hx2
      · intro _ h2
        simp only [post_io_dispatch] at h2
        exact absurd (Option.some.inj h2).symm hir
      · intro _ _
        rw [hidle]
        exact fun h => by cases h

theorem Chain.stays_acc {tot : Nat → Nat} {n : Nat} {s t : State} (h : Chain n s t)
    (hA : Acc tot s) : Acc tot t := by
  induction h with
  | refl => exact hA
  | cons hs _ ih => exact ih (hs.keeps_acc hA)


/-- As `advance_n_good`, with the elementary steps of the calls. -/
theorem advance_n_chain : ∀ (n : Nat) (s : State), Inv s → Bnd s → Settled s →
    ∃ k t, advance_n n s = some t ∧ Chain k s t ∧ Settled t := by
  intro n
  induction n with
  | zero => intro s _ _ hS; exact ⟨0, s, rfl, Chain.refl s, hS⟩
  | succ n ih =>
    intro s hI hB hS
    cases htop : pq_top s.EVENT_Q with
    | none =>
      have hnil : s.EVENT_Q = [] := by
        cases hq : s.EVENT_Q with
        | nil => rfl
        | cons a l => rw [hq] at htop; cases htop
      obtain ⟨k, t, h1, h2⟩ := ih s hI hB hS
      refine ⟨k, t, ?_, h2⟩
      simp only [advance_n, sim_advance_empty hnil]
      exact h1
    | some e =>
      obtain ⟨k, u, a1, a2, a3, _, _⟩ := sim_advance_spec hI hB hS htop
      have g := a2.stays_good hI hB
      obtain ⟨m, t, h1, h2, h3⟩ := ih u g.1 g.2 a3
      refine ⟨k + m, t, ?_, a2.trans h2, h3⟩
      simp only [advance_n, a1]
      exact h1

theorem fresh_parse_step {s : State} (hI : Inv s) (hF : Fresh s) (line : List Nat) :
    Fresh (jobs_parse_step s line) := by
  unfold jobs_parse_step
  cases hp : jobs_parse_line line with
  | none => exact hF
  | some j0 =>
    obtain ⟨p1, _, _, _, _, p6, p7, _⟩ := jobs_parse_line_facts hp
    obtain ⟨_, _, _, pmem⟩ :=
      push_facts s.EVENT_Q (event.mk EVT_ARRIVE s.JOBS.length j0.arrival_time)
    intro i y hy
    simp only [] at hy ⊢
    rcases getElem_opt_append_singleton hy with ⟨hlt, hold⟩ | ⟨rfl, rfl⟩
    · obtain ⟨f1, f2, f3, f4⟩ := hF i y hold
      refine ⟨f1, f2, f3, ?_⟩
      intro x hx hty hjid
      rcases pmem x hx with rfl | hx2
      · simp only [] at hjid
        omega
      · exact f4 x hx2 hty hjid
    · refine ⟨p1, p6, p7, ?_⟩
      intro x hx hty hjid
      rcases pmem x hx with rfl | hx2
      · rfl
      · exfalso
        have hpos : 0 < arrive_count s.EVENT_Q s.JOBS.length := by
          unfold arrive_count
          rw [List.countP_pos_iff]
          exact ⟨x, hx2, by simp [hty, hjid]⟩
        have := hI.occ_out s.JOBS.length (le_refl _)
        unfold occ at this
        omega

theorem fresh_parse_file (lines : List (List Nat)) : ∀ (s : State), Inv s → Bnd s → Fresh s →
    Fresh (jobs_parse_file lines s) := by
  induction lines with
  | nil => intro s _ _ hF; exact hF
  | cons l ls ih =>
    intro s hI hB hF
    obtain ⟨a1, a2, _⟩ := inv_parse_step hI hB l
    exact ih (jobs_parse_step s l) a1 a2 (fresh_parse_step hI hF l)

theorem sim_init_acc (q : Nat) (lines : List (List Nat)) :
    Acc (orig_total (sim_init q lines)) (sim_init q lines) := by
  obtain ⟨z1, z2⟩ := inv_zero q
  have hF : Fresh (sim_init q lines) := by
    have := fresh_parse_file lines _ z1 z2 (by intro i j h; simp [State.zero] at h)
    exact this
  intro i j hj
  obtain ⟨f1, f2, f3, f4⟩ := hF i j hj
  unfold acc_job
  rw [f1]
  simp only []
  refine ⟨f2, f3, ?_, f4⟩
  unfold orig_total
  rw [hj]

/-! ## More on steps and runs -/

/-- What `set` does to the entry at position `i`. -/
theorem set_job_cases {l : List job} {r i : Nat} (x : job) {j0 j : job}
    (h0 : l[r]? = some j0) (h : l[i]? = some j) :
    (i = r ∧ j = j0 ∧ (l.set r x)[i]? = some x) ∨ (i ≠ r ∧ (l.set r x)[i]? = some j) := by
  by_cases hir : i = r
  · subst hir
    rw [h0] at h
    cases h
    refine Or.inl ⟨rfl, rfl, ?_⟩
    rw [List.getElem?_set, if_pos rfl, if_pos (getElem_opt_lt h0)]
  · refine Or.inr ⟨hir, ?_⟩
    rw [List.getElem?_set, if_neg (fun hh => hir hh.symm)]
    exact h

/-- A Terminated job is in no queue and on no device. -/
theorem Inv.terminated_nowhere {s : State} (hI : Inv s) {i : Nat} {j : job}
    (hj : s.JOBS[i]? = some j) (hst : j.state = JOB_TERMINATED) :
    i ∉ s.READY_Q ∧ i ∉ s.IO_Q ∧ s.CPU_JOB ≠ some i ∧ s.IO_JOB ≠ some i := by
  have h := hI.state_of_loc hj
  rw [hst] at h
  refine ⟨?_, ?_, ?_, ?_⟩
  · intro hh; exact absurd (h.2.1 hh) (by decide)
  · intro hh; exact absurd (h.2.2.2.2 hh) (by decide)
  · intro hh; exact absurd (h.2.2.1 hh) (by decide)
  · intro hh; exact absurd (h.2.2.2.1 hh) (by decide)

/-- What one elementary step does to the job at position `i`: its state
stays or follows an edge of the state machine, and a Terminated job stays
as it is. -/
theorem Step.job_change {n : Nat} {s t : State} (h : Step n s t) (i : Nat) (j : job)
    (hj : s.JOBS[i]? = some j) :
    ∃ y, t.JOBS[i]? = some y ∧
      (y.state = j.state ∨
        (j.state = JOB_NEW ∧ y.state = JOB_READY) ∨
        (j.state = JOB_READY ∧ y.state = JOB_RUNNING) ∨
        (j.state = JOB_RUNNING ∧ y.state = JOB_READY) ∨
        (j.state = JOB_RUNNING ∧ y.state = JOB_BLOCKED) ∨
        (j.state = JOB_RUNNING ∧ y.state = JOB_TERMINATED) ∨
        (j.state = JOB_BLOCKED ∧ y.state = JOB_READY)) ∧
      (j.state = JOB_TERMINATED → y = j) := by
  cases h with
  | tick hI hB heq =>
    obtain ⟨t2, h1, _, _, _, _, _, _, _, _, _, _, _, hjobs⟩ := inv_sim_inc_time hI
    rw [heq] at h1
    cases h1
    refine ⟨tallied s i j, ?_, Or.inl rfl, ?_⟩
    · rw [hjobs i, hj]; rfl
    · intro hst
      obtain ⟨a1, a2, _, _⟩ := hI.terminated_nowhere hj hst
      unfold tallied
      rw [List.count_eq_zero_of_not_mem a1, List.count_eq_zero_of_not_mem a2]
      rfl
  | @arrive _ e j0 hI hB htop hdue hty hj0 hst0 =>
    rcases set_job_cases { j0 with state := JOB_READY } hj0 hj with ⟨_, rfl, h3⟩ | ⟨_, h3⟩
    · exact ⟨_, h3, Or.inr (Or.inl ⟨hst0, rfl⟩), fun hh => by rw [hst0] at hh; cases hh⟩
    · exact ⟨j, h3, Or.inl rfl, fun _ => rfl⟩
  | @preempt _ e r j0 b bs hI hB htop hdue hty hcj hj0 hst0 hb hgt =>
    rcases set_job_cases { j0 with state := JOB_READY, bursts := front_sub j0.bursts s.QUANTUM }
      hj0 hj with ⟨_, rfl, h3⟩ | ⟨_, h3⟩
    · exact ⟨_, h3, Or.inr (Or.inr (Or.inr (Or.inl ⟨hst0, rfl⟩))),
        fun hh => by rw [hst0] at hh; cases hh⟩
    · exact ⟨j, h3, Or.inl rfl, fun _ => rfl⟩
  | @terminate _ e r j0 b hI hB htop hdue hty hcj hj0 hst0 hb hle =>
    rcases set_job_cases
      { j0 with state := JOB_TERMINATED, turn_around_time := sub64 s.TIME j0.arrival_time }
      hj0 hj with ⟨_, rfl, h3⟩ | ⟨_, h3⟩
    · exact ⟨_, h3, Or.inr (Or.inr (Or.inr (Or.inr (Or.inr (Or.inl ⟨hst0, rfl⟩))))),
        fun hh => by rw [hst0] at hh; cases hh⟩
    · exact ⟨j, h3, Or.inl rfl, fun _ => rfl⟩
  | @io_request _ e r j0 b c cs hI hB htop hdue hty hcj hj0 hst0 hb hle =>
    rcases set_job_cases { j0 with state := JOB_BLOCKED, bursts := j0.bursts.tail }
      hj0 hj with ⟨_, rfl, h3⟩ | ⟨_, h3⟩
    · exact ⟨_, h3, Or.inr (Or.inr (Or.inr (Or.inr (Or.inl ⟨hst0, rfl⟩)))),
        fun hh => by rw [hst0] at hh; cases hh⟩
    · exact ⟨j, h3, Or.inl rfl, fun _ => rfl⟩
  | @io_receive _ e r j0 b c cs hI hB htop hdue hty hcj hj0 hst0 hb =>
    rcases set_job_cases { j0 with state := JOB_READY, bursts := j0.bursts.tail }
      hj0 hj with ⟨_, rfl, h3⟩ | ⟨_, h3⟩
    · exact ⟨_, h3, Or.inr (Or.inr (Or.inr (Or.inr (Or.inr (Or.inr ⟨hst0, rfl⟩))))),
        fun hh => by rw [hst0] at hh; cases hh⟩
    · exact ⟨j, h3, Or.inl rfl, fun _ => rfl⟩
  | @dispatch _ r rest j0 b bs hI hB hidle hq hj0 hst0 hb =>
    rcases set_job_cases { j0 with state := JOB_RUNNING } hj0 hj with ⟨_, rfl, h3⟩ | ⟨_, h3⟩
    · exact ⟨_, h3, Or.inr (Or.inr (Or.inl ⟨hst0, rfl⟩)),
        fun hh => by rw [hst0] at hh; cases hh⟩
    · exact ⟨j, h3, Or.inl rfl, fun _ => rfl⟩
  | @io_dispatch _ r rest j0 b c cs hI hB hidle hq hj0 hst0 hb =>
    exact ⟨j, hj, Or.inl rfl, fun _ => rfl⟩

/-- A Terminated job stays as it is along a sequence of steps. -/
theorem Chain.terminated_stays {m : Nat} {s u : State} (h : Chain m s u) (i : Nat) (j : job)
    (hj : s.JOBS[i]? = some j) (hst : j.state = JOB_TERMINATED) : u.JOBS[i]? = some j := by
  induction h with
  | refl => exact hj
  | cons hs _ ih =>
    obtain ⟨y, h1, _, h3⟩ := hs.job_change i j hj
    rw [h3 hst] at h1
    exact ih h1

/-- A call of `sim_advance` returns false only on an empty event queue,
and then leaves the state as it is. -/
theorem sim_advance_false {s t : State} (h : sim_advance s = some (false, t)) :
    s.EVENT_Q = [] ∧ t = s := by
  unfold sim_advance at h
  split at h
  · rename_i he
    simp only [Option.some.injEq, Prod.mk.injEq, true_and] at h
    exact ⟨List.isEmpty_iff.1 he, h.symm⟩
  · split at h
    · cases h
    · split at h
      · cases h
      · split at h
        · cases h
        · split at h
          · cases h
          · split at h
            · cases h
            · simp at h

theorem advance_n_empty (n : Nat) {s : State} (h : s.EVENT_Q = []) : advance_n n s = some s := by
  induction n with
  | zero => rfl
  | succ n ih =>
    unfold advance_n
    rw [sim_advance_empty h]
    exact ih

/-- The state in which the loop of `main` ends is the state after that
many calls of `sim_advance`. -/
theorem sim_loop_advance_n : ∀ (n : Nat) (s t : State), sim_loop n s = some t →
    advance_n n s = some t := by
  intro n
  induction n with
  | zero => intro s t h; simp [sim_loop] at h
  | succ n ih =>
    intro s t h
    unfold sim_loop at h
    unfold advance_n
    cases hadv : sim_advance s with
    | none => rw [hadv] at h; cases h
    | some p =>
      obtain ⟨b, s1⟩ := p
      rw [hadv] at h
      cases b with
      | false =>
        simp only [Option.some.injEq] at h
        subst h
        obtain ⟨h1, h2⟩ := sim_advance_false hadv
        subst h2
        exact advance_n_empty n h1
      | true =>
        exact ih s1 t h

/-- Every job of the table is still in the table after a sequence of steps. -/
theorem Chain.job_persists {m : Nat} {s u : State} (h : Chain m s u) (i : Nat) (j : job)
    (hj : s.JOBS[i]? = some j) : ∃ y, u.JOBS[i]? = some y := by
  induction h generalizing j with
  | refl => exact ⟨j, hj⟩
  | cons hs _ ih =>
    obtain ⟨y, h1, _, _⟩ := hs.job_change i j hj
    exact ih y h1

/-- A device that holds job `i` makes `i` a job of the table. -/
theorem Inv.job_of_cpu {s : State} (hI : Inv s) {r : Nat} (h : s.CPU_JOB = some r) :
    ∃ j, s.JOBS[r]? = some j ∧ j.state = JOB_RUNNING ∧ j.jid = r := by
  have h1 : 1 ≤ occ s r := by
    unfold occ
    rw [h, dev_count_some]
    omega
  obtain ⟨j, hj⟩ := hI.job_of_occ h1
  exact ⟨j, hj, (hI.state_of_loc hj).2.2.1 h, hI.jid_eq _ _ hj⟩

theorem Inv.job_of_io {s : State} (hI : Inv s) {r : Nat} (h : s.IO_JOB = some r) :
    ∃ j, s.JOBS[r]? = some j ∧ j.state = JOB_BLOCKED ∧ j.jid = r := by
  have h1 : 1 ≤ occ s r := by
    unfold occ
    rw [h, dev_count_some]
    omega
  obtain ⟨j, hj⟩ := hI.job_of_occ h1
  exact ⟨j, hj, (hI.state_of_loc hj).2.2.2.1 h, hI.jid_eq _ _ hj⟩

/-! ## Accounting of the CPU -/

theorem cpu_bursts_cons_sum (b : Nat) (bs : List Nat) :
    (cpu_bursts (b :: bs)).sum = b + (cpu_bursts bs.tail).sum := by
  cases bs with
  | nil => simp [cpu_bursts]
  | cons c cs => simp [cpu_bursts]

theorem cpu_left_total_set {s t : State} {r : Nat} {j x : job} (hj : s.JOBS[r]? = some j)
    (hJ : t.JOBS = s.JOBS.set r x) :
    cpu_left_total t + cpu_left j = cpu_left_total s + cpu_left x := by
  unfold cpu_left_total
  rw [hJ]
  exact sum_map_set cpu_left s.JOBS r j x hj

theorem cpu_left_total_tick {s t : State}
    (h : ∀ i : Nat, t.JOBS[i]? = (s.JOBS[i]?).map (tallied s i)) :
    cpu_left_total t = cpu_left_total s := by
  unfold cpu_left_total
  congr 1
  apply List.ext_getElem?
  intro i
  rw [List.getElem?_map, List.getElem?_map, h i]
  cases s.JOBS[i]? <;> rfl

/-- The accounting of the CPU in a state where the CPU job, its bursts
and the CPU events are as before. -/
theorem cpuAcc_frame {C : Nat} {s t : State} (hA : CpuAcc C s)
    (hT : t.TIME = s.TIME) (hq : t.QUANTUM = s.QUANTUM) (hc : t.CPU_JOB = s.CPU_JOB)
    (hidle : t.CPU_IDLE_TIME = s.CPU_IDLE_TIME)
    (hL : cpu_left_total t = cpu_left_total s)
    (hQ : ∀ e ∈ t.EVENT_Q, is_cpu_event e.type = true → e ∈ s.EVENT_Q)
    (hJ : ∀ (r : Nat) (y : job), s.CPU_JOB = some r → t.JOBS[r]? = some y →
      ∃ x, s.JOBS[r]? = some x ∧ x.bursts = y.bursts) : CpuAcc C t := by
  constructor
  · intro h
    rw [hT, hL, hidle]
    exact hA.1 (by rw [← hc]; exact h)
  · intro r y hr hy e he hty
    rw [hc] at hr
    obtain ⟨x, hx, hb⟩ := hJ r y hr hy
    rw [hL, hidle, hq, ← hb]
    exact hA.2 r x hr hx e (hQ e he hty) hty

/-- Every elementary step keeps the accounting of the CPU. -/
theorem Step.keeps_cpuAcc {C : Nat} {n : Nat} {s t : State} (h : Step n s t)
    (hA : CpuAcc C s) : CpuAcc C t := by
  cases h with
  | tick hI hB heq =>
    obtain ⟨t2, h1, _, _, _, hQ, hcpu, _, hqu, _, hT, hidle, _, hjobs⟩ := inv_sim_inc_time hI
    rw [heq] at h1
    cases h1
    have hL := cpu_left_total_tick hjobs
    constructor
    · intro hc
      rw [hcpu] at hc
      have h0 := hA.1 hc
      have hi : is_cpu_idle s = true := by simp [is_cpu_idle, hc]
      rw [hidle, if_pos hi, hT, hL]
      have a1 := inc64_mod s.TIME
      have a2 := inc64_mod s.CPU_IDLE_TIME
      unfold U64 at *
      omega
    · intro r y hr hy e he hty
      rw [hcpu] at hr
      have hi : is_cpu_idle s = false := by simp [is_cpu_idle, hr]
      rw [hjobs r] at hy
      cases hx : s.JOBS[r]? with
      | none => rw [hx] at hy; cases hy
      | some x =>
        rw [hx] at hy
        simp only [Option.map_some', Option.some.injEq] at hy
        subst hy
        rw [hidle, hi, hL, hqu]
        rw [hQ] at he
        exact hA.2 r x hr hx e he hty
  | @arrive _ e j hI hB htop htime hty hj hst =>
    refine cpuAcc_frame hA rfl rfl rfl rfl ?_ ?_ ?_
    · have := @cpu_left_total_set s (post_arrive s e.jid j) _ _ _ hj rfl
      have e1 : cpu_left { j with state := JOB_READY } = cpu_left j := by
        simp only [cpu_left, hst]
      omega
    · intro x hx _
      exact (hI.pop_facts htop).2.2.2.2.1 x hx
    · intro r y _ hy
      rcases getElem_opt_set_cases hy with ⟨rfl, rfl⟩ | ⟨_, hold⟩
      · exact ⟨j, hj, rfl⟩
      · exact ⟨y, hold, rfl⟩
  | @preempt _ e r j b bs hI hB htop htime hty hc hj hst hb hgt =>
    constructor
    · intro _
      have h0 := hA.2 r j hc hj e ((hI.pop_facts htop).2.2.2.2.2) (by rw [hty]; rfl)
      have hlt := hB.burst_lt _ _ hj _ (by rw [hb]; exact List.mem_cons_self _ _)
      have hs := @cpu_left_total_set s (post_preempt s r j) _ _ _ hj rfl
      have e1 : cpu_left j = b + (cpu_bursts bs.tail).sum := by
        simp only [cpu_left, hst, hb, cpu_bursts_cons_sum]
      have e2 : cpu_left { j with state := JOB_READY, bursts := front_sub j.bursts s.QUANTUM }
          = (b - s.QUANTUM) + (cpu_bursts bs.tail).sum := by
        simp only [cpu_left, hb, front_sub, cpu_bursts_cons_sum,
          sub64_of_le (le_of_lt hgt) hlt]
      simp only [hb, burst_slice, if_pos hgt] at h0
      rw [e1, e2] at hs
      have a1 : (post_preempt s r j).TIME = s.TIME := rfl
      have a2 : (post_preempt s r j).CPU_IDLE_TIME = s.CPU_IDLE_TIME := rfl
      rw [a1, a2, htime]
      unfold U64 at *
      omega
    · intro r2 y hr2
      simp [post_preempt] at hr2
  | @terminate _ e r j b hI hB htop htime hty hc hj hst hb hle =>
    constructor
    · intro _
      have h0 := hA.2 r j hc hj e ((hI.pop_facts htop).2.2.2.2.2) (by rw [hty]; rfl)
      have hs := @cpu_left_total_set s (post_terminate s r j) _ _ _ hj rfl
      have e1 : cpu_left j = b := by
        simp [cpu_left, hst, hb, cpu_bursts]
      have e2 : cpu_left
          { j with state := JOB_TERMINATED, turn_around_time := sub64 s.TIME j.arrival_time }
          = 0 := by
        simp only [cpu_left]
      have hn : ¬ b > s.QUANTUM := by omega
      simp only [hb, burst_slice, if_neg hn] at h0
      rw [e1, e2] at hs
      have a1 : (post_terminate s r j).TIME = s.TIME := rfl
      have a2 : (post_terminate s r j).CPU_IDLE_TIME = s.CPU_IDLE_TIME := rfl
      rw [a1, a2, htime]
      unfold U64 at *
      omega
    · intro r2 y hr2
      simp [post_terminate] at hr2
  | @io_request _ e r j b c cs hI hB htop htime hty hc hj hst hb hle =>
    constructor
    · intro _
      have h0 := hA.2 r j hc hj e ((hI.pop_facts htop).2.2.2.2.2) (by rw [hty]; rfl)
      have hs := @cpu_left_total_set s (post_io_request s r j) _ _ _ hj rfl
      have e1 : cpu_left j = b + (cpu_bursts cs).sum := by
        simp [cpu_left, hst, hb, cpu_bursts]
      have e2 : cpu_left { j with state := JOB_BLOCKED, bursts := j.bursts.tail }
          = (cpu_bursts cs).sum := by
        simp [cpu_left, hb]
      have hn : ¬ b > s.QUANTUM := by omega
      simp only [hb, burst_slice, if_neg hn] at h0
      rw [e1, e2] at hs
      have a1 : (post_io_request s r j).TIME = s.TIME := rfl
      have a2 : (post_io_request s r j).CPU_IDLE_TIME = s.CPU_IDLE_TIME := rfl
      rw [a1, a2, htime]
      unfold U64 at *
      omega
    · intro r2 y hr2
      simp [post_io_request] at hr2
  | @io_receive _ e r j b c cs hI hB htop htime hty hc hj hst hb =>
    refine cpuAcc_frame hA rfl rfl rfl rfl ?_ ?_ ?_
    · have := @cpu_left_total_set s (post_io_receive s r j) _ _ _ hj rfl
      have e1 : cpu_left { j with state := JOB_READY, bursts := j.bursts.tail }
          = cpu_left j := by
        simp [cpu_left, hst, hb]
      omega
    · intro x hx _
      exact (hI.pop_facts htop).2.2.2.2.1 x hx
    · intro r2 y hr2 hy
      rcases getElem_opt_set_cases hy with ⟨rfl, _⟩ | ⟨_, hold⟩
      · have := (hI.state_of_loc hj).2.2.1 hr2
        rw [hst] at this
        cases this
      · exact ⟨y, hold, rfl⟩
  | @dispatch _ r rest j b bs hI hB hidle hq hj hst hb =>
    constructor
    · intro h
      simp [post_dispatch] at h
    · intro r2 y hr2 hy e he hty
      have hr : r2 = r := by
        simp only [post_dispatch, Option.some.injEq] at hr2
        exact hr2.symm
      subst hr
      have hy2 : y = { j with state := JOB_RUNNING } := by
        rcases getElem_opt_set_cases hy with ⟨_, h2⟩ | ⟨h1, _⟩
        · exact h2
        · exact absurd rfl h1
      subst hy2
      have h0 := hA.1 hidle
      have hL : cpu_left_total (post_dispatch s r2 rest j b) = cpu_left_total s := by
        have := @cpu_left_total_set s (post_dispatch s r2 rest j b) _ _ _ hj rfl
        have e1 : cpu_left { j with state := JOB_RUNNING } = cpu_left j := by
          simp only [cpu_left, hst]
        omega
      have hz : cpu_count s.EVENT_Q = 0 := by
        rw [hI.cpu_ev, hidle]; rfl
      have hev : e = dispatch_event s r2 j.bursts b := by
        rcases (push_facts s.EVENT_Q (dispatch_event s r2 j.bursts b)).2.2.2 e he with h1 | h1
        · exact h1
        · have := cpu_count_zero_not_mem hz e h1
          rw [hty] at this
          cases this
      rw [hL, hev]
      have a1 : (post_dispatch s r2 rest j b).CPU_IDLE_TIME = s.CPU_IDLE_TIME := rfl
      have a2 : (post_dispatch s r2 rest j b).QUANTUM = s.QUANTUM := rfl
      rw [a1, a2]
      simp only [hb, burst_slice, dispatch_event]
      by_cases hgt : b > s.QUANTUM
      · simp only [if_pos hgt, add64]
        unfold U64 at *
        omega
      · simp only [if_neg hgt, add64]
        unfold U64 at *
        omega
  | @io_dispatch _ r rest j b c cs hI hB hidle hq hj hst hb =>
    refine cpuAcc_frame hA rfl rfl rfl rfl rfl ?_ ?_
    · intro x hx hty
      rcases (push_facts s.EVENT_Q (event.mk EVT_IO_RECIEVE r (add64 s.TIME b))).2.2.2 x hx
        with h1 | h1
      · rw [h1] at hty
        simp [is_cpu_event] at hty
      · exact h1
    · intro r2 y _ hy
      exact ⟨y, hy, rfl⟩

theorem Chain.stays_cpuAcc {C : Nat} {n : Nat} {s t : State} (h : Chain n s t)
    (hA : CpuAcc C s) : CpuAcc C t := by
  induction h with
  | refl => exact hA
  | cons hs _ ih => exact ih (hs.keeps_cpuAcc hA)

theorem parse_file_idle (lines : List (List Nat)) : ∀ (s : State),
    (jobs_parse_file lines s).CPU_IDLE_TIME = s.CPU_IDLE_TIME := by
  induction lines with
  | nil => intro s; rfl
  | cons l ls ih =>
    intro s
    have h1 : (jobs_parse_step s l).CPU_IDLE_TIME = s.CPU_IDLE_TIME := by
      unfold jobs_parse_step
      split <;> rfl
    have h2 := ih (jobs_parse_step s l)
    simp only [jobs_parse_file, List.foldl_cons] at h2 ⊢
    rw [h2, h1]

theorem sim_init_fresh (q : Nat) (lines : List (List Nat)) : Fresh (sim_init q lines) := by
  obtain ⟨z1, z2⟩ := inv_zero q
  exact fresh_parse_file lines _ z1 z2 (by intro i j h; simp [State.zero] at h)

/-- The CPU time the jobs need in the state `sim_init` builds is the sum
of their CPU bursts. -/
theorem sim_init_cpu_left (q : Nat) (lines : List (List Nat)) :
    cpu_left_total (sim_init q lines)
      = ((sim_init q lines).JOBS.map (fun j => (cpu_bursts j.bursts).sum)).sum := by
  unfold cpu_left_total
  congr 1
  apply List.map_congr_left
  intro j hj
  obtain ⟨i, hi⟩ := List.getElem?_of_mem hj
  have := (sim_init_fresh q lines i j hi).1
  simp only [cpu_left, this]

theorem sim_init_cpuAcc (q : Nat) (lines : List (List Nat)) :
    CpuAcc (cpu_left_total (sim_init q lines)) (sim_init q lines) := by
  obtain ⟨z1, z2⟩ := inv_zero q
  obtain ⟨_, _, _, _, a5, _, a7, _⟩ := inv_parse_file lines _ z1 z2
  have hc : (sim_init q lines).CPU_JOB = none := a5
  have ht : (sim_init q lines).TIME = 0 := a7
  have hi : (sim_init q lines).CPU_IDLE_TIME = 0 :=
    parse_file_idle lines { State.zero with TIME := 0, QUANTUM := q }
  constructor
  · intro _
    rw [ht, hi]
  · intro r j hr
    rw [hc] at hr
    cases hr

theorem cpu_left_total_terminated {s : State} (h : ∀ j ∈ s.JOBS, j.state = JOB_TERMINATED) :
    cpu_left_total s = 0 := by
  unfold cpu_left_total
  apply List.sum_eq_zero
  intro x hx
  obtain ⟨j, hj, rfl⟩ := List.mem_map.1 hx
  simp only [cpu_left, h j hj]

/-! ## Dispatch, preemption and runs of one job -/

/-- What `dispatch` does with a job whose front burst exceeds the quantum. -/
theorem dispatch_long (s : State) (r : Nat) (rest : List Nat) (j : job) (b : Nat)
    (bs : List Nat) (hq : s.READY_Q = r :: rest) (hj : s.JOBS[r]? = some j)
    (hb : j.bursts = b :: bs) (hgt : b > s.QUANTUM) :
    dispatch s = some { s with
      CPU_JOB := some r
      READY_Q := rest
      JOBS := s.JOBS.set r { j with state := JOB_RUNNING }
      OUT := s.OUT ++ [(s.TIME, Msg.dispatched_cpu j.jid b)]
      EVENT_Q := pq_push s.EVENT_Q ⟨EVT_PREEMPT, j.jid, add64 s.TIME s.QUANTUM⟩ } := by
  have hlt := getElem_opt_lt hj
  simp only [dispatch, hq, get_job, if_pos hlt, hj, hb, outf, if_pos hgt]

/-- What `dispatch` does with a job whose front burst fits in the quantum. -/
theorem dispatch_short (s : State) (r : Nat) (rest : List Nat) (j : job) (b : Nat)
    (bs : List Nat) (hq : s.READY_Q = r :: rest) (hj : s.JOBS[r]? = some j)
    (hb : j.bursts = b :: bs) (hle : b ≤ s.QUANTUM) :
    dispatch s = some { s with
      CPU_JOB := some r
      READY_Q := rest
      JOBS := s.JOBS.set r { j with state := JOB_RUNNING }
      OUT := s.OUT ++ [(s.TIME, Msg.dispatched_cpu j.jid b)]
      EVENT_Q := pq_push s.EVENT_Q
        ⟨if bs = [] then EVT_TERMINATE else EVT_IO_REQUEST, j.jid, add64 s.TIME b⟩ } := by
  have hlt := getElem_opt_lt hj
  have hn : ¬ b > s.QUANTUM := by omega
  simp only [dispatch, hq, get_job, if_pos hlt, hj, hb, outf, if_neg hn]
  cases bs with
  | nil => simp
  | cons c cs => simp

/-- What `preempted` does to the Running CPU job when its front burst is
at least the quantum. -/
theorem preempted_front (s : State) (r : Nat) (j : job) (b : Nat) (bs : List Nat)
    (hc : s.CPU_JOB = some r) (hj : s.JOBS[r]? = some j) (hst : j.state = JOB_RUNNING)
    (hb : j.bursts = b :: bs) (hle : s.QUANTUM ≤ b) (hlt : b < U64) :
    preempted s = some { s with
      OUT := s.OUT ++ [(s.TIME, Msg.preempted j.jid)]
      JOBS := s.JOBS.set r { j with state := JOB_READY, bursts := (b - s.QUANTUM) :: bs }
      READY_Q := s.READY_Q ++ [j.jid]
      CPU_JOB := none } := by
  simp only [preempted, hc, hj, hst, outf, hb, front_sub, sub64_of_le hle hlt]
  simp

/-- One call of `sim_advance` with empty queues and one pending event that
is not overdue: the clock moves to the due time, then the rest of the call
runs. -/
theorem sim_advance_one_event (s : State) (e : event) (n : Nat) (h1 : s.READY_Q = [])
    (h2 : s.IO_Q = []) (hQ : s.EVENT_Q = [e]) (ht : e.arrival_time = s.TIME + n)
    (hlt : e.arrival_time < U64) :
    ∃ idle, sim_advance s =
      match sim_drain 1 { s with TIME := e.arrival_time, CPU_IDLE_TIME := idle } with
      | none => none
      | some s2 =>
        match (if is_cpu_idle s2 then dispatch s2 else some s2) with
        | none => none
        | some s3 =>
          match (if is_io_idle s3 then io_dispatch s3 else some s3) with
          | none => none
          | some s4 =>
            match sim_inc_time s4 with
            | none => none
            | some s5 => some (true, s5) := by
  have htop : pq_top s.EVENT_Q = some e := by rw [hQ]; rfl
  obtain ⟨idle, hs⟩ := sim_skip_empty n s e h1 h2 htop ht hlt
  refine ⟨idle, ?_⟩
  have hb : skip_bound s = n := by
    simp only [skip_bound, htop]
    omega
  have hne : s.EVENT_Q.isEmpty = false := by rw [hQ]; rfl
  have hlen : s.EVENT_Q.length = 1 := by rw [hQ]; rfl
  simp only [sim_advance, hne, hb, hs, hlen, ← ht]
  rfl

/-- The run of a single job with one CPU burst of `2 * q + 1` ticks. -/
theorem run_two_quanta_and_one (q a : Nat) (hq : 1 ≤ q) (ha : 1 ≤ a)
    (hfit : a + 2 * q + 1 < U64) :
    ∃ sf, sim_loop 5 (sim_init q [[a, 1, 2 * q + 1]]) = some sf ∧
      sf.OUT = [(0, Msg.sim_started q), (a, Msg.arrives 0),
        (a, Msg.dispatched_cpu 0 (2 * q + 1)), (a + q, Msg.preempted 0),
        (a + q, Msg.dispatched_cpu 0 (q + 1)), (a + 2 * q, Msg.preempted 0),
        (a + 2 * q, Msg.dispatched_cpu 0 1), (a + 2 * q + 1, Msg.terminated 0)] := by
  have hU : U64 = 18446744073709551616 := rfl
  rw [sim_init_single q a (2 * q + 1) ha (by omega) (by omega)]
  have hadd1 : add64 a q = a + q := by unfold add64; omega
  have hadd2 : add64 (a + q) q = a + 2 * q := by unfold add64; omega
  have hadd3 : add64 (a + 2 * q) 1 = a + 2 * q + 1 := by unfold add64; omega
  have hinc1 : inc64 a = a + 1 := by unfold inc64; omega
  have hinc2 : inc64 (a + q) = a + q + 1 := by unfold inc64; omega
  have hinc3 : inc64 (a + 2 * q) = a + 2 * q + 1 := by unfold inc64; omega
  have hsub1 : sub64 (2 * q + 1) q = q + 1 := by unfold sub64; omega
  have hsub2 : sub64 (q + 1) q = 1 := by unfold sub64; omega
  have hgt1 : 2 * q + 1 > q := by omega
  have hgt2 : q + 1 > q := by omega
  have hle3 : ¬ 1 > q := by omega
  -- first call: Arrive and the first dispatch
  obtain ⟨idle1, h1⟩ := sim_advance_one_event
    (State.mk [] [] [event.mk EVT_ARRIVE 0 a] [job.mk JOB_NEW 0 a 0 0 0 [2 * q + 1]] 0 q 0
      none none [(0, Msg.sim_started q)]) (event.mk EVT_ARRIVE 0 a) a rfl rfl rfl (by simp)
    (by simp only []; omega)
  have e1 : sim_advance
      (State.mk [] [] [event.mk EVT_ARRIVE 0 a] [job.mk JOB_NEW 0 a 0 0 0 [2 * q + 1]] 0 q 0
        none none [(0, Msg.sim_started q)])
      = some (true, State.mk [] [] [event.mk EVT_PREEMPT 0 (a + q)]
          [job.mk JOB_RUNNING 0 a 0 0 0 [2 * q + 1]] (a + 1) q idle1 (some 0) none
          [(0, Msg.sim_started q), (a, Msg.arrives 0),
            (a, Msg.dispatched_cpu 0 (2 * q + 1))]) := by
    rw [h1]
    simp [sim_drain, pq_top, apply_event, get_job, arrived, outf, pq_pop_singleton, is_cpu_idle,
      dispatch, hgt1, pq_push_nil, is_io_idle, io_dispatch, sim_inc_time, sim_tally, tally_wait,
      tally_io, hadd1, hinc1]
  -- second call: the first Preempt and the second dispatch
  obtain ⟨idle2, h2⟩ := sim_advance_one_event
    (State.mk [] [] [event.mk EVT_PREEMPT 0 (a + q)]
      [job.mk JOB_RUNNING 0 a 0 0 0 [2 * q + 1]] (a + 1) q idle1 (some 0) none
      [(0, Msg.sim_started q), (a, Msg.arrives 0), (a, Msg.dispatched_cpu 0 (2 * q + 1))])
    (event.mk EVT_PREEMPT 0 (a + q)) (q - 1) rfl rfl rfl (by simp only []; omega)
    (by simp only []; omega)
  have e2 : sim_advance
      (State.mk [] [] [event.mk EVT_PREEMPT 0 (a + q)]
        [job.mk JOB_RUNNING 0 a 0 0 0 [2 * q + 1]] (a + 1) q idle1 (some 0) none
        [(0, Msg.sim_started q), (a, Msg.arrives 0), (a, Msg.dispatched_cpu 0 (2 * q + 1))])
      = some (true, State.mk [] [] [event.mk EVT_PREEMPT 0 (a + 2 * q)]
          [job.mk JOB_RUNNING 0 a 0 0 0 [q + 1]] (a + q + 1) q idle2 (some 0) none
          [(0, Msg.sim_started q), (a, Msg.arrives 0), (a, Msg.dispatched_cpu 0 (2 * q + 1)),
            (a + q, Msg.preempted 0), (a + q, Msg.dispatched_cpu 0 (q + 1))]) := by
    rw [h2]
    simp [sim_drain, pq_top, apply_event, get_job, preempted, front_sub, outf, pq_pop_singleton,
      is_cpu_idle, dispatch, hgt2, pq_push_nil, is_io_idle, io_dispatch, sim_inc_time, sim_tally,
      tally_wait, tally_io, hadd2, hinc2, hsub1]
  -- third call: the second Preempt and the third dispatch
  obtain ⟨idle3, h3⟩ := sim_advance_one_event
    (State.mk [] [] [event.mk EVT_PREEMPT 0 (a + 2 * q)]
      [job.mk JOB_RUNNING 0 a 0 0 0 [q + 1]] (a + q + 1) q idle2 (some 0) none
      [(0, Msg.sim_started q), (a, Msg.arrives 0), (a, Msg.dispatched_cpu 0 (2 * q + 1)),
        (a + q, Msg.preempted 0), (a + q, Msg.dispatched_cpu 0 (q + 1))])
    (event.mk EVT_PREEMPT 0 (a + 2 * q)) (q - 1) rfl rfl rfl (by simp only []; omega)
    (by simp only []; omega)
  have e3 : sim_advance
      (State.mk [] [] [event.mk EVT_PREEMPT 0 (a + 2 * q)]
        [job.mk JOB_RUNNING 0 a 0 0 0 [q + 1]] (a + q + 1) q idle2 (some 0) none
        [(0, Msg.sim_started q), (a, Msg.arrives 0), (a, Msg.dispatched_cpu 0 (2 * q + 1)),
          (a + q, Msg.preempted 0), (a + q, Msg.dispatched_cpu 0 (q + 1))])
      = some (true, State.mk [] [] [event.mk EVT_TERMINATE 0 (a + 2 * q + 1)]
          [job.mk JOB_RUNNING 0 a 0 0 0 [1]] (a + 2 * q + 1) q idle3 (some 0) none
          [(0, Msg.sim_started q), (a, Msg.arrives 0), (a, Msg.dispatched_cpu 0 (2 * q + 1)),
            (a + q, Msg.preempted 0), (a + q, Msg.dispatched_cpu 0 (q + 1)),
            (a + 2 * q, Msg.preempted 0), (a + 2 * q, Msg.dispatched_cpu 0 1)]) := by
    rw [h3]
    simp [sim_drain, pq_top, apply_event, get_job, preempted, front_sub, outf, pq_pop_singleton,
      is_cpu_idle, dispatch, hle3, pq_push_nil, is_io_idle, io_dispatch, sim_inc_time, sim_tally,
      tally_wait, tally_io, hadd3, hinc3, hsub2]
  -- fourth call: Terminate
  obtain ⟨idle4, h4⟩ := sim_advance_one_event
    (State.mk [] [] [event.mk EVT_TERMINATE 0 (a + 2 * q + 1)]
      [job.mk JOB_RUNNING 0 a 0 0 0 [1]] (a + 2 * q + 1) q idle3 (some 0) none
      [(0, Msg.sim_started q), (a, Msg.arrives 0), (a, Msg.dispatched_cpu 0 (2 * q + 1)),
        (a + q, Msg.preempted 0), (a + q, Msg.dispatched_cpu 0 (q + 1)),
        (a + 2 * q, Msg.preempted 0), (a + 2 * q, Msg.dispatched_cpu 0 1)])
    (event.mk EVT_TERMINATE 0 (a + 2 * q + 1)) 0 rfl rfl rfl (by simp)
    (by simp only []; omega)
  have e4 : ∃ s4, sim_advance
      (State.mk [] [] [event.mk EVT_TERMINATE 0 (a + 2 * q + 1)]
        [job.mk JOB_RUNNING 0 a 0 0 0 [1]] (a + 2 * q + 1) q idle3 (some 0) none
        [(0, Msg.sim_started q), (a, Msg.arrives 0), (a, Msg.dispatched_cpu 0 (2 * q + 1)),
          (a + q, Msg.preempted 0), (a + q, Msg.dispatched_cpu 0 (q + 1)),
          (a + 2 * q, Msg.preempted 0), (a + 2 * q, Msg.dispatched_cpu 0 1)])
      = some (true, s4) ∧ s4.EVENT_Q = [] ∧
        s4.OUT = [(0, Msg.sim_started q), (a, Msg.arrives 0),
          (a, Msg.dispatched_cpu 0 (2 * q + 1)), (a + q, Msg.preempted 0),
          (a + q, Msg.dispatched_cpu 0 (q + 1)), (a + 2 * q, Msg.preempted 0),
          (a + 2 * q, Msg.dispatched_cpu 0 1), (a + 2 * q + 1, Msg.terminated 0)] := by
    rw [h4]
    simp [sim_drain, pq_top, apply_event, terminated, outf, pq_pop_singleton, is_cpu_idle,
      dispatch, is_io_idle, io_dispatch, sim_inc_time, sim_tally, tally_wait, tally_io]
  obtain ⟨s4, e4a, e4b, e4c⟩ := e4
  refine ⟨s4, ?_, e4c⟩
  rw [sim_loop, e1]
  simp only []
  rw [sim_loop, e2]
  simp only []
  rw [sim_loop, e3]
  simp only []
  rw [sim_loop, e4a]
  simp only []
  rw [sim_loop, sim_advance_empty e4b]

/-! ## The Ready queue is first come, first served -/

theorem arrivals_append (out : List (Nat × Msg)) (t : Nat) (m : Msg) :
    arrivals (out ++ [(t, m)]) = arrivals out ++
      (match m with
      | Msg.arrives i => [i]
      | _ => []) := by
  unfold arrivals
  rw [List.filterMap_append]
  cases m <;> rfl

theorem first_dispatches_append (out : List (Nat × Msg)) (t : Nat) (m : Msg) :
    first_dispatches (out ++ [(t, m)]) =
      match m with
      | Msg.dispatched_cpu i _ =>
        if i ∈ first_dispatches out then first_dispatches out else first_dispatches out ++ [i]
      | _ => first_dispatches out := by
  unfold first_dispatches
  rw [List.foldl_append]
  cases m <;> rfl

/-- A step that sets one job of the table keeps `Fifo` when the order
equation holds after it. -/
theorem fifo_set {s t : State} (hF : Fifo s) {r : Nat} {j x : job}
    (hj : s.JOBS[r]? = some j) (hJ : t.JOBS = s.JOBS.set r x)
    (hsub : ∀ i ∈ first_dispatches s.OUT, i ∈ first_dispatches t.OUT)
    (hsup : ∀ i ∈ first_dispatches t.OUT, i ∈ first_dispatches s.OUT ∨ i = r)
    (hx1 : x.state = JOB_RUNNING ∨ x.state = JOB_BLOCKED → r ∈ first_dispatches t.OUT)
    (hx2 : x.state ≠ JOB_NEW)
    (hord : arrivals t.OUT = first_dispatches t.OUT ++ never_dispatched t) : Fifo t := by
  have hr : t.JOBS[r]? = some x := by
    rw [hJ, List.getElem?_set, if_pos rfl, if_pos (getElem_opt_lt hj)]
  refine ⟨hord, ?_, ?_⟩
  · intro i y hy hst
    rw [hJ] at hy
    rcases getElem_opt_set_cases hy with ⟨rfl, rfl⟩ | ⟨_, hold⟩
    · exact hx1 hst
    · exact hsub i (hF.seen i y hold hst)
  · intro i hi
    by_cases hir : i = r
    · subst hir
      exact ⟨x, hr, hx2⟩
    · rcases hsup i hi with h | h
      · obtain ⟨y, hy, hne⟩ := hF.known i h
        refine ⟨y, ?_, hne⟩
        rw [hJ, List.getElem?_set, if_neg (fun hh => hir hh.symm)]
        exact hy
      · exact absurd h hir

theorem never_dispatched_append {s t : State} {r : Nat}
    (hQ : t.READY_Q = s.READY_Q ++ [r]) (hO : first_dispatches t.OUT = first_dispatches s.OUT) :
    never_dispatched t = never_dispatched s
      ++ (if r ∈ first_dispatches s.OUT then [] else [r]) := by
  unfold never_dispatched
  rw [hQ, hO, List.filter_append]
  congr 1
  by_cases h : r ∈ first_dispatches s.OUT
  · simp [h]
  · simp [h]

/-- A step that leaves the states of the jobs, the Ready queue and the
arrivals and dispatches of the trace as they are keeps `Fifo`. -/
theorem fifo_frame {s t : State} (hF : Fifo s)
    (hO1 : arrivals t.OUT = arrivals s.OUT)
    (hO2 : first_dispatches t.OUT = first_dispatches s.OUT)
    (hQ : t.READY_Q = s.READY_Q)
    (hback : ∀ (i : Nat) (y : job), t.JOBS[i]? = some y →
      ∃ x, s.JOBS[i]? = some x ∧ y.state = x.state)
    (hforw : ∀ (i : Nat) (x : job), s.JOBS[i]? = some x →
      ∃ y, t.JOBS[i]? = some y ∧ y.state = x.state) : Fifo t := by
  refine ⟨?_, ?_, ?_⟩
  · unfold never_dispatched
    rw [hO1, hO2, hQ]
    exact hF.order
  · intro i y hy hst
    obtain ⟨x, hx, e⟩ := hback i y hy
    rw [hO2]
    rw [e] at hst
    exact hF.seen i x hx hst
  · intro i hi
    rw [hO2] at hi
    obtain ⟨x, hx, hne⟩ := hF.known i hi
    obtain ⟨y, hy, e⟩ := hforw i x hx
    exact ⟨y, hy, by rw [e]; exact hne⟩

/-- Every elementary step keeps `Fifo`. -/
theorem Step.keeps_fifo {n : Nat} {s t : State} (h : Step n s t) (hF : Fifo s) : Fifo t := by
  cases h with
  | tick hI hB heq =>
    obtain ⟨t2, h1, _, hQ, _, _, _, _, _, hO, _, _, _, hjobs⟩ := inv_sim_inc_time hI
    rw [heq] at h1
    cases h1
    refine fifo_frame hF (by rw [hO]) (by rw [hO]) hQ ?_ ?_
    · intro i y hy
      rw [hjobs i] at hy
      cases hx : s.JOBS[i]? with
      | none => rw [hx] at hy; cases hy
      | some x =>
        rw [hx] at hy
        simp only [Option.map_some', Option.some.injEq] at hy
        subst hy
        exact ⟨x, rfl, rfl⟩
    · intro i x hx
      exact ⟨tallied s i x, by rw [hjobs i, hx]; rfl, rfl⟩
  | @arrive _ e j hI hB htop htime hty hj hst =>
    have hO2 : first_dispatches (post_arrive s e.jid j).OUT = first_dispatches s.OUT := by
      simp only [post_arrive, first_dispatches_append]
    have hnot : e.jid ∉ first_dispatches s.OUT := by
      intro hin
      obtain ⟨y, hy, hne⟩ := hF.known _ hin
      rw [hj] at hy
      cases hy
      exact hne hst
    refine fifo_set hF hj rfl (by rw [hO2]; exact fun _ h => h)
      (by rw [hO2]; exact fun _ h => Or.inl h) ?_ (by simp) ?_
    · intro h
      rcases h with h | h <;> cases h
    · rw [never_dispatched_append (r := e.jid) rfl hO2, if_neg hnot, hO2]
      simp only [post_arrive, arrivals_append]
      rw [hF.order, List.append_assoc]
  | @preempt _ e r j b bs hI hB htop htime hty hc hj hst hb hgt =>
    have hO2 : first_dispatches (post_preempt s r j).OUT = first_dispatches s.OUT := by
      simp only [post_preempt, first_dispatches_append]
    have hin : r ∈ first_dispatches s.OUT := hF.seen r j hj (Or.inl hst)
    refine fifo_set hF hj rfl (by rw [hO2]; exact fun _ h => h)
      (by rw [hO2]; exact fun _ h => Or.inl h) ?_ (by simp) ?_
    · intro _
      rw [hO2]; exact hin
    · rw [never_dispatched_append (r := r) rfl hO2, if_pos hin, hO2]
      simp only [post_preempt, arrivals_append]
      rw [hF.order, List.append_assoc]
  | @terminate _ e r j b hI hB htop htime hty hc hj hst hb hle =>
    have hO2 : first_dispatches (post_terminate s r j).OUT = first_dispatches s.OUT := by
      simp only [post_terminate, first_dispatches_append]
    have hin : r ∈ first_dispatches s.OUT := hF.seen r j hj (Or.inl hst)
    refine fifo_set hF hj rfl (by rw [hO2]; exact fun _ h => h)
      (by rw [hO2]; exact fun _ h => Or.inl h) ?_ (by simp) ?_
    · intro _
      rw [hO2]; exact hin
    · unfold never_dispatched
      rw [hO2]
      simp only [post_terminate, arrivals_append, List.append_nil]
      exact hF.order
  | @io_request _ e r j b c cs hI hB htop htime hty hc hj hst hb hle =>
    have hO2 : first_dispatches (post_io_request s r j).OUT = first_dispatches s.OUT := by
      simp only [post_io_request, first_dispatches_append]
    have hin : r ∈ first_dispatches s.OUT := hF.seen r j hj (Or.inl hst)
    refine fifo_set hF hj rfl (by rw [hO2]; exact fun _ h => h)
      (by rw [hO2]; exact fun _ h => Or.inl h) ?_ (by simp) ?_
    · intro _
      rw [hO2]; exact hin
    · unfold never_dispatched
      rw [hO2]
      simp only [post_io_request, arrivals_append, List.append_nil]
      exact hF.order
  | @io_receive _ e r j b c cs hI hB htop htime hty hc hj hst hb =>
    have hO2 : first_dispatches (post_io_receive s r j).OUT = first_dispatches s.OUT := by
      simp only [post_io_receive, first_dispatches_append]
    have hin : r ∈ first_dispatches s.OUT := hF.seen r j hj (Or.inr hst)
    refine fifo_set hF hj rfl (by rw [hO2]; exact fun _ h => h)
      (by rw [hO2]; exact fun _ h => Or.inl h) ?_ (by simp) ?_
    · intro _
      rw [hO2]; exact hin
    · rw [never_dispatched_append (r := r) rfl hO2, if_pos hin, hO2]
      simp only [post_io_receive, arrivals_append]
      rw [hF.order, List.append_assoc]
  | @dispatch _ r rest j b bs hI hB hidle hq hj hst hb =>
    have hO2 : first_dispatches (post_dispatch s r rest j b).OUT =
        if r ∈ first_dispatches s.OUT then first_dispatches s.OUT
        else first_dispatches s.OUT ++ [r] := by
      simp only [post_dispatch, first_dispatches_append]
    have hO1 : arrivals (post_dispatch s r rest j b).OUT = arrivals s.OUT := by
      simp only [post_dispatch, arrivals_append, List.append_nil]
    have hnr : r ∉ rest := by
      have h1 := hI.occ_eq r j hj
      rw [hst] at h1
      simp only [reduceCtorEq, if_false] at h1
      unfold occ at h1
      rw [hq, List.count_cons_self] at h1
      intro hh
      have := count_pos_of_mem hh
      omega
    have hord := hF.order
    unfold never_dispatched at hord
    rw [hq] at hord
    by_cases hin : r ∈ first_dispatches s.OUT
    · rw [if_pos hin] at hO2
      refine fifo_set hF hj rfl (by rw [hO2]; exact fun _ h => h)
        (by rw [hO2]; exact fun _ h => Or.inl h) ?_ (by simp) ?_
      · intro _
        rw [hO2]; exact hin
      · unfold never_dispatched
        rw [hO1, hO2, hord]
        simp only [post_dispatch]
        rw [List.filter_cons_of_neg (by simpa using hin)]
    · rw [if_neg hin] at hO2
      refine fifo_set hF hj rfl ?_ ?_ ?_ (by simp) ?_
      · rw [hO2]
        intro i hi
        exact List.mem_append_left _ hi
      · rw [hO2]
        intro i hi
        rcases List.mem_append.1 hi with h | h
        · exact Or.inl h
        · exact Or.inr (by simpa using h)
      · intro _
        rw [hO2]
        exact List.mem_append_right _ (List.mem_singleton_self r)
      · unfold never_dispatched
        rw [hO1, hO2, hord]
        simp only [post_dispatch]
        rw [List.filter_cons_of_pos (by simpa using hin), List.append_assoc]
        congr 1
        simp only [List.singleton_append, List.cons.injEq, true_and]
        apply List.filter_congr
        intro x hx
        have hxr : x ≠ r := fun hh => hnr (hh ▸ hx)
        simp [hxr]
  | @io_dispatch _ r rest j b c cs hI hB hidle hq hj hst hb =>
    refine fifo_frame hF ?_ ?_ rfl ?_ ?_
    · simp only [post_io_dispatch, arrivals_append, List.append_nil]
    · simp only [post_io_dispatch, first_dispatches_append]
    · intro i y hy
      exact ⟨y, hy, rfl⟩
    · intro i x hx
      exact ⟨x, hx, rfl⟩

theorem Chain.stays_fifo {n : Nat} {s t : State} (h : Chain n s t) (hF : Fifo s) : Fifo t := by
  induction h with
  | refl => exact hF
  | cons hs _ ih => exact ih (hs.keeps_fifo hF)

theorem parse_file_quiet (lines : List (List Nat)) : ∀ (s : State),
    arrivals (jobs_parse_file lines s).OUT = arrivals s.OUT ∧
      first_dispatches (jobs_parse_file lines s).OUT = first_dispatches s.OUT := by
  induction lines with
  | nil => intro s; exact ⟨rfl, rfl⟩
  | cons l ls ih =>
    intro s
    have h1 : arrivals (jobs_parse_step s l).OUT = arrivals s.OUT ∧
        first_dispatches (jobs_parse_step s l).OUT = first_dispatches s.OUT := by
      unfold jobs_parse_step
      split
      · exact ⟨rfl, rfl⟩
      · simp only [outf, arrivals_append, first_dispatches_append, List.append_nil, and_self]
    obtain ⟨h2, h3⟩ := ih (jobs_parse_step s l)
    simp only [jobs_parse_file, List.foldl_cons] at h2 h3 ⊢
    exact ⟨h2.trans h1.1, h3.trans h1.2⟩

theorem sim_init_fifo (q : Nat) (lines : List (List Nat)) : Fifo (sim_init q lines) := by
  obtain ⟨z1, z2⟩ := inv_zero q
  obtain ⟨_, _, a3, _⟩ := inv_parse_file lines _ z1 z2
  obtain ⟨q1, q2⟩ := parse_file_quiet lines { State.zero with TIME := 0, QUANTUM := q }
  have hr : (sim_init q lines).READY_Q = [] := a3
  have h1 : arrivals (sim_init q lines).OUT = [] := by
    simp only [sim_init, outf, arrivals_append, List.append_nil]
    rw [q1]; rfl
  have h2 : first_dispatches (sim_init q lines).OUT = [] := by
    simp only [sim_init, outf, first_dispatches_append]
    rw [q2]; rfl
  refine ⟨?_, ?_, ?_⟩
  · unfold never_dispatched
    rw [h1, h2, hr]
    rfl
  · intro i j hj hst
    have := (sim_init_fresh q lines i j hj).1
    rw [this] at hst
    rcases hst with h | h <;> cases h
  · intro i hi
    rw [h2] at hi
    cases hi

/-! ## A quantum of 0 -/

/-- No elementary step changes the quantum. -/
theorem Step.quantum_eq {n : Nat} {s t : State} (h : Step n s t) : t.QUANTUM = s.QUANTUM := by
  cases h with
  | tick hI hB heq =>
    obtain ⟨t2, h1, _, _, _, _, _, _, hqu, _⟩ := inv_sim_inc_time hI
    rw [heq] at h1
    cases h1
    exact hqu
  | arrive => rfl
  | preempt => rfl
  | terminate => rfl
  | io_request => rfl
  | io_receive => rfl
  | dispatch => rfl
  | io_dispatch => rfl

/-- With a quantum of 0 a job whose front burst is positive keeps its
bursts and is never Blocked or Terminated. -/
theorem Step.keeps_unfinished {n : Nat} {s t : State} (h : Step n s t) (hq : s.QUANTUM = 0)
    {x b : Nat} {bs : List Nat} (hb : 1 ≤ b) (hU : Unfinished x (b :: bs) s) :
    Unfinished x (b :: bs) t := by
  obtain ⟨j, hj, hbj, hst⟩ := hU
  cases h with
  | tick hI hB heq =>
    obtain ⟨t2, h1, _, _, _, _, _, _, _, _, _, _, _, hjobs⟩ := inv_sim_inc_time hI
    rw [heq] at h1
    cases h1
    exact ⟨tallied s x j, by rw [hjobs x, hj]; rfl, hbj, hst⟩
  | @arrive _ e j0 hI hB htop hdue hty hj0 hst0 =>
    rcases set_job_cases { j0 with state := JOB_READY } hj0 hj with ⟨_, rfl, h3⟩ | ⟨_, h3⟩
    · exact ⟨_, h3, hbj, Or.inr (Or.inl rfl)⟩
    · exact ⟨j, h3, hbj, hst⟩
  | @preempt _ e r j0 b0 bs0 hI hB htop hdue hty hcj hj0 hst0 hb0 hgt =>
    rcases set_job_cases { j0 with state := JOB_READY, bursts := front_sub j0.bursts s.QUANTUM }
      hj0 hj with ⟨_, rfl, h3⟩ | ⟨_, h3⟩
    · refine ⟨_, h3, ?_, Or.inr (Or.inl rfl)⟩
      have hlt : b < U64 := hB.burst_lt _ _ hj b (by rw [hbj]; exact List.mem_cons_self _ _)
      simp only [hbj, front_sub, hq]
      rw [sub64_of_le (Nat.zero_le _) hlt, Nat.sub_zero]
    · exact ⟨j, h3, hbj, hst⟩
  | @terminate _ e r j0 b0 hI hB htop hdue hty hcj hj0 hst0 hb0 hle =>
    rcases set_job_cases
      { j0 with state := JOB_TERMINATED, turn_around_time := sub64 s.TIME j0.arrival_time }
      hj0 hj with ⟨_, rfl, h3⟩ | ⟨_, h3⟩
    · rw [hbj] at hb0
      simp only [List.cons.injEq] at hb0
      omega
    · exact ⟨j, h3, hbj, hst⟩
  | @io_request _ e r j0 b0 c cs hI hB htop hdue hty hcj hj0 hst0 hb0 hle =>
    rcases set_job_cases { j0 with state := JOB_BLOCKED, bursts := j0.bursts.tail }
      hj0 hj with ⟨_, rfl, h3⟩ | ⟨_, h3⟩
    · rw [hbj] at hb0
      simp only [List.cons.injEq] at hb0
      omega
    · exact ⟨j, h3, hbj, hst⟩
  | @io_receive _ e r j0 b0 c cs hI hB htop hdue hty hcj hj0 hst0 hb0 =>
    rcases set_job_cases { j0 with state := JOB_READY, bursts := j0.bursts.tail }
      hj0 hj with ⟨_, rfl, h3⟩ | ⟨_, h3⟩
    · rw [hst0] at hst
      rcases hst with h | h | h <;> cases h
    · exact ⟨j, h3, hbj, hst⟩
  | @dispatch _ r rest j0 b0 bs0 hI hB hidle hq0 hj0 hst0 hb0 =>
    rcases set_job_cases { j0 with state := JOB_RUNNING } hj0 hj with ⟨_, rfl, h3⟩ | ⟨_, h3⟩
    · exact ⟨_, h3, hbj, Or.inr (Or.inr rfl)⟩
    · exact ⟨j, h3, hbj, hst⟩
  | @io_dispatch _ r rest j0 b0 c cs hI hB hidle hq0 hj0 hst0 hb0 =>
    exact ⟨j, hj, hbj, hst⟩

theorem Chain.stays_unfinished {n : Nat} {s t : State} (h : Chain n s t) (hq : s.QUANTUM = 0)
    {x b : Nat} {bs : List Nat} (hb : 1 ≤ b) (hU : Unfinished x (b :: bs) s) :
    Unfinished x (b :: bs) t := by
  induction h with
  | refl => exact hU
  | cons hs _ ih => exact ih (by rw [hs.quantum_eq]; exact hq) (hs.keeps_unfinished hq hb hU)

/-- A call of `sim_advance` with a job on the CPU, empty queues and one
pending event that is overdue: the clock moves on by one tick and nothing
else changes. -/
theorem sim_advance_overdue (s : State) (e : event) (r : Nat) (h1 : s.READY_Q = [])
    (h2 : s.IO_Q = []) (hQ : s.EVENT_Q = [e]) (hc : s.CPU_JOB = some r)
    (hdev : s.IO_JOB = none) (hlt : e.arrival_time < s.TIME) :
    sim_advance s = some (true, { s with TIME := inc64 s.TIME }) := by
  have htop : pq_top s.EVENT_Q = some e := by rw [hQ]; rfl
  have hb : skip_bound s = 0 := by
    simp only [skip_bound, htop]
    omega
  have hne : s.EVENT_Q.isEmpty = false := by rw [hQ]; rfl
  have hlen : s.EVENT_Q.length = 1 := by rw [hQ]; rfl
  have hn1 : ¬ s.TIME < e.arrival_time := by omega
  have hn2 : ¬ s.TIME = e.arrival_time := by omega
  have hci : is_cpu_idle s = false := by simp [is_cpu_idle, hc]
  have hii : is_io_idle s = true := by simp [is_io_idle, hdev]
  have hd : io_dispatch s = some s := by simp [io_dispatch, h2]
  simp only [sim_advance, hne, hb, sim_skip, htop, if_neg hn1, hlen, sim_drain, if_neg hn2, hci]
  simp only [Bool.false_eq_true, if_false]
  rw [if_pos hii, hd]
  simp only [sim_inc_time_empty s h1 h2, hci, Bool.false_eq_true, if_false]

/-- As long as the clock does not wrap, the calls of `sim_advance` with an
overdue event only move the clock. -/
theorem advance_n_overdue : ∀ (k : Nat) (s : State) (e : event) (r : Nat), s.READY_Q = [] →
    s.IO_Q = [] → s.EVENT_Q = [e] → s.CPU_JOB = some r → s.IO_JOB = none →
    e.arrival_time < s.TIME → s.TIME + k < U64 →
    advance_n k s = some { s with TIME := s.TIME + k } := by
  intro k
  induction k with
  | zero => intro s e r _ _ _ _ _ _ _; rfl
  | succ k ih =>
    intro s e r h1 h2 hQ hc hdev hlt hfit
    have hinc : inc64 s.TIME = s.TIME + 1 := by
      unfold inc64; unfold U64 at hfit; omega
    unfold advance_n
    rw [sim_advance_overdue s e r h1 h2 hQ hc hdev hlt, hinc]
    simp only []
    rw [ih { s with TIME := s.TIME + 1 } e r h1 h2 hQ hc hdev (by simp only []; omega)
      (by simp only []; omega)]
    simp only [Option.some.injEq, State.mk.injEq, true_and, and_true]
    omega

theorem advance_n_add (a b : Nat) : ∀ (s : State),
    advance_n (a + b) s = (advance_n a s).bind (advance_n b) := by
  induction a with
  | zero => intro s; simp [advance_n]
  | succ a ih =>
    intro s
    rw [Nat.succ_add]
    simp only [advance_n]
    cases sim_advance s with
    | none => rfl
    | some p => exact ih p.2

/-- The loop of `main` ends only in a state with an empty event queue. -/
theorem sim_loop_final : ∀ (n : Nat) (s t : State), sim_loop n s = some t → t.EVENT_Q = [] := by
  intro n
  induction n with
  | zero => intro s t h; simp [sim_loop] at h
  | succ n ih =>
    intro s t h
    unfold sim_loop at h
    cases hadv : sim_advance s with
    | none => rw [hadv] at h; cases h
    | some p =>
      obtain ⟨b, s1⟩ := p
      rw [hadv] at h
      cases b with
      | false =>
        simp only [Option.some.injEq] at h
        subst h
        obtain ⟨h1, h2⟩ := sim_advance_false hadv
        rw [h2]; exact h1
      | true => exact ih s1 t h

theorem advance_n_trans {a b : Nat} {s t u : State} (h1 : advance_n a s = some t)
    (h2 : advance_n b t = some u) : advance_n (a + b) s = some u := by
  rw [advance_n_add, h1]
  exact h2

/-- The job `1 1 1` with quantum 0: the first call of `sim_advance`. -/
theorem zero_quantum_first_call :
    advance_n 1 (sim_init 0 [[1, 1, 1]]) = some
      (State.mk [] [] [event.mk EVT_PREEMPT 0 1] [job.mk JOB_RUNNING 0 1 0 0 0 [1]] 2 0 1
        (some 0) none
        [(0, Msg.sim_started 0), (1, Msg.arrives 0), (1, Msg.dispatched_cpu 0 1)]) := rfl

/-- The job `1 1 1` with quantum 0: the calls that find the Preempt event
overdue, as long as the clock does not wrap. -/
theorem zero_quantum_overdue_calls (k : Nat) (hk : k ≤ 18446744073709551613) :
    advance_n k (State.mk [] [] [event.mk EVT_PREEMPT 0 1]
        [job.mk JOB_RUNNING 0 1 0 0 0 [1]] 2 0 1 (some 0) none
        [(0, Msg.sim_started 0), (1, Msg.arrives 0), (1, Msg.dispatched_cpu 0 1)])
      = some (State.mk [] [] [event.mk EVT_PREEMPT 0 1]
        [job.mk JOB_RUNNING 0 1 0 0 0 [1]] (2 + k) 0 1 (some 0) none
        [(0, Msg.sim_started 0), (1, Msg.arrives 0), (1, Msg.dispatched_cpu 0 1)]) :=
  advance_n_overdue k _ (event.mk EVT_PREEMPT 0 1) 0 rfl rfl rfl rfl rfl
    (by decide) (by simp only [U64]; omega)

/-- The job `1 1 1` with quantum 0: the call that wraps the clock. -/
theorem zero_quantum_wrap_call :
    advance_n 1 (State.mk [] [] [event.mk EVT_PREEMPT 0 1]
        [job.mk JOB_RUNNING 0 1 0 0 0 [1]] (2 + 18446744073709551613) 0 1 (some 0) none
        [(0, Msg.sim_started 0), (1, Msg.arrives 0), (1, Msg.dispatched_cpu 0 1)])
      = some (State.mk [] [] [event.mk EVT_PREEMPT 0 1]
        [job.mk JOB_RUNNING 0 1 0 0 0 [1]] 0 0 1 (some 0) none
        [(0, Msg.sim_started 0), (1, Msg.arrives 0), (1, Msg.dispatched_cpu 0 1)]) := by
  have e3 : sim_advance (State.mk [] [] [event.mk EVT_PREEMPT 0 1]
      [job.mk JOB_RUNNING 0 1 0 0 0 [1]] (2 + 18446744073709551613) 0 1 (some 0) none
      [(0, Msg.sim_started 0), (1, Msg.arrives 0), (1, Msg.dispatched_cpu 0 1)])
      = some (true, State.mk [] [] [event.mk EVT_PREEMPT 0 1]
        [job.mk JOB_RUNNING 0 1 0 0 0 [1]] 0 0 1 (some 0) none
        [(0, Msg.sim_started 0), (1, Msg.arrives 0), (1, Msg.dispatched_cpu 0 1)]) := by
    rw [sim_advance_overdue _ (event.mk EVT_PREEMPT 0 1) 0 rfl rfl rfl rfl rfl (by decide)]
    rfl
  simp only [advance_n, e3]

/-- The job `1 1 1` with quantum 0: the call after the wrap drains the
Preempt event and dispatches the job again. -/
theorem zero_quantum_drain_call :
    advance_n 1 (State.mk [] [] [event.mk EVT_PREEMPT 0 1]
        [job.mk JOB_RUNNING 0 1 0 0 0 [1]] 0 0 1 (some 0) none
        [(0, Msg.sim_started 0), (1, Msg.arrives 0), (1, Msg.dispatched_cpu 0 1)])
      = some (State.mk [] [] [event.mk EVT_PREEMPT 0 1]
        [job.mk JOB_RUNNING 0 1 0 0 0 [1]] 2 0 1 (some 0) none
        [(0, Msg.sim_started 0), (1, Msg.arrives 0), (1, Msg.dispatched_cpu 0 1),
          (1, Msg.preempted 0), (1, Msg.dispatched_cpu 0 1)]) := rfl

/-- With an overdue event pending, the calls of `sim_advance` only move
the clock (and tally the queues) as long as the clock does not wrap:
nothing is drained, nothing is dispatched, no device is released. -/
theorem advance_n_stuck : ∀ (k : Nat) (s : State), Inv s → Bnd s → Settled s →
    (∃ e ∈ s.EVENT_Q, e.arrival_time < s.TIME) → s.TIME + k < U64 →
    ∃ t, advance_n k s = some t ∧ t.TIME = s.TIME + k ∧ t.EVENT_Q = s.EVENT_Q ∧
      t.CPU_JOB = s.CPU_JOB ∧ t.IO_JOB = s.IO_JOB ∧ t.READY_Q = s.READY_Q ∧
      t.IO_Q = s.IO_Q ∧ t.OUT = s.OUT := by
  intro k
  induction k with
  | zero =>
    intro s _ _ _ _ _
    exact ⟨s, rfl, rfl, rfl, rfl, rfl, rfl, rfl, rfl⟩
  | succ k ih =>
    intro s hI hB hS hov hfit
    obtain ⟨e, he, hlt⟩ := hov
    have htop : ∃ x, pq_top s.EVENT_Q = some x := by
      cases hQ : s.EVENT_Q with
      | nil => rw [hQ] at he; cases he
      | cons a rest => exact ⟨a, rfl⟩
    obtain ⟨x, hx⟩ := htop
    have hxe : key x ≤ key e := pq_top_max s.EVENT_Q x hI.heap hx e he
    have hxlt : x.arrival_time < s.TIME := by
      have h1 := event_type_val_lt x.type
      have h2 := event_type_val_lt e.type
      unfold key at hxe
      omega
    obtain ⟨m, t, hadv, hch, hSt, _, hover⟩ := sim_advance_spec hI hB hS hx
    obtain ⟨hinc, _⟩ := hover hxlt
    obtain ⟨t2, h1, _, a1, a2, a3, a4, a5, _, a7, a8, _⟩ := inv_sim_inc_time hI
    rw [hinc] at h1
    cases h1
    obtain ⟨hIt, hBt⟩ := hch.stays_good hI hB
    have hT : t.TIME = s.TIME + 1 := by
      rw [a8]
      unfold inc64
      unfold U64 at hfit
      omega
    obtain ⟨u, b1, b2, b3, b4, b5, b6, b7, b8⟩ := ih t hIt hBt hSt
      ⟨e, by rw [a3]; exact he, by omega⟩ (by omega)
    refine ⟨u, ?_, by omega, by rw [b3, a3], by rw [b4, a4], by rw [b5, a5], by rw [b6, a1],
      by rw [b7, a2], by rw [b8, a7]⟩
    simp only [advance_n, hadv]
    exact b1

/-! ## A burst that makes the clock wrap -/

/-- When the state after `k` calls of `sim_advance` has an empty event
queue, the loop of `main` ends in it, after at most `k + 1` calls. -/
theorem sim_loop_of_advance_n : ∀ (k : Nat) (s t : State), advance_n k s = some t →
    t.EVENT_Q = [] → ∃ m, m ≤ k + 1 ∧ sim_loop m s = some t := by
  intro k
  induction k with
  | zero =>
    intro s t h hq
    simp only [advance_n, Option.some.injEq] at h
    subst h
    exact ⟨1, le_refl _, by simp [sim_loop, sim_advance_empty hq]⟩
  | succ k ih =>
    intro s t h hq
    simp only [advance_n] at h
    cases hadv : sim_advance s with
    | none => rw [hadv] at h; cases h
    | some p =>
      obtain ⟨b, s1⟩ := p
      rw [hadv] at h
      simp only [] at h
      cases b with
      | false =>
        obtain ⟨h1, h2⟩ := sim_advance_false hadv
        subst h2
        rw [advance_n_empty k h1] at h
        cases h
        exact ⟨1, by omega, by simp [sim_loop, hadv]⟩
      | true =>
        obtain ⟨m, hm, hl⟩ := ih s1 t h hq
        exact ⟨m + 1, by omega, by simp [sim_loop, hadv, hl]⟩

/-- The job `1 1 18446744073709551615` with quantum `2 ^ 64 - 1`: the first
call of `sim_advance`; the Terminate event is due at tick
`(1 + (2 ^ 64 - 1)) mod 2 ^ 64 = 0`. -/
theorem long_burst_first_call :
    advance_n 1 (sim_init 18446744073709551615 [[1, 1, 18446744073709551615]]) = some
      (State.mk [] [] [event.mk EVT_TERMINATE 0 0]
        [job.mk JOB_RUNNING 0 1 0 0 0 [18446744073709551615]] 2 18446744073709551615 1
        (some 0) none
        [(0, Msg.sim_started 18446744073709551615), (1, Msg.arrives 0),
          (1, Msg.dispatched_cpu 0 18446744073709551615)]) := rfl

theorem long_burst_overdue_calls :
    advance_n 18446744073709551613 (State.mk [] [] [event.mk EVT_TERMINATE 0 0]
        [job.mk JOB_RUNNING 0 1 0 0 0 [18446744073709551615]] 2 18446744073709551615 1
        (some 0) none
        [(0, Msg.sim_started 18446744073709551615), (1, Msg.arrives 0),
          (1, Msg.dispatched_cpu 0 18446744073709551615)])
      = some (State.mk [] [] [event.mk EVT_TERMINATE 0 0]
        [job.mk JOB_RUNNING 0 1 0 0 0 [18446744073709551615]] (2 + 18446744073709551613)
        18446744073709551615 1 (some 0) none
        [(0, Msg.sim_started 18446744073709551615), (1, Msg.arrives 0),
          (1, Msg.dispatched_cpu 0 18446744073709551615)]) :=
  advance_n_overdue 18446744073709551613 _ (event.mk EVT_TERMINATE 0 0) 0 rfl rfl rfl rfl rfl
    (by decide) (by decide)

theorem long_burst_wrap_call :
    advance_n 1 (State.mk [] [] [event.mk EVT_TERMINATE 0 0]
        [job.mk JOB_RUNNING 0 1 0 0 0 [18446744073709551615]] (2 + 18446744073709551613)
        18446744073709551615 1 (some 0) none
        [(0, Msg.sim_started 18446744073709551615), (1, Msg.arrives 0),
          (1, Msg.dispatched_cpu 0 18446744073709551615)])
      = some (State.mk [] [] [event.mk EVT_TERMINATE 0 0]
        [job.mk JOB_RUNNING 0 1 0 0 0 [18446744073709551615]] 0
        18446744073709551615 1 (some 0) none
        [(0, Msg.sim_started 18446744073709551615), (1, Msg.arrives 0),
          (1, Msg.dispatched_cpu 0 18446744073709551615)]) := by
  have e3 : sim_advance (State.mk [] [] [event.mk EVT_TERMINATE 0 0]
      [job.mk JOB_RUNNING 0 1 0 0 0 [18446744073709551615]] (2 + 18446744073709551613)
      18446744073709551615 1 (some 0) none
      [(0, Msg.sim_started 18446744073709551615), (1, Msg.arrives 0),
        (1, Msg.dispatched_cpu 0 18446744073709551615)])
      = some (true, State.mk [] [] [event.mk EVT_TERMINATE 0 0]
        [job.mk JOB_RUNNING 0 1 0 0 0 [18446744073709551615]] 0
        18446744073709551615 1 (some 0) none
        [(0, Msg.sim_started 18446744073709551615), (1, Msg.arrives 0),
          (1, Msg.dispatched_cpu 0 18446744073709551615)]) := by
    rw [sim_advance_overdue _ (event.mk EVT_TERMINATE 0 0) 0 rfl rfl rfl rfl rfl (by decide)]
    rfl
  simp only [advance_n, e3]

theorem long_burst_last_call :
    advance_n 1 (State.mk [] [] [event.mk EVT_TERMINATE 0 0]
        [job.mk JOB_RUNNING 0 1 0 0 0 [18446744073709551615]] 0
        18446744073709551615 1 (some 0) none
        [(0, Msg.sim_started 18446744073709551615), (1, Msg.arrives 0),
          (1, Msg.dispatched_cpu 0 18446744073709551615)])
      = some (State.mk [] [] []
        [job.mk JOB_TERMINATED 0 1 18446744073709551615 0 0 [18446744073709551615]] 1
        18446744073709551615 2 none none
        [(0, Msg.sim_started 18446744073709551615), (1, Msg.arrives 0),
          (1, Msg.dispatched_cpu 0 18446744073709551615), (0, Msg.terminated 0)]) := rfl

/-! ## C1 -/

/-- C1: in every non-empty event queue the program can build, the event
that `top` returns (the one the clock loop pops next) is a member with the
smallest due time, and among the members with that due time it has the
smallest enumerator value, the enumerators being ordered Terminate, Arrive,
IO-Receive, IO-Request, Preempt. -/
theorem C1_top_earliest_then_priority (q : List event) (hq : PQReach q) (hne : q ≠ []) :
    [EVT_TERMINATE, EVT_ARRIVE, EVT_IO_RECIEVE, EVT_IO_REQUEST, EVT_PREEMPT].map event_type.val
        = [0, 1, 2, 3, 4] ∧
    ∃ e, pq_top q = some e ∧ e ∈ q ∧
      ∀ x ∈ q, e.arrival_time ≤ x.arrival_time ∧
        (x.arrival_time = e.arrival_time → e.type.val ≤ x.type.val) := by
  refine ⟨by decide, ?_⟩
  cases q with
  | nil => exact absurd rfl hne
  | cons a t =>
    refine ⟨a, rfl, List.mem_cons_self _ _, ?_⟩
    intro x hx
    have h := pq_top_max (a :: t) a (pqReach_isHeap _ hq) rfl x hx
    have ha := event_type_val_lt a.type
    have hb := event_type_val_lt x.type
    unfold key at h
    constructor
    · omega
    · intro heq; omega

theorem C1_top_earliest_then_priority_witness :
    PQReach (pq_push (pq_push (pq_push [] (event.mk EVT_PREEMPT 0 3)) (event.mk EVT_ARRIVE 1 3))
        (event.mk EVT_TERMINATE 2 5)) ∧
    pq_top (pq_push (pq_push (pq_push [] (event.mk EVT_PREEMPT 0 3)) (event.mk EVT_ARRIVE 1 3))
        (event.mk EVT_TERMINATE 2 5)) = some (event.mk EVT_ARRIVE 1 3) ∧
    ([EVT_TERMINATE, EVT_ARRIVE, EVT_IO_RECIEVE, EVT_IO_REQUEST, EVT_PREEMPT].map event_type.val
        = [0, 1, 2, 3, 4] ∧
    ∃ e, pq_top (pq_push (pq_push (pq_push [] (event.mk EVT_PREEMPT 0 3))
          (event.mk EVT_ARRIVE 1 3)) (event.mk EVT_TERMINATE 2 5)) = some e ∧
      e ∈ (pq_push (pq_push (pq_push [] (event.mk EVT_PREEMPT 0 3)) (event.mk EVT_ARRIVE 1 3))
          (event.mk EVT_TERMINATE 2 5)) ∧
      ∀ x ∈ (pq_push (pq_push (pq_push [] (event.mk EVT_PREEMPT 0 3)) (event.mk EVT_ARRIVE 1 3))
          (event.mk EVT_TERMINATE 2 5)), e.arrival_time ≤ x.arrival_time ∧
        (x.arrival_time = e.arrival_time → e.type.val ≤ x.type.val)) :=
  ⟨PQReach.push _ _ (PQReach.push _ _ (PQReach.push _ _ PQReach.empty)), by decide,
    C1_top_earliest_then_priority _
      (PQReach.push _ _ (PQReach.push _ _ (PQReach.push _ _ PQReach.empty))) (by decide)⟩

/-! ## C2 -/

/-- C2: `dispatch` on a non-empty Ready queue whose head job has front
burst `b` followed by the bursts `bs`: the head is popped, it becomes the
CPU job in state Running, and exactly one event is pushed, for that job:
Preempt at `TIME + QUANTUM` if `b > QUANTUM`, otherwise Terminate at
`TIME + b` if `b` is the only burst left, otherwise IO-Request at `TIME + b`
(the sums are the 64-bit sums of the source).  A burst equal to the quantum
is not preempted and a job with one burst left gets no IO-Request. -/
theorem C2_dispatch_schedules (s : State) (front : Nat) (rest : List Nat) (j : job)
    (b : Nat) (bs : List Nat)
    (hq : s.READY_Q = front :: rest) (hj : s.JOBS[front]? = some j) (hb : j.bursts = b :: bs) :
    ∃ e s1, dispatch s = some s1 ∧
      s1.READY_Q = rest ∧ s1.CPU_JOB = some front ∧
      s1.JOBS = s.JOBS.set front { j with state := JOB_RUNNING } ∧
      s1.EVENT_Q = pq_push s.EVENT_Q e ∧ s1.EVENT_Q.Perm (e :: s.EVENT_Q) ∧
      s1.OUT = s.OUT ++ [(s.TIME, Msg.dispatched_cpu j.jid b)] ∧
      s1.IO_Q = s.IO_Q ∧ s1.IO_JOB = s.IO_JOB ∧ s1.TIME = s.TIME ∧
      s1.QUANTUM = s.QUANTUM ∧ s1.CPU_IDLE_TIME = s.CPU_IDLE_TIME ∧
      e.jid = j.jid ∧
      (b > s.QUANTUM → e.type = EVT_PREEMPT ∧ e.arrival_time = add64 s.TIME s.QUANTUM) ∧
      (b ≤ s.QUANTUM → bs.length + 1 = 1 →
        e.type = EVT_TERMINATE ∧ e.arrival_time = add64 s.TIME b) ∧
      (b ≤ s.QUANTUM → bs.length + 1 ≠ 1 →
        e.type = EVT_IO_REQUEST ∧ e.arrival_time = add64 s.TIME b) ∧
      (b = s.QUANTUM → e.type ≠ EVT_PREEMPT) ∧
      (bs.length + 1 = 1 → e.type ≠ EVT_IO_REQUEST) := by
  have hlt : front < s.JOBS.length := by
    by_contra h
    rw [List.getElem?_eq_none (by omega)] at hj
    cases hj
  have hget : get_job s front = some j := by
    rw [get_job, if_pos hlt, hj]
  by_cases hgt : b > s.QUANTUM
  · refine ⟨event.mk EVT_PREEMPT j.jid (add64 s.TIME s.QUANTUM),
      State.mk rest s.IO_Q (pq_push s.EVENT_Q (event.mk EVT_PREEMPT j.jid (add64 s.TIME s.QUANTUM)))
        (s.JOBS.set front { j with state := JOB_RUNNING }) s.TIME s.QUANTUM s.CPU_IDLE_TIME
        (some front) s.IO_JOB (s.OUT ++ [(s.TIME, Msg.dispatched_cpu j.jid b)]),
      ?_, rfl, rfl, rfl, rfl,
      pq_push_perm _ _, rfl, rfl, rfl, rfl, rfl, rfl, rfl, ?_, ?_, ?_, ?_, ?_⟩
    · simp only [dispatch, hq, hget, hb, outf]
      rw [if_pos hgt]
    · intro _; exact ⟨rfl, rfl⟩
    · intro h; omega
    · intro h; omega
    · intro h; omega
    · intro _; simp
  · refine ⟨event.mk (if j.bursts.length = 1 then EVT_TERMINATE else EVT_IO_REQUEST) j.jid
        (add64 s.TIME b),
      State.mk rest s.IO_Q (pq_push s.EVENT_Q
          (event.mk (if j.bursts.length = 1 then EVT_TERMINATE else EVT_IO_REQUEST) j.jid
            (add64 s.TIME b)))
        (s.JOBS.set front { j with state := JOB_RUNNING }) s.TIME s.QUANTUM s.CPU_IDLE_TIME
        (some front) s.IO_JOB (s.OUT ++ [(s.TIME, Msg.dispatched_cpu j.jid b)]),
      ?_, rfl, rfl, rfl, rfl,
      pq_push_perm _ _, rfl, rfl, rfl, rfl, rfl, rfl, rfl, ?_, ?_, ?_, ?_, ?_⟩
    · simp only [dispatch, hq, hget, hb, outf]
      rw [if_neg hgt]
    · intro h; exact absurd h hgt
    · intro _ h1
      simp only [hb, List.length_cons, h1, if_true]
      exact ⟨trivial, trivial⟩
    · intro _ h1
      simp only [hb, List.length_cons, h1, if_false]
      exact ⟨trivial, trivial⟩
    · intro _
      simp only []
      split <;> simp
    · intro h1
      simp only [hb, List.length_cons, h1, if_true]
      simp

theorem C2_dispatch_schedules_witness :
    ∃ e s1, dispatch (State.mk [0] [] [] [job.mk JOB_READY 0 1 0 0 0 [2, 5, 1]] 1 2 1 none none [])
        = some s1 ∧
      s1.READY_Q = [] ∧ s1.CPU_JOB = some 0 ∧
      s1.JOBS = [job.mk JOB_READY 0 1 0 0 0 [2, 5, 1]].set 0
        { job.mk JOB_READY 0 1 0 0 0 [2, 5, 1] with state := JOB_RUNNING } ∧
      s1.EVENT_Q = pq_push [] e ∧ s1.EVENT_Q.Perm (e :: []) ∧
      s1.OUT = [] ++ [(1, Msg.dispatched_cpu 0 2)] ∧
      s1.IO_Q = [] ∧ s1.IO_JOB = none ∧ s1.TIME = 1 ∧
      s1.QUANTUM = 2 ∧ s1.CPU_IDLE_TIME = 1 ∧
      e.jid = 0 ∧
      (2 > 2 → e.type = EVT_PREEMPT ∧ e.arrival_time = add64 1 2) ∧
      (2 ≤ 2 → [5, 1].length + 1 = 1 →
        e.type = EVT_TERMINATE ∧ e.arrival_time = add64 1 2) ∧
      (2 ≤ 2 → [5, 1].length + 1 ≠ 1 →
        e.type = EVT_IO_REQUEST ∧ e.arrival_time = add64 1 2) ∧
      (2 = 2 → e.type ≠ EVT_PREEMPT) ∧
      ([5, 1].length + 1 = 1 → e.type ≠ EVT_IO_REQUEST) :=
  C2_dispatch_schedules
    (State.mk [0] [] [] [job.mk JOB_READY 0 1 0 0 0 [2, 5, 1]] 1 2 1 none none [])
    0 [] (job.mk JOB_READY 0 1 0 0 0 [2, 5, 1]) 2 [5, 1] rfl rfl rfl

/-! ## C3 -/

/-- C3: whatever the input file and the quantum, every call of
`sim_advance` returns without abort, and after any number of calls the CPU
occupant, the IO occupant, the members of `READY_Q` and the members of
`IO_Q` are pairwise disjoint with no id repeated (the list of the four
places has no duplicate) and are exactly the jobs whose state is neither
New nor Terminated.  (`jobs_parse_line` keeps only lines with arrival at
least 1 and an odd number of bursts, so the table is always well formed.) -/
theorem C3_locations_partition (q : Nat) (lines : List (List Nat)) (n : Nat) :
    ∃ s, advance_n n (sim_init q lines) = some s ∧
      (s.CPU_JOB.toList ++ s.IO_JOB.toList ++ s.READY_Q ++ s.IO_Q).Nodup ∧
      ∀ i, i ∈ s.CPU_JOB.toList ++ s.IO_JOB.toList ++ s.READY_Q ++ s.IO_Q ↔
        ∃ j, s.JOBS[i]? = some j ∧ j.state ≠ JOB_NEW ∧ j.state ≠ JOB_TERMINATED := by
  obtain ⟨g1, g2, g3, _, _⟩ := sim_init_good q lines
  obtain ⟨s, h1, h2, _, _⟩ := advance_n_good n _ g1 g2 g3
  exact ⟨s, h1, h2.locations_spec⟩

theorem C3_locations_partition_witness :
    ∃ s, advance_n 4 (sim_init 2 [[1, 2, 1, 5, 1], [1, 2, 1, 3, 1], [1, 1, 4], [1, 1, 4]]) = some s ∧
      s.CPU_JOB = some 3 ∧ s.IO_JOB = some 0 ∧ s.READY_Q = [2] ∧ s.IO_Q = [1] ∧
      (s.CPU_JOB.toList ++ s.IO_JOB.toList ++ s.READY_Q ++ s.IO_Q).Nodup ∧
      ∀ i, i ∈ s.CPU_JOB.toList ++ s.IO_JOB.toList ++ s.READY_Q ++ s.IO_Q ↔
        ∃ j, s.JOBS[i]? = some j ∧ j.state ≠ JOB_NEW ∧ j.state ≠ JOB_TERMINATED := by
  obtain ⟨s, h1, h2, h3⟩ :=
    C3_locations_partition 2 [[1, 2, 1, 5, 1], [1, 2, 1, 3, 1], [1, 1, 4], [1, 1, 4]] 4
  have e : ∃ t, advance_n 4 (sim_init 2 [[1, 2, 1, 5, 1], [1, 2, 1, 3, 1], [1, 1, 4], [1, 1, 4]])
      = some t ∧ t.CPU_JOB = some 3 ∧ t.IO_JOB = some 0 ∧ t.READY_Q = [2] ∧ t.IO_Q = [1] :=
    ⟨_, rfl, rfl, rfl, rfl, rfl⟩
  obtain ⟨t, e1, e2, e3, e4, e5⟩ := e
  rw [h1] at e1
  cases e1
  exact ⟨s, h1, e2, e3, e4, e5, h2, h3⟩

/-! ## C4 -/

/-- C4, as stated, fails: the job `1 2 1 1 1` (CPU bursts 1 and 1, IO burst
1) run with quantum 2 ends with turnaround 3, wait 0 and IO time 0, and the
sum of its CPU bursts is 2. -/
theorem C4_counterexample :
    ∃ sf j, sim_loop 5 (sim_init 2 [[1, 2, 1, 1, 1]]) = some sf ∧ sf.JOBS = [j] ∧
      j.state = JOB_TERMINATED ∧ (cpu_bursts [1, 1, 1]).sum = 2 ∧
      j.turn_around_time = 3 ∧ j.wait_time = 0 ∧ j.io_time = 0 ∧
      j.turn_around_time ≠ j.wait_time + j.io_time + (cpu_bursts [1, 1, 1]).sum :=
  ⟨_, _, rfl, rfl, rfl, rfl, rfl, rfl, rfl, by decide⟩

/-- C4, amended: whatever the input file and the quantum, after any number
of calls of `sim_advance` every Terminated job has
`turn_around_time = wait_time + io_time + (sum of ALL its original bursts,
CPU and IO)`, in 64-bit arithmetic; the equation is exact when the right
side fits in 64 bits. -/
theorem C4_turnaround_accounting (q : Nat) (lines : List (List Nat)) (n : Nat) :
    ∃ s, advance_n n (sim_init q lines) = some s ∧
      ∀ (i : Nat) (j o : job), s.JOBS[i]? = some j → (sim_init q lines).JOBS[i]? = some o →
        j.state = JOB_TERMINATED →
        j.turn_around_time = (j.wait_time + j.io_time + o.bursts.sum) % U64 ∧
        (j.wait_time + j.io_time + o.bursts.sum < U64 →
          j.turn_around_time = j.wait_time + j.io_time + o.bursts.sum) := by
  obtain ⟨g1, g2, g3, _, _⟩ := sim_init_good q lines
  obtain ⟨k, s, h1, h2, _⟩ := advance_n_chain n _ g1 g2 g3
  have hA := h2.stays_acc (sim_init_acc q lines)
  refine ⟨s, h1, ?_⟩
  intro i j o hj ho hst
  have ha := hA i j hj
  unfold acc_job at ha
  rw [hst] at ha
  simp only [orig_total, ho] at ha
  refine ⟨ha, fun hlt => ?_⟩
  rw [ha]
  exact Nat.mod_eq_of_lt hlt

theorem C4_turnaround_accounting_witness :
    ∃ s, advance_n 7 (sim_init 2 [[1, 2, 1, 5, 1], [1, 2, 1, 3, 1], [1, 1, 4], [1, 1, 4]]) = some s ∧
      s.JOBS.map (fun j => (j.state, j.turn_around_time, j.wait_time, j.io_time))
        = [(JOB_TERMINATED, 9, 2, 0), (JOB_READY, 0, 4, 2), (JOB_TERMINATED, 8, 4, 0),
            (JOB_RUNNING, 0, 7, 0)] ∧
      ∀ (i : Nat) (j o : job), s.JOBS[i]? = some j →
        (sim_init 2 [[1, 2, 1, 5, 1], [1, 2, 1, 3, 1], [1, 1, 4], [1, 1, 4]]).JOBS[i]? = some o →
        j.state = JOB_TERMINATED →
        j.turn_around_time = (j.wait_time + j.io_time + o.bursts.sum) % U64 ∧
        (j.wait_time + j.io_time + o.bursts.sum < U64 →
          j.turn_around_time = j.wait_time + j.io_time + o.bursts.sum) := by
  obtain ⟨s, h1, h2⟩ :=
    C4_turnaround_accounting 2 [[1, 2, 1, 5, 1], [1, 2, 1, 3, 1], [1, 1, 4], [1, 1, 4]] 7
  have e : ∃ t, advance_n 7 (sim_init 2 [[1, 2, 1, 5, 1], [1, 2, 1, 3, 1], [1, 1, 4], [1, 1, 4]])
      = some t ∧
      t.JOBS.map (fun j => (j.state, j.turn_around_time, j.wait_time, j.io_time))
        = [(JOB_TERMINATED, 9, 2, 0), (JOB_READY, 0, 4, 2), (JOB_TERMINATED, 8, 4, 0),
            (JOB_RUNNING, 0, 7, 0)] :=
    ⟨_, rfl, rfl⟩
  obtain ⟨t, e1, e2⟩ := e
  rw [h1] at e1
  cases e1
  exact ⟨s, h1, e2, h2⟩

/-! ## C5 -/

/-- C5: whatever the input file, with a quantum of at least 1 the loop
`while (sim_advance());` ends after finitely many calls, none of which
aborts; in the state where `sim_advance` returns false every job of the
table is Terminated, both queues are empty and both devices are idle.
(`jobs_parse_line` keeps only lines with arrival at least 1 and an odd
number of bursts; the bursts need not even be positive.) -/
theorem C5_loop_terminates (q : Nat) (lines : List (List Nat)) (hq : 1 ≤ q) :
    ∃ n sf, sim_loop n (sim_init q lines) = some sf ∧
      sim_advance sf = some (false, sf) ∧
      (∀ j ∈ sf.JOBS, j.state = JOB_TERMINATED) ∧
      sf.READY_Q = [] ∧ sf.IO_Q = [] ∧ sf.EVENT_Q = [] ∧
      sf.CPU_JOB = none ∧ sf.IO_JOB = none := by
  obtain ⟨g1, g2, g3, g4, _⟩ := sim_init_good q lines
  obtain ⟨n, t, h1, h2, _, h4, h5⟩ :=
    sim_loop_terminates _ (sim_init q lines) g1 g2 g3 (by rw [g4]; exact hq) (Nat.lt_succ_self _)
  obtain ⟨f1, f2, f3, f4, f5⟩ := h2.final h4 h5
  exact ⟨n, t, h1, sim_advance_empty h5, f1, f2, f3, h5, f4, f5⟩

theorem C5_loop_terminates_witness :
    1 ≤ 2 ∧ ∃ n sf, sim_loop n (sim_init 2 [[1, 1, 4], [2, 2, 3, 1, 2]]) = some sf ∧
      sim_advance sf = some (false, sf) ∧
      (∀ j ∈ sf.JOBS, j.state = JOB_TERMINATED) ∧
      sf.READY_Q = [] ∧ sf.IO_Q = [] ∧ sf.EVENT_Q = [] ∧
      sf.CPU_JOB = none ∧ sf.IO_JOB = none :=
  ⟨by decide, C5_loop_terminates 2 [[1, 1, 4], [2, 2, 3, 1, 2]] (by decide)⟩

/-! ## C6 -/

/-- C6: the run of the single job `1 1 4` with quantum 2: Arrive and
Dispatch at tick 1 (Preempt scheduled at 3), Preempt at tick 3 (front burst
2, job back in the Ready queue), Dispatch at tick 3 (Terminate scheduled at
5), Terminate at tick 5; these are all the lines of the trace after the
start line, and the job ends with turnaround 4, wait 0 and IO time 0. -/
theorem C6_single_job_trace :
    ∃ s1 s2 m2 s3,
      -- first call: Arrive at tick 1, Dispatch at tick 1 schedules Preempt at 3
      sim_advance (sim_init 2 [[1, 1, 4]]) = some (true, s1) ∧
      s1.EVENT_Q = [event.mk EVT_PREEMPT 0 3] ∧ s1.CPU_JOB = some 0 ∧
      -- second call: Preempt at tick 3 leaves front burst 2 and the job in the Ready queue
      sim_drained s1 = some m2 ∧ m2.TIME = 3 ∧ m2.READY_Q = [0] ∧ m2.CPU_JOB = none ∧
      m2.JOBS.map (fun j => (j.state, j.bursts)) = [(JOB_READY, [2])] ∧
      -- then Dispatch at tick 3 schedules Terminate at 5
      sim_advance s1 = some (true, s2) ∧
      s2.EVENT_Q = [event.mk EVT_TERMINATE 0 5] ∧ s2.CPU_JOB = some 0 ∧
      -- third call: Terminate at tick 5; the fourth call ends the loop
      sim_advance s2 = some (true, s3) ∧ sim_advance s3 = some (false, s3) ∧
      sim_loop 4 (sim_init 2 [[1, 1, 4]]) = some s3 ∧
      s3.OUT = [(0, Msg.sim_started 2), (1, Msg.arrives 0), (1, Msg.dispatched_cpu 0 4),
        (3, Msg.preempted 0), (3, Msg.dispatched_cpu 0 2), (5, Msg.terminated 0)] ∧
      s3.JOBS.map (fun j => (j.state, j.turn_around_time, j.wait_time, j.io_time))
        = [(JOB_TERMINATED, 4, 0, 0)] := by
  refine ⟨_, _, _, _, rfl, rfl, rfl, rfl, rfl, rfl, rfl, rfl, rfl, rfl, rfl, rfl, rfl, rfl, rfl, rfl⟩

/-! ## C7 -/

/-- C7, as stated, fails: at the end of the run of `1 1 4` with quantum 2
the idle counter is not 0 and the utilisation is not 100%. -/
theorem C7_counterexample :
    ∃ sf, sim_loop 4 (sim_init 2 [[1, 1, 4]]) = some sf ∧
      sf.CPU_IDLE_TIME ≠ 0 ∧
      (sub64 sf.TIME sf.CPU_IDLE_TIME) * 100 ≠ 100 * sf.TIME :=
  ⟨_, rfl, by decide, by decide⟩

/-- C7, amended: the run of `1 1 4` with quantum 2 ends with `TIME = 6` and
`CPU_IDLE_TIME = 2` (tick 0, before the arrival, and tick 5, tallied after
the Terminate), so the utilisation is 4/6 of 100. -/
theorem C7_single_job_utilization :
    ∃ sf, sim_loop 4 (sim_init 2 [[1, 1, 4]]) = some sf ∧
      sf.TIME = 6 ∧ sf.CPU_IDLE_TIME = 2 ∧ sub64 sf.TIME sf.CPU_IDLE_TIME = 4 ∧
      3 * (sub64 sf.TIME sf.CPU_IDLE_TIME * 100) = 200 * sf.TIME :=
  ⟨_, rfl, rfl, rfl, rfl, rfl⟩

/-! ## C8 -/

/-- C8, as stated, fails: at the end of the run of `1 1 4` with quantum 2
the job is Terminated and its bursts sequence still holds one burst. -/
theorem C8_counterexample :
    ∃ s, sim_loop 4 (sim_init 2 [[1, 1, 4]]) = some s ∧
      s.JOBS.map (fun j => (j.state, j.bursts)) = [(JOB_TERMINATED, [2])] ∧
      ¬ (∀ j ∈ s.JOBS, j.state = JOB_TERMINATED → j.bursts = []) :=
  ⟨_, rfl, rfl, by decide⟩

/-- C8, amended: whatever the input file and the quantum, after any number
of calls of `sim_advance` every job has a non-empty bursts sequence: an odd
number of bursts while New, Ready or Running, an even non-zero number
while Blocked, and exactly one burst once Terminated (`terminated` does not
pop the last burst). -/
theorem C8_bursts_never_empty (q : Nat) (lines : List (List Nat)) (n : Nat) :
    ∃ s, advance_n n (sim_init q lines) = some s ∧
      ∀ (i : Nat) (j : job), s.JOBS[i]? = some j →
        j.bursts ≠ [] ∧
        ((j.state = JOB_NEW ∨ j.state = JOB_READY ∨ j.state = JOB_RUNNING) →
          j.bursts.length % 2 = 1) ∧
        (j.state = JOB_BLOCKED → j.bursts.length % 2 = 0) ∧
        (j.state = JOB_TERMINATED → j.bursts.length = 1) := by
  obtain ⟨g1, g2, g3, _, _⟩ := sim_init_good q lines
  obtain ⟨s, h1, h2, _, _⟩ := advance_n_good n _ g1 g2 g3
  refine ⟨s, h1, ?_⟩
  intro i j hj
  have hs := h2.shape i j hj
  cases hst : j.state <;> rw [hst] at hs <;> simp only [bursts_shape] at hs
  all_goals refine ⟨?_, ?_, ?_, ?_⟩
  all_goals first
    | (intro h; rw [h] at hs; simp at hs)
    | (intro h; first | exact hs | exact hs.1 | (rcases h with h | h | h <;> cases h))

theorem C8_bursts_never_empty_witness :
    ∃ s, advance_n 6 (sim_init 2 [[1, 2, 1, 5, 1], [1, 2, 1, 3, 1], [1, 1, 4], [1, 1, 4]]) = some s ∧
      s.JOBS.map (fun j => (j.state, j.bursts))
        = [(JOB_RUNNING, [1]), (JOB_BLOCKED, [3, 1]), (JOB_TERMINATED, [2]), (JOB_READY, [2])] ∧
      ∀ (i : Nat) (j : job), s.JOBS[i]? = some j →
        j.bursts ≠ [] ∧
        ((j.state = JOB_NEW ∨ j.state = JOB_READY ∨ j.state = JOB_RUNNING) →
          j.bursts.length % 2 = 1) ∧
        (j.state = JOB_BLOCKED → j.bursts.length % 2 = 0) ∧
        (j.state = JOB_TERMINATED → j.bursts.length = 1) := by
  obtain ⟨s, h1, h2⟩ :=
    C8_bursts_never_empty 2 [[1, 2, 1, 5, 1], [1, 2, 1, 3, 1], [1, 1, 4], [1, 1, 4]] 6
  have e : ∃ t, advance_n 6 (sim_init 2 [[1, 2, 1, 5, 1], [1, 2, 1, 3, 1], [1, 1, 4], [1, 1, 4]])
      = some t ∧
      t.JOBS.map (fun j => (j.state, j.bursts))
        = [(JOB_RUNNING, [1]), (JOB_BLOCKED, [3, 1]), (JOB_TERMINATED, [2]), (JOB_READY, [2])] :=
    ⟨_, rfl, rfl⟩
  obtain ⟨t, e1, e2⟩ := e
  rw [h1] at e1
  cases e1
  exact ⟨s, h1, e2, h2⟩

/-! ## C9 -/

/-- C9, amended: each transition function and dispatcher ends in the fatal
abort exactly when the condition it asserts fails: `get_job` on an id not
in the table; `arrived` on a job that is not New; `preempted`, `terminated`,
`io_requested` when the CPU is idle or its job is not Running; `io_recieved`
when the IO device is idle or its job is not Blocked; `dispatch`,
`io_dispatch` when the head of the queue is not in the table or has no
burst left.  No condition on the front burst or on the number of bursts
is asserted. -/
theorem C9_abort_iff_guard_fails (s : State) (c : Call) : c.aborts s = !c.guard s := by
  cases c with
  | getJob jid =>
    simp only [Call.aborts, Call.guard, get_job]
    by_cases h : jid < s.JOBS.length
    · simp [h]
    · simp [h]
  | arrive ref =>
    simp only [Call.aborts, Call.guard, arrived]
    cases h : s.JOBS[ref]? with
    | none => simp
    | some j => by_cases h2 : j.state = JOB_NEW <;> simp [h2]
  | preempt =>
    simp only [Call.aborts, Call.guard, preempted, device_job_in]
    cases h : s.CPU_JOB with
    | none => simp
    | some ref =>
      cases h1 : s.JOBS[ref]? with
      | none => simp [h1]
      | some j => by_cases h2 : j.state = JOB_RUNNING <;> simp [h1, h2]
  | terminate =>
    simp only [Call.aborts, Call.guard, terminated, device_job_in]
    cases h : s.CPU_JOB with
    | none => simp
    | some ref =>
      cases h1 : s.JOBS[ref]? with
      | none => simp [h1]
      | some j => by_cases h2 : j.state = JOB_RUNNING <;> simp [h1, h2]
  | ioRequest =>
    simp only [Call.aborts, Call.guard, io_requested, device_job_in]
    cases h : s.CPU_JOB with
    | none => simp
    | some ref =>
      cases h1 : s.JOBS[ref]? with
      | none => simp [h1]
      | some j => by_cases h2 : j.state = JOB_RUNNING <;> simp [h1, h2]
  | ioReceive =>
    simp only [Call.aborts, Call.guard, io_recieved, device_job_in]
    cases h : s.IO_JOB with
    | none => simp
    | some ref =>
      cases h1 : s.JOBS[ref]? with
      | none => simp [h1]
      | some j => by_cases h2 : j.state = JOB_BLOCKED <;> simp [h1, h2]
  | cpuDispatch =>
    simp only [Call.aborts, Call.guard, dispatch, head_dispatchable, get_job]
    cases h : s.READY_Q with
    | nil => simp
    | cons front rest =>
      simp only []
      by_cases hlt : front < s.JOBS.length
      · rw [if_pos hlt]
        cases h1 : s.JOBS[front]? with
        | none => simp [h1]
        | some j =>
          cases h2 : j.bursts with
          | nil => simp [h1, h2]
          | cons b bs =>
            simp only [h1, h2]
            split <;> simp
      · rw [if_neg hlt, List.getElem?_eq_none (by omega)]
        simp
  | ioDispatch =>
    simp only [Call.aborts, Call.guard, io_dispatch, head_dispatchable, get_job]
    cases h : s.IO_Q with
    | nil => simp
    | cons front rest =>
      simp only []
      by_cases hlt : front < s.JOBS.length
      · rw [if_pos hlt]
        cases h1 : s.JOBS[front]? with
        | none => simp [h1]
        | some j =>
          cases h2 : j.bursts with
          | nil => simp [h1, h2]
          | cons b bs => simp [h1, h2]
      · rw [if_neg hlt, List.getElem?_eq_none (by omega)]
        simp

/-- C9, as stated, fails: after the first call of `sim_advance` on the
workload `1 1 1` with quantum 2 the CPU job is Running with front burst
1, not above the quantum, and `preempted` does not abort: it wraps the
front burst around. -/
theorem C9_counterexample :
    ∃ s j, advance_n 1 (sim_init 2 [[1, 1, 1]]) = some s ∧
      s.CPU_JOB = some 0 ∧ s.JOBS[0]? = some j ∧ j.state = JOB_RUNNING ∧
      j.bursts = [1] ∧ ¬ (1 > s.QUANTUM) ∧
      (Call.preempt.aborts s) = false ∧
      (preempted s).map (fun t => t.JOBS.map (fun x => (x.state, x.bursts)))
        = some [(JOB_READY, [18446744073709551615])] :=
  ⟨_, _, rfl, rfl, rfl, rfl, rfl, by decide, rfl, rfl⟩

/-! ## C10 -/

/-- C10: a single job with one CPU burst `d` no longer than the quantum,
arriving at tick `a`: the run ends, its trace is Arrive and Dispatch at
tick `a` and Terminate at tick `a + d` with no Preempt, and the job ends
with turnaround time `d` and wait time 0.  The quantum is at least 1 because
`1 ≤ d ≤ q`; `a + d` is a tick, a 64-bit value. -/
theorem C10_short_single_burst (q a d : Nat) (ha : 1 ≤ a) (hd : 1 ≤ d)
    (hdq : d ≤ q) (hfit : a + d < U64) :
    ∃ sf, sim_loop 3 (sim_init q [[a, 1, d]]) = some sf ∧
      sf.OUT = [(0, Msg.sim_started q), (a, Msg.arrives 0), (a, Msg.dispatched_cpu 0 d),
        (a + d, Msg.terminated 0)] ∧
      sf.JOBS = [job.mk JOB_TERMINATED 0 a d 0 0 [d]] := by
  have hU : U64 = 18446744073709551616 := rfl
  rw [sim_init_single q a d ha (by omega) (by omega)]
  -- first call of sim_advance
  obtain ⟨idle1, hs1⟩ := sim_skip_empty a
    { READY_Q := [], IO_Q := [], EVENT_Q := [event.mk EVT_ARRIVE 0 a],
      JOBS := [job.mk JOB_NEW 0 a 0 0 0 [d]], TIME := 0, QUANTUM := q, CPU_IDLE_TIME := 0,
      CPU_JOB := none, IO_JOB := none, OUT := [(0, Msg.sim_started q)] }
    (event.mk EVT_ARRIVE 0 a) rfl rfl rfl (by simp) (by simp only []; omega)
  have hadd : add64 a d = a + d := by unfold add64; omega
  have hinc1 : inc64 a = a + 1 := by unfold inc64; omega
  have hnot : ¬ d > q := by omega
  have e1 : sim_advance
      { READY_Q := [], IO_Q := [], EVENT_Q := [event.mk EVT_ARRIVE 0 a],
        JOBS := [job.mk JOB_NEW 0 a 0 0 0 [d]], TIME := 0, QUANTUM := q, CPU_IDLE_TIME := 0,
        CPU_JOB := none, IO_JOB := none, OUT := [(0, Msg.sim_started q)] } =
      some (true,
        { READY_Q := [], IO_Q := [], EVENT_Q := [event.mk EVT_TERMINATE 0 (a + d)],
          JOBS := [job.mk JOB_RUNNING 0 a 0 0 0 [d]], TIME := a + 1, QUANTUM := q,
          CPU_IDLE_TIME := idle1, CPU_JOB := some 0, IO_JOB := none,
          OUT := [(0, Msg.sim_started q), (a, Msg.arrives 0), (a, Msg.dispatched_cpu 0 d)] }) := by
    have hb : skip_bound
      { READY_Q := [], IO_Q := [], EVENT_Q := [event.mk EVT_ARRIVE 0 a],
        JOBS := [job.mk JOB_NEW 0 a 0 0 0 [d]], TIME := 0, QUANTUM := q, CPU_IDLE_TIME := 0,
        CPU_JOB := none, IO_JOB := none, OUT := [(0, Msg.sim_started q)] } = a := rfl
    simp only [sim_advance, hb, hs1]
    simp [sim_drain, pq_top, apply_event, get_job, arrived, outf, pq_pop_singleton, is_cpu_idle,
      dispatch, hnot, pq_push_nil, is_io_idle, io_dispatch, sim_inc_time, sim_tally, tally_wait,
      tally_io, hadd, hinc1]
  obtain ⟨idle2, hs2⟩ := sim_skip_empty (d - 1)
    { READY_Q := [], IO_Q := [], EVENT_Q := [event.mk EVT_TERMINATE 0 (a + d)],
      JOBS := [job.mk JOB_RUNNING 0 a 0 0 0 [d]], TIME := a + 1, QUANTUM := q,
      CPU_IDLE_TIME := idle1, CPU_JOB := some 0, IO_JOB := none,
      OUT := [(0, Msg.sim_started q), (a, Msg.arrives 0), (a, Msg.dispatched_cpu 0 d)] }
    (event.mk EVT_TERMINATE 0 (a + d)) rfl rfl rfl (by simp only []; omega)
    (by simp only []; omega)
  have hsub : sub64 (a + d) a = d := by unfold sub64; omega
  have htime : a + 1 + (d - 1) = a + d := by omega
  rw [htime] at hs2
  have e2 : sim_advance
      { READY_Q := [], IO_Q := [], EVENT_Q := [event.mk EVT_TERMINATE 0 (a + d)],
        JOBS := [job.mk JOB_RUNNING 0 a 0 0 0 [d]], TIME := a + 1, QUANTUM := q,
        CPU_IDLE_TIME := idle1, CPU_JOB := some 0, IO_JOB := none,
        OUT := [(0, Msg.sim_started q), (a, Msg.arrives 0), (a, Msg.dispatched_cpu 0 d)] } =
      some (true,
        { READY_Q := [], IO_Q := [], EVENT_Q := [],
          JOBS := [job.mk JOB_TERMINATED 0 a d 0 0 [d]], TIME := inc64 (a + d), QUANTUM := q,
          CPU_IDLE_TIME := inc64 idle2, CPU_JOB := none, IO_JOB := none,
          OUT := [(0, Msg.sim_started q), (a, Msg.arrives 0), (a, Msg.dispatched_cpu 0 d),
            (a + d, Msg.terminated 0)] }) := by
    have hb : skip_bound
      { READY_Q := [], IO_Q := [], EVENT_Q := [event.mk EVT_TERMINATE 0 (a + d)],
        JOBS := [job.mk JOB_RUNNING 0 a 0 0 0 [d]], TIME := a + 1, QUANTUM := q,
        CPU_IDLE_TIME := idle1, CPU_JOB := some 0, IO_JOB := none,
        OUT := [(0, Msg.sim_started q), (a, Msg.arrives 0), (a, Msg.dispatched_cpu 0 d)] }
        = d - 1 := by
      simp only [skip_bound, pq_top, List.head?]
      omega
    simp only [sim_advance, hb, hs2]
    simp [sim_drain, pq_top, apply_event, terminated, outf, pq_pop_singleton, is_cpu_idle,
      dispatch, is_io_idle, io_dispatch, sim_inc_time, sim_tally, tally_wait,
      tally_io, hsub]
  refine ⟨State.mk [] [] [] [job.mk JOB_TERMINATED 0 a d 0 0 [d]] (inc64 (a + d)) q
    (inc64 idle2) none none
    [(0, Msg.sim_started q), (a, Msg.arrives 0), (a, Msg.dispatched_cpu 0 d),
      (a + d, Msg.terminated 0)], ?_, rfl, rfl⟩
  rw [sim_loop, e1]
  simp only []
  rw [sim_loop, e2]
  simp only []
  rfl

theorem C10_short_single_burst_witness :
    ∃ sf, sim_loop 3 (sim_init 4 [[2, 1, 3]]) = some sf ∧
      sf.OUT = [(0, Msg.sim_started 4), (2, Msg.arrives 0), (2, Msg.dispatched_cpu 0 3),
        (2 + 3, Msg.terminated 0)] ∧
      sf.JOBS = [job.mk JOB_TERMINATED 0 2 3 0 0 [3]] :=
  C10_short_single_burst 4 2 3 (by decide) (by decide) (by decide) (by decide)

/-! ## C11 -/

/-- C11: let the quantum `q` be at least 1 and the front burst of a job be
`2 * q + 1`, the other bursts being `bs`.  A `dispatch` that finds the
job at the head of the Ready queue with front burst `2 * q + 1` or `q + 1`
pushes a Preempt event due at `TIME + q`; `preempted` applied to the job
with front burst `2 * q + 1` leaves `q + 1`, and applied to `q + 1` leaves
1: each time exactly `q` less; a `dispatch` that finds front burst 1
pushes a Terminate event (no burst left behind it) or an IO-Request event
(otherwise) due at `TIME + 1`, not a Preempt.  So the burst is preempted
exactly twice; the run of a single job that arrives at a tick `a` with the
one burst `2 * q + 1` (the tick `a + 2 * q + 1` being a 64-bit value) has
the trace Arrive, Dispatch, Preempt, Dispatch, Preempt, Dispatch,
Terminate, and ends. -/
theorem C11_preempted_exactly_twice (q : Nat) (bs : List Nat) (hq : 1 ≤ q)
    (hfit : 2 * q + 1 < U64) :
    (∀ (s : State) (r : Nat) (rest : List Nat) (j : job) (b : Nat),
      s.QUANTUM = q → s.READY_Q = r :: rest → s.JOBS[r]? = some j → j.bursts = b :: bs →
      b = 2 * q + 1 ∨ b = q + 1 →
      dispatch s = some { s with
        CPU_JOB := some r
        READY_Q := rest
        JOBS := s.JOBS.set r { j with state := JOB_RUNNING }
        OUT := s.OUT ++ [(s.TIME, Msg.dispatched_cpu j.jid b)]
        EVENT_Q := pq_push s.EVENT_Q ⟨EVT_PREEMPT, j.jid, add64 s.TIME q⟩ }) ∧
    (∀ (s : State) (r : Nat) (rest : List Nat) (j : job),
      s.QUANTUM = q → s.READY_Q = r :: rest → s.JOBS[r]? = some j → j.bursts = 1 :: bs →
      dispatch s = some { s with
        CPU_JOB := some r
        READY_Q := rest
        JOBS := s.JOBS.set r { j with state := JOB_RUNNING }
        OUT := s.OUT ++ [(s.TIME, Msg.dispatched_cpu j.jid 1)]
        EVENT_Q := pq_push s.EVENT_Q
          ⟨if bs = [] then EVT_TERMINATE else EVT_IO_REQUEST, j.jid, add64 s.TIME 1⟩ }) ∧
    (∀ (s : State) (r : Nat) (j : job) (b : Nat),
      s.QUANTUM = q → s.CPU_JOB = some r → s.JOBS[r]? = some j → j.state = JOB_RUNNING →
      j.bursts = b :: bs → b = 2 * q + 1 ∨ b = q + 1 →
      preempted s = some { s with
        OUT := s.OUT ++ [(s.TIME, Msg.preempted j.jid)]
        JOBS := s.JOBS.set r { j with state := JOB_READY, bursts := (b - q) :: bs }
        READY_Q := s.READY_Q ++ [j.jid]
        CPU_JOB := none }) ∧
    (2 * q + 1 - q = q + 1 ∧ q + 1 - q = 1) ∧
    (∀ a : Nat, 1 ≤ a → a + 2 * q + 1 < U64 →
      ∃ sf, sim_loop 5 (sim_init q [[a, 1, 2 * q + 1]]) = some sf ∧
        sf.OUT = [(0, Msg.sim_started q), (a, Msg.arrives 0),
          (a, Msg.dispatched_cpu 0 (2 * q + 1)), (a + q, Msg.preempted 0),
          (a + q, Msg.dispatched_cpu 0 (q + 1)), (a + 2 * q, Msg.preempted 0),
          (a + 2 * q, Msg.dispatched_cpu 0 1), (a + 2 * q + 1, Msg.terminated 0)]) := by
  refine ⟨?_, ?_, ?_, ⟨by omega, by omega⟩,
    fun a ha hfit2 => run_two_quanta_and_one q a hq ha hfit2⟩
  · intro s r rest j b hQ hr hj hb hcase
    subst hQ
    exact dispatch_long s r rest j b bs hr hj hb (by omega)
  · intro s r rest j hQ hr hj hb
    exact dispatch_short s r rest j 1 bs hr hj hb (by rw [hQ]; exact hq)
  · intro s r j b hQ hc hj hst hb hcase
    subst hQ
    exact preempted_front s r j b bs hc hj hst hb (by omega) (by omega)

theorem C11_preempted_exactly_twice_witness :
    ∃ sf, sim_loop 5 (sim_init 2 [[1, 1, 2 * 2 + 1]]) = some sf ∧
      sf.OUT = [(0, Msg.sim_started 2), (1, Msg.arrives 0),
        (1, Msg.dispatched_cpu 0 (2 * 2 + 1)), (1 + 2, Msg.preempted 0),
        (1 + 2, Msg.dispatched_cpu 0 (2 + 1)), (1 + 2 * 2, Msg.preempted 0),
        (1 + 2 * 2, Msg.dispatched_cpu 0 1), (1 + 2 * 2 + 1, Msg.terminated 0)] :=
  (C11_preempted_exactly_twice 2 [] (by decide) (by decide)).2.2.2.2 1 (by decide) (by decide)

/-! ## C12 -/

/-- C12, as stated, fails: four jobs that arrive at tick 1.  Jobs 1 and 2
have the same arrival time, but the Arrive of job 2 is applied before
the Arrive of job 1, job 2 is ahead of job 1 in the Ready queue, and
job 2 is dispatched to the CPU for the first time (tick 3) before job 1
(tick 5). -/
theorem C12_counterexample :
    (∃ s, advance_n 1 (sim_init 2 [[1, 1, 3], [1, 1, 3], [1, 1, 3], [1, 1, 3]]) = some s ∧
      s.OUT = [(0, Msg.sim_started 2), (1, Msg.arrives 0), (1, Msg.arrives 2),
        (1, Msg.arrives 1), (1, Msg.arrives 3), (1, Msg.dispatched_cpu 0 3)] ∧
      s.READY_Q = [2, 1, 3]) ∧
    (∃ s, advance_n 3 (sim_init 2 [[1, 1, 3], [1, 1, 3], [1, 1, 3], [1, 1, 3]]) = some s ∧
      s.OUT = [(0, Msg.sim_started 2), (1, Msg.arrives 0), (1, Msg.arrives 2),
        (1, Msg.arrives 1), (1, Msg.arrives 3), (1, Msg.dispatched_cpu 0 3),
        (3, Msg.preempted 0), (3, Msg.dispatched_cpu 2 3),
        (5, Msg.preempted 2), (5, Msg.dispatched_cpu 1 3)]) :=
  ⟨⟨_, rfl, rfl, rfl⟩, ⟨_, rfl, rfl⟩⟩

/-- C12, amended: whatever the input file and the quantum, after any
number of calls of `sim_advance` the jobs that have been dispatched to the
CPU were dispatched for the first time in the order in which their Arrive
events were applied (the sequence of first dispatches is a prefix of the
sequence of arrivals), and the jobs that have arrived and were never
dispatched are in the Ready queue, in the order in which their Arrive
events were applied.  The order in which the Arrive events of jobs with
the same arrival time are applied is the order in which the event queue
pops them; it need not be the order of their ids. -/
theorem C12_first_come_first_served (q : Nat) (lines : List (List Nat)) (n : Nat) :
    ∃ s, advance_n n (sim_init q lines) = some s ∧
      first_dispatches s.OUT <+: arrivals s.OUT ∧
      arrivals s.OUT = first_dispatches s.OUT
        ++ s.READY_Q.filter (fun i => decide (i ∉ first_dispatches s.OUT)) := by
  obtain ⟨g1, g2, g3, _, _⟩ := sim_init_good q lines
  obtain ⟨k, s, h1, h2, _⟩ := advance_n_chain n _ g1 g2 g3
  have hF := h2.stays_fifo (sim_init_fifo q lines)
  exact ⟨s, h1, ⟨_, hF.order.symm⟩, hF.order⟩

/-! ## C13 -/

/-- C13, as stated, fails: two Arrive events due at the same tick, for
jobs 0 and 1, come out in the order they were pushed. -/
theorem C13_counterexample :
    [event.mk EVT_ARRIVE 0 1, event.mk EVT_ARRIVE 1 1].Perm
        [event.mk EVT_ARRIVE 1 1, event.mk EVT_ARRIVE 0 1] ∧
      drain_order [event.mk EVT_ARRIVE 0 1, event.mk EVT_ARRIVE 1 1]
        = [event.mk EVT_ARRIVE 0 1, event.mk EVT_ARRIVE 1 1] ∧
      drain_order [event.mk EVT_ARRIVE 1 1, event.mk EVT_ARRIVE 0 1]
        = [event.mk EVT_ARRIVE 1 1, event.mk EVT_ARRIVE 0 1] ∧
      drain_order [event.mk EVT_ARRIVE 0 1, event.mk EVT_ARRIVE 1 1]
        ≠ drain_order [event.mk EVT_ARRIVE 1 1, event.mk EVT_ARRIVE 0 1] :=
  ⟨List.Perm.swap _ _ _, by decide, by decide, by decide⟩

/-- C13, amended: when the same finite collection of events is pushed into
an empty queue in two different orders and the queue is popped until
empty, every event comes out, and the two sequences agree in the due time
and the type of each position (ascending due time, then type priority);
events that have the same due time and the same type, and differ in the
job id only, may come out in a different order.  When no two different
events of the collection have the same due time and type, the two
sequences are the same. -/
theorem C13_drain_order_up_to_ties (l1 l2 : List event) (hp : l1.Perm l2) :
    (drain_order l1).Perm l1 ∧ (drain_order l2).Perm l2 ∧
      (drain_order l1).Pairwise (fun a b => a.arrival_time < b.arrival_time ∨
        (a.arrival_time = b.arrival_time ∧ a.type.val ≤ b.type.val)) ∧
      (drain_order l1).map (fun e => (e.arrival_time, e.type))
        = (drain_order l2).map (fun e => (e.arrival_time, e.type)) ∧
      ((∀ x ∈ l1, ∀ y ∈ l1, x.arrival_time = y.arrival_time → x.type = y.type → x = y) →
        drain_order l1 = drain_order l2) := by
  obtain ⟨p1, s1⟩ := drain_order_spec l1
  obtain ⟨p2, s2⟩ := drain_order_spec l2
  have hk : (drain_order l1).map key = (drain_order l2).map key := by
    apply List.eq_of_perm_of_sorted (r := fun a b : Nat => a ≤ b)
    · exact ((p1.trans hp).trans p2.symm).map key
    · exact List.pairwise_map.2 s1
    · exact List.pairwise_map.2 s2
  refine ⟨p1, p2, ?_, ?_, ?_⟩
  · refine s1.imp ?_
    intro a b hab
    have ha := event_type_val_lt a.type
    have hb := event_type_val_lt b.type
    unfold key at hab
    omega
  · have h1 : ∀ (a b : List event), a.map key = b.map key →
        a.map (fun e => (e.arrival_time, e.type)) = b.map (fun e => (e.arrival_time, e.type)) := by
      intro a
      induction a with
      | nil =>
        intro b h
        cases b with
        | nil => rfl
        | cons y ys => simp at h
      | cons x xs ih =>
        intro b h
        cases b with
        | nil => simp at h
        | cons y ys =>
          simp only [List.map_cons, List.cons.injEq] at h
          obtain ⟨k1, k2⟩ := (key_eq_iff x y).1 h.1
          simp only [List.map_cons, ih ys h.2, k1, k2]
    exact h1 _ _ hk
  · intro hinj
    apply eq_of_map_key_eq _ _ hk
    intro x hx y hy hxy
    obtain ⟨k1, k2⟩ := (key_eq_iff x y).1 hxy
    exact hinj x (p1.subset hx) y (hp.symm.subset (p2.subset hy)) k1 k2

theorem C13_drain_order_up_to_ties_witness :
    [event.mk EVT_PREEMPT 0 3, event.mk EVT_ARRIVE 1 3, event.mk EVT_ARRIVE 2 2].Perm
        [event.mk EVT_ARRIVE 2 2, event.mk EVT_PREEMPT 0 3, event.mk EVT_ARRIVE 1 3] ∧
      drain_order [event.mk EVT_PREEMPT 0 3, event.mk EVT_ARRIVE 1 3, event.mk EVT_ARRIVE 2 2]
        = [event.mk EVT_ARRIVE 2 2, event.mk EVT_ARRIVE 1 3, event.mk EVT_PREEMPT 0 3] ∧
      drain_order [event.mk EVT_PREEMPT 0 3, event.mk EVT_ARRIVE 1 3, event.mk EVT_ARRIVE 2 2]
        = drain_order [event.mk EVT_ARRIVE 2 2, event.mk EVT_PREEMPT 0 3, event.mk EVT_ARRIVE 1 3] :=
  ⟨by decide, by decide,
    (C13_drain_order_up_to_ties
      [event.mk EVT_PREEMPT 0 3, event.mk EVT_ARRIVE 1 3, event.mk EVT_ARRIVE 2 2]
      [event.mk EVT_ARRIVE 2 2, event.mk EVT_PREEMPT 0 3, event.mk EVT_ARRIVE 1 3]
      (by decide)).2.2.2.2 (by decide)⟩

/-! ## C14 -/

/-- C14: in a state whose two queues hold ids of the job table without
repetition, `sim_tally` does not abort; it applies one `wait_time++` to
each job of READY_Q, one `io_time++` to each job of IO_Q and one
`CPU_IDLE_TIME++` exactly when the CPU is idle (`++` on a 64-bit counter:
plus 1, exactly so below `2 ^ 64 - 1`), and leaves every other field of
every job (state, id, arrival, turnaround, bursts) and every other global
(the queues, the event queue, TIME, QUANTUM, the devices, the trace) as it
was; the job on the CPU and the job on the IO device, being in no queue,
accrue nothing. -/
theorem C14_tally_frame (s : State)
    (hr : ∀ i ∈ s.READY_Q, i < s.JOBS.length) (hi : ∀ i ∈ s.IO_Q, i < s.JOBS.length)
    (hnr : s.READY_Q.Nodup) (hni : s.IO_Q.Nodup) :
    ∃ js, sim_tally s = some { s with
        JOBS := js
        CPU_IDLE_TIME := if is_cpu_idle s then inc64 s.CPU_IDLE_TIME else s.CPU_IDLE_TIME } ∧
      js.length = s.JOBS.length ∧
      (∀ (i : Nat) (j : job), s.JOBS[i]? = some j →
        js[i]? = some { j with
          wait_time := if i ∈ s.READY_Q then inc64 j.wait_time else j.wait_time
          io_time := if i ∈ s.IO_Q then inc64 j.io_time else j.io_time }) ∧
      (∀ x : Nat, x + 1 < U64 → inc64 x = x + 1) := by
  obtain ⟨js1, a1, a2, a3⟩ := tally_wait_spec s.READY_Q s.JOBS hr
  obtain ⟨js2, b1, b2, b3⟩ := tally_io_spec s.IO_Q js1 (by rw [a2]; exact hi)
  refine ⟨js2, ?_, by rw [b2, a2], ?_, ?_⟩
  · simp only [sim_tally, a1, b1]
  · intro i j hj
    rw [b3 i, a3 i, hj]
    simp only [Option.map_some']
    have c1 : s.READY_Q.count i = if i ∈ s.READY_Q then 1 else 0 := by
      by_cases h : i ∈ s.READY_Q
      · rw [if_pos h]; exact List.count_eq_one_of_mem hnr h
      · rw [if_neg h]; exact List.count_eq_zero_of_not_mem h
    have c2 : s.IO_Q.count i = if i ∈ s.IO_Q then 1 else 0 := by
      by_cases h : i ∈ s.IO_Q
      · rw [if_pos h]; exact List.count_eq_one_of_mem hni h
      · rw [if_neg h]; exact List.count_eq_zero_of_not_mem h
    rw [c1, c2]
    by_cases h1 : i ∈ s.READY_Q <;> by_cases h2 : i ∈ s.IO_Q <;> simp [h1, h2]
  · intro x hx
    unfold inc64
    unfold U64 at hx
    omega

theorem C14_tally_frame_witness :
    ∃ js, sim_tally (State.mk [1] [2] [] [⟨JOB_RUNNING, 0, 1, 0, 0, 0, [3]⟩,
          ⟨JOB_READY, 1, 1, 0, 0, 0, [3]⟩, ⟨JOB_BLOCKED, 2, 1, 0, 0, 0, [3, 1]⟩] 5 2 0 (some 0) none [])
        = some (State.mk [1] [2] [] js 5 2 0 (some 0) none []) ∧
      js = [⟨JOB_RUNNING, 0, 1, 0, 0, 0, [3]⟩,
          ⟨JOB_READY, 1, 1, 0, 1, 0, [3]⟩, ⟨JOB_BLOCKED, 2, 1, 0, 0, 1, [3, 1]⟩] := by
  obtain ⟨js, h1, h2, h3, _⟩ := C14_tally_frame (State.mk [1] [2] [] [⟨JOB_RUNNING, 0, 1, 0, 0, 0, [3]⟩,
          ⟨JOB_READY, 1, 1, 0, 0, 0, [3]⟩, ⟨JOB_BLOCKED, 2, 1, 0, 0, 0, [3, 1]⟩] 5 2 0 (some 0) none [])
    (by decide) (by decide) (by decide) (by decide)
  refine ⟨js, ?_, ?_⟩
  · rw [h1]; rfl
  · have e : sim_tally (State.mk [1] [2] [] [⟨JOB_RUNNING, 0, 1, 0, 0, 0, [3]⟩,
          ⟨JOB_READY, 1, 1, 0, 0, 0, [3]⟩, ⟨JOB_BLOCKED, 2, 1, 0, 0, 0, [3, 1]⟩] 5 2 0 (some 0) none [])
        = some (State.mk [1] [2] [] [⟨JOB_RUNNING, 0, 1, 0, 0, 0, [3]⟩,
          ⟨JOB_READY, 1, 1, 0, 1, 0, [3]⟩, ⟨JOB_BLOCKED, 2, 1, 0, 0, 1, [3, 1]⟩] 5 2 0 (some 0) none []) := rfl
    rw [h1] at e
    simp only [Option.some.injEq, State.mk.injEq] at e
    exact e.2.2.2.1

/-! ## C15 -/

/-- C15: in every state of a run (every state the elementary steps reach
from the state `sim_init` builds) in which the clock loop finds a Preempt
event on top of the event queue, pops it and applies `preempted`, the
front burst `b` of the CPU job is strictly greater than QUANTUM; so
`bursts.front() -= QUANTUM` does not wrap: `preempted` does not abort and
leaves the job Ready with front burst `b - QUANTUM`, which is at least 1,
and with as many bursts as before. -/
theorem C15_preempt_front_exceeds_quantum (q : Nat) (lines : List (List Nat)) (k : Nat)
    (s : State) (hc : Chain k (sim_init q lines) s) (e : event)
    (htop : pq_top s.EVENT_Q = some e) (hty : e.type = EVT_PREEMPT) :
    ∃ r j b bs, s.CPU_JOB = some r ∧ s.JOBS[r]? = some j ∧ j.bursts = b :: bs ∧
      s.QUANTUM < b ∧ b < U64 ∧
      apply_event { s with EVENT_Q := pq_pop s.EVENT_Q } e
        = preempted { s with EVENT_Q := pq_pop s.EVENT_Q } ∧
      ∃ t, preempted { s with EVENT_Q := pq_pop s.EVENT_Q } = some t ∧
        t.JOBS = s.JOBS.set r
          { j with state := JOB_READY, bursts := (b - s.QUANTUM) :: bs } ∧
        1 ≤ b - s.QUANTUM ∧ ((b - s.QUANTUM) :: bs).length = j.bursts.length := by
  obtain ⟨g1, g2, _, _, _⟩ := sim_init_good q lines
  obtain ⟨hI, hB⟩ := hc.stays_good g1 g2
  obtain ⟨r, j, b, bs, hcj, hj, hst, hjid, _, hb, hgt, _⟩ := inv_post_preempt hI htop hty
  have hblt : b < U64 := hB.burst_lt r j hj b (by rw [hb]; exact List.mem_cons_self _ _)
  have hap : apply_event { s with EVENT_Q := pq_pop s.EVENT_Q } e
      = preempted { s with EVENT_Q := pq_pop s.EVENT_Q } := by
    simp only [apply_event, hty]
  refine ⟨r, j, b, bs, hcj, hj, hb, hgt, hblt, hap, post_preempt s r j, ?_, ?_, by omega, ?_⟩
  · rw [← hap]
    exact apply_preempt_eq s e r j hcj hj hst hjid hty
  · simp only [post_preempt, hb, front_sub]
    rw [sub64_of_le (le_of_lt hgt) hblt]
  · rw [hb]; rfl

theorem C15_preempt_front_exceeds_quantum_witness :
    ∃ k s, Chain k (sim_init 1 [[1, 1, 4]]) s ∧
      pq_top s.EVENT_Q = some ⟨EVT_PREEMPT, 0, 2⟩ ∧ s.TIME = 2 ∧
      ∃ r j b bs, s.CPU_JOB = some r ∧ s.JOBS[r]? = some j ∧ j.bursts = b :: bs ∧
        s.QUANTUM < b ∧ b < U64 ∧
        apply_event { s with EVENT_Q := pq_pop s.EVENT_Q } ⟨EVT_PREEMPT, 0, 2⟩
          = preempted { s with EVENT_Q := pq_pop s.EVENT_Q } ∧
        ∃ t, preempted { s with EVENT_Q := pq_pop s.EVENT_Q } = some t ∧
          t.JOBS = s.JOBS.set r
            { j with state := JOB_READY, bursts := (b - s.QUANTUM) :: bs } ∧
          1 ≤ b - s.QUANTUM ∧ ((b - s.QUANTUM) :: bs).length = j.bursts.length := by
  obtain ⟨g1, g2, g3, _, _⟩ := sim_init_good 1 [[1, 1, 4]]
  obtain ⟨k, s, h1, h2, _⟩ := advance_n_chain 1 _ g1 g2 g3
  have e : ∃ t, advance_n 1 (sim_init 1 [[1, 1, 4]]) = some t ∧
      pq_top t.EVENT_Q = some ⟨EVT_PREEMPT, 0, 2⟩ ∧ t.TIME = 2 := ⟨_, rfl, rfl, rfl⟩
  obtain ⟨t, e1, e2, e3⟩ := e
  rw [h1] at e1
  cases e1
  exact ⟨k, s, h2, e2, e3,
    C15_preempt_front_exceeds_quantum 1 [[1, 1, 4]] k s h2 ⟨EVT_PREEMPT, 0, 2⟩ e2 rfl⟩

/-! ## C16 -/

/-- C16: in every state `s` of a run (every state the elementary steps
reach from the state `sim_init` builds), an elementary step (a tick, a
popped event applied, a dispatch) leaves the state of each job as it is
or moves it along one of the edges New to Ready, Ready to Running,
Running to Ready, Running to Blocked, Running to Terminated, Blocked to
Ready; and a job that is Terminated in `s` is the same record (state,
turnaround, statistics, bursts) after any number of further steps, and is
then in no queue and on no device. -/
theorem C16_state_machine (q : Nat) (lines : List (List Nat)) (k : Nat) (s : State)
    (hc : Chain k (sim_init q lines) s) :
    (∀ (n : Nat) (t : State), Step n s t → ∀ (i : Nat) (j : job), s.JOBS[i]? = some j →
      ∃ y, t.JOBS[i]? = some y ∧
        (y.state = j.state ∨
          (j.state = JOB_NEW ∧ y.state = JOB_READY) ∨
          (j.state = JOB_READY ∧ y.state = JOB_RUNNING) ∨
          (j.state = JOB_RUNNING ∧ y.state = JOB_READY) ∨
          (j.state = JOB_RUNNING ∧ y.state = JOB_BLOCKED) ∨
          (j.state = JOB_RUNNING ∧ y.state = JOB_TERMINATED) ∨
          (j.state = JOB_BLOCKED ∧ y.state = JOB_READY))) ∧
    (∀ (m : Nat) (u : State), Chain m s u → ∀ (i : Nat) (j : job), s.JOBS[i]? = some j →
      j.state = JOB_TERMINATED →
      u.JOBS[i]? = some j ∧ i ∉ u.READY_Q ∧ i ∉ u.IO_Q ∧ u.CPU_JOB ≠ some i ∧
        u.IO_JOB ≠ some i) := by
  obtain ⟨g1, g2, _, _, _⟩ := sim_init_good q lines
  obtain ⟨hI, hB⟩ := hc.stays_good g1 g2
  constructor
  · intro n t hs i j hj
    obtain ⟨y, h1, h2, _⟩ := hs.job_change i j hj
    exact ⟨y, h1, h2⟩
  · intro m u hu i j hj hst
    have h1 := hu.terminated_stays i j hj hst
    obtain ⟨hIu, _⟩ := hu.stays_good hI hB
    exact ⟨h1, hIu.terminated_nowhere h1 hst⟩
theorem C16_state_machine_witness :
    ∃ k s, Chain k (sim_init 2 [[1, 2, 1, 5, 1], [1, 2, 1, 3, 1], [1, 1, 4], [1, 1, 4]]) s ∧
      s.JOBS.map (fun j => j.state)
        = [JOB_TERMINATED, JOB_READY, JOB_TERMINATED, JOB_RUNNING] ∧
      (∀ (n : Nat) (t : State), Step n s t → ∀ (i : Nat) (j : job), s.JOBS[i]? = some j →
        ∃ y, t.JOBS[i]? = some y ∧
          (y.state = j.state ∨
            (j.state = JOB_NEW ∧ y.state = JOB_READY) ∨
            (j.state = JOB_READY ∧ y.state = JOB_RUNNING) ∨
            (j.state = JOB_RUNNING ∧ y.state = JOB_READY) ∨
            (j.state = JOB_RUNNING ∧ y.state = JOB_BLOCKED) ∨
            (j.state = JOB_RUNNING ∧ y.state = JOB_TERMINATED) ∨
            (j.state = JOB_BLOCKED ∧ y.state = JOB_READY))) ∧
      (∀ (m : Nat) (u : State), Chain m s u → ∀ (i : Nat) (j : job), s.JOBS[i]? = some j →
        j.state = JOB_TERMINATED →
        u.JOBS[i]? = some j ∧ i ∉ u.READY_Q ∧ i ∉ u.IO_Q ∧ u.CPU_JOB ≠ some i ∧
          u.IO_JOB ≠ some i) := by
  obtain ⟨g1, g2, g3, _, _⟩ :=
    sim_init_good 2 [[1, 2, 1, 5, 1], [1, 2, 1, 3, 1], [1, 1, 4], [1, 1, 4]]
  obtain ⟨k, s, h1, h2, _⟩ := advance_n_chain 7 _ g1 g2 g3
  have e : ∃ t, advance_n 7 (sim_init 2 [[1, 2, 1, 5, 1], [1, 2, 1, 3, 1], [1, 1, 4], [1, 1, 4]])
      = some t ∧ t.JOBS.map (fun j => j.state)
        = [JOB_TERMINATED, JOB_READY, JOB_TERMINATED, JOB_RUNNING] := ⟨_, rfl, rfl⟩
  obtain ⟨t, e1, e2⟩ := e
  rw [h1] at e1
  cases e1
  obtain ⟨c1, c2⟩ := C16_state_machine 2
    [[1, 2, 1, 5, 1], [1, 2, 1, 3, 1], [1, 1, 4], [1, 1, 4]] k s h2
  exact ⟨k, s, h2, e2, c1, c2⟩

/-! ## C17 -/

/-- C17: whatever the input file, with a quantum of at least 1 the loop of
`main` ends, and in the state it ends in every job of the table is
Terminated with `turn_around_time = wait_time + io_time + (sum of ALL its
original bursts, CPU and IO alike)`, in the 64-bit arithmetic of the
counters; the equation is exact when its right side fits in 64 bits.
(`sim_tally` adds to `io_time` for the members of IO_Q only; the ticks
on the IO device are the IO bursts.) -/
theorem C17_turnaround_all_bursts (q : Nat) (lines : List (List Nat)) (hq : 1 ≤ q) :
    ∃ n sf, sim_loop n (sim_init q lines) = some sf ∧
      ∀ (i : Nat) (o : job), (sim_init q lines).JOBS[i]? = some o →
        ∃ j, sf.JOBS[i]? = some j ∧ j.state = JOB_TERMINATED ∧
          j.turn_around_time = (j.wait_time + j.io_time + o.bursts.sum) % U64 ∧
          (j.wait_time + j.io_time + o.bursts.sum < U64 →
            j.turn_around_time = j.wait_time + j.io_time + o.bursts.sum) := by
  obtain ⟨g1, g2, g3, g4, _⟩ := sim_init_good q lines
  obtain ⟨n, t, h1, h2, _, h4, h5⟩ :=
    sim_loop_terminates _ (sim_init q lines) g1 g2 g3 (by rw [g4]; exact hq) (Nat.lt_succ_self _)
  obtain ⟨f1, _⟩ := h2.final h4 h5
  obtain ⟨k, s, a1, a2, _⟩ := advance_n_chain n _ g1 g2 g3
  rw [sim_loop_advance_n n _ _ h1] at a1
  cases a1
  have hA := a2.stays_acc (sim_init_acc q lines)
  refine ⟨n, t, h1, ?_⟩
  intro i o ho
  obtain ⟨j, hj⟩ := a2.job_persists i o ho
  have hst : j.state = JOB_TERMINATED := f1 j (List.getElem?_mem hj)
  have ha := hA i j hj
  unfold acc_job at ha
  rw [hst] at ha
  simp only [orig_total, ho] at ha
  refine ⟨j, hj, hst, ha, fun hlt => ?_⟩
  rw [ha]
  exact Nat.mod_eq_of_lt hlt

theorem C17_turnaround_all_bursts_witness :
    1 ≤ 2 ∧ ∃ n sf, sim_loop n (sim_init 2 [[1, 2, 1, 1, 1], [2, 1, 3]]) = some sf ∧
      ∀ (i : Nat) (o : job), (sim_init 2 [[1, 2, 1, 1, 1], [2, 1, 3]]).JOBS[i]? = some o →
        ∃ j, sf.JOBS[i]? = some j ∧ j.state = JOB_TERMINATED ∧
          j.turn_around_time = (j.wait_time + j.io_time + o.bursts.sum) % U64 ∧
          (j.wait_time + j.io_time + o.bursts.sum < U64 →
            j.turn_around_time = j.wait_time + j.io_time + o.bursts.sum) :=
  ⟨by decide, C17_turnaround_all_bursts 2 [[1, 2, 1, 1, 1], [2, 1, 3]] (by decide)⟩

/-! ## C18 -/

/-- C18, as stated, fails: the job `1 1 18446744073709551615` (one CPU burst
of `2 ^ 64 - 1` ticks) with quantum `2 ^ 64 - 1`.  The 64-bit clock wraps
while the job is on the CPU; the loop ends with TIME = 1 and
CPU_IDLE_TIME = 2, so CPU_IDLE_TIME is greater than TIME, the subtraction
`TIME - CPU_IDLE_TIME` wraps around, and TIME is not CPU_IDLE_TIME plus
the CPU burst. -/
theorem C18_counterexample :
    ∃ n sf, sim_loop n (sim_init 18446744073709551615 [[1, 1, 18446744073709551615]])
        = some sf ∧
      sf.TIME = 1 ∧ sf.CPU_IDLE_TIME = 2 ∧ ¬ sf.CPU_IDLE_TIME ≤ sf.TIME ∧
      ((sim_init 18446744073709551615 [[1, 1, 18446744073709551615]]).JOBS.map
        (fun j => (cpu_bursts j.bursts).sum)).sum = 18446744073709551615 ∧
      sf.TIME ≠ sf.CPU_IDLE_TIME + 18446744073709551615 := by
  have h := advance_n_trans (advance_n_trans (advance_n_trans long_burst_first_call
    long_burst_overdue_calls) long_burst_wrap_call) long_burst_last_call
  obtain ⟨m, _, hm⟩ := sim_loop_of_advance_n _ _ _ h rfl
  exact ⟨m, _, hm, rfl, rfl, by decide, rfl, by decide⟩

/-- C18, amended: whatever the input file, with a quantum of at least 1 the
loop of `main` ends, and in the state it ends in
`TIME = CPU_IDLE_TIME + (sum over all jobs of their original CPU bursts)`
modulo `2 ^ 64`, the counters being 64-bit; when the right side is less
than `2 ^ 64` the equation is exact, `CPU_IDLE_TIME ≤ TIME`, and the
subtraction `TIME - CPU_IDLE_TIME` of `main` does not wrap: it is the sum
of the CPU bursts. -/
theorem C18_time_is_idle_plus_cpu (q : Nat) (lines : List (List Nat)) (hq : 1 ≤ q) :
    ∃ n sf, sim_loop n (sim_init q lines) = some sf ∧
      sf.TIME = (sf.CPU_IDLE_TIME
        + ((sim_init q lines).JOBS.map (fun j => (cpu_bursts j.bursts).sum)).sum) % U64 ∧
      (sf.CPU_IDLE_TIME
          + ((sim_init q lines).JOBS.map (fun j => (cpu_bursts j.bursts).sum)).sum < U64 →
        sf.TIME = sf.CPU_IDLE_TIME
          + ((sim_init q lines).JOBS.map (fun j => (cpu_bursts j.bursts).sum)).sum ∧
        sf.CPU_IDLE_TIME ≤ sf.TIME ∧
        sub64 sf.TIME sf.CPU_IDLE_TIME
          = ((sim_init q lines).JOBS.map (fun j => (cpu_bursts j.bursts).sum)).sum) := by
  obtain ⟨g1, g2, g3, g4, _⟩ := sim_init_good q lines
  obtain ⟨n, t, h1, h2, h3, h4, h5⟩ :=
    sim_loop_terminates _ (sim_init q lines) g1 g2 g3 (by rw [g4]; exact hq) (Nat.lt_succ_self _)
  obtain ⟨f1, _, _, f4, _⟩ := h2.final h4 h5
  obtain ⟨k, s, a1, a2, _⟩ := advance_n_chain n _ g1 g2 g3
  rw [sim_loop_advance_n n _ _ h1] at a1
  cases a1
  have hA := (a2.stays_cpuAcc (sim_init_cpuAcc q lines)).1 f4
  rw [cpu_left_total_terminated f1, sim_init_cpu_left, Nat.add_zero,
    Nat.mod_eq_of_lt h3.time_lt] at hA
  refine ⟨n, t, h1, hA, ?_⟩
  intro hlt
  have e1 := Nat.mod_eq_of_lt hlt
  rw [e1] at hA
  refine ⟨hA, by omega, ?_⟩
  rw [sub64_of_le (by omega) h3.time_lt]
  omega

theorem C18_time_is_idle_plus_cpu_witness :
    1 ≤ 2 ∧ ∃ n sf, sim_loop n (sim_init 2 [[1, 2, 1, 1, 1], [2, 1, 3]]) = some sf ∧
      sf.TIME = (sf.CPU_IDLE_TIME
        + ((sim_init 2 [[1, 2, 1, 1, 1], [2, 1, 3]]).JOBS.map
            (fun j => (cpu_bursts j.bursts).sum)).sum) % U64 ∧
      (sf.CPU_IDLE_TIME
          + ((sim_init 2 [[1, 2, 1, 1, 1], [2, 1, 3]]).JOBS.map
              (fun j => (cpu_bursts j.bursts).sum)).sum < U64 →
        sf.TIME = sf.CPU_IDLE_TIME
          + ((sim_init 2 [[1, 2, 1, 1, 1], [2, 1, 3]]).JOBS.map
              (fun j => (cpu_bursts j.bursts).sum)).sum ∧
        sf.CPU_IDLE_TIME ≤ sf.TIME ∧
        sub64 sf.TIME sf.CPU_IDLE_TIME
          = ((sim_init 2 [[1, 2, 1, 1, 1], [2, 1, 3]]).JOBS.map
              (fun j => (cpu_bursts j.bursts).sum)).sum) :=
  ⟨by decide, C18_time_is_idle_plus_cpu 2 [[1, 2, 1, 1, 1], [2, 1, 3]] (by decide)⟩

/-! ## C19 -/

/-- C19: in every state of a run (every state the elementary steps reach
from the state `sim_init` builds, between two calls of `sim_advance` or
inside one) at most one Preempt, Terminate or IO-Request event and at most
one IO-Receive event are pending; every pending Preempt, Terminate or
IO-Request event, so also the one the clock loop drains next, carries the
id of the job that is Running on the CPU, and every pending IO-Receive
event carries the id of the job that is on the IO device. -/
theorem C19_pending_events_match_devices (q : Nat) (lines : List (List Nat)) (k : Nat)
    (s : State) (hc : Chain k (sim_init q lines) s) :
    cpu_count s.EVENT_Q ≤ 1 ∧ io_count s.EVENT_Q ≤ 1 ∧
    ∀ e ∈ s.EVENT_Q,
      (e.type = EVT_PREEMPT ∨ e.type = EVT_TERMINATE ∨ e.type = EVT_IO_REQUEST →
        ∃ j, s.CPU_JOB = some e.jid ∧ s.JOBS[e.jid]? = some j ∧ j.jid = e.jid ∧
          j.state = JOB_RUNNING) ∧
      (e.type = EVT_IO_RECIEVE →
        ∃ j, s.IO_JOB = some e.jid ∧ s.JOBS[e.jid]? = some j ∧ j.jid = e.jid ∧
          j.state = JOB_BLOCKED) := by
  obtain ⟨g1, g2, _, _, _⟩ := sim_init_good q lines
  obtain ⟨hI, _⟩ := hc.stays_good g1 g2
  refine ⟨?_, ?_, ?_⟩
  · rw [hI.cpu_ev]; split <;> omega
  · rw [hI.io_ev]; split <;> omega
  · intro e he
    constructor
    · intro hty
      have hce : is_cpu_event e.type = true := by
        rcases hty with h | h | h <;> rw [h] <;> rfl
      cases hcpu : s.CPU_JOB with
      | none =>
        have h0 := hI.cpu_ev
        rw [hcpu] at h0
        have := cpu_count_zero_not_mem h0 e he
        rw [hce] at this
        cases this
      | some r =>
        obtain ⟨j, hj, hst, hjid⟩ := hI.job_of_cpu hcpu
        obtain ⟨_, hr⟩ := hI.cpu_ty e he hce r j hcpu hj
        rw [hr]
        exact ⟨j, rfl, hj, hjid, hst⟩
    · intro hty
      have hdev := hI.io_ty e he hty
      obtain ⟨j, hj, hst, hjid⟩ := hI.job_of_io hdev
      exact ⟨j, hdev, hj, hjid, hst⟩

theorem C19_pending_events_match_devices_witness :
    ∃ k s, Chain k (sim_init 2 [[1, 2, 1, 5, 1], [1, 2, 1, 3, 1], [1, 1, 4], [1, 1, 4]]) s ∧
      s.EVENT_Q = [⟨EVT_IO_RECIEVE, 0, 7⟩, ⟨EVT_PREEMPT, 3, 7⟩] ∧
      s.CPU_JOB = some 3 ∧ s.IO_JOB = some 0 ∧
      cpu_count s.EVENT_Q ≤ 1 ∧ io_count s.EVENT_Q ≤ 1 ∧
      ∀ e ∈ s.EVENT_Q,
        (e.type = EVT_PREEMPT ∨ e.type = EVT_TERMINATE ∨ e.type = EVT_IO_REQUEST →
          ∃ j, s.CPU_JOB = some e.jid ∧ s.JOBS[e.jid]? = some j ∧ j.jid = e.jid ∧
            j.state = JOB_RUNNING) ∧
        (e.type = EVT_IO_RECIEVE →
          ∃ j, s.IO_JOB = some e.jid ∧ s.JOBS[e.jid]? = some j ∧ j.jid = e.jid ∧
            j.state = JOB_BLOCKED) := by
  obtain ⟨g1, g2, g3, _, _⟩ :=
    sim_init_good 2 [[1, 2, 1, 5, 1], [1, 2, 1, 3, 1], [1, 1, 4], [1, 1, 4]]
  obtain ⟨k, s, h1, h2, _⟩ := advance_n_chain 4 _ g1 g2 g3
  have e : ∃ t, advance_n 4 (sim_init 2 [[1, 2, 1, 5, 1], [1, 2, 1, 3, 1], [1, 1, 4], [1, 1, 4]])
      = some t ∧ t.EVENT_Q = [⟨EVT_IO_RECIEVE, 0, 7⟩, ⟨EVT_PREEMPT, 3, 7⟩] ∧
      t.CPU_JOB = some 3 ∧ t.IO_JOB = some 0 := ⟨_, rfl, rfl, rfl, rfl⟩
  obtain ⟨t, e1, e2, e3, e4⟩ := e
  rw [h1] at e1
  cases e1
  obtain ⟨c1, c2, c3⟩ := C19_pending_events_match_devices 2
    [[1, 2, 1, 5, 1], [1, 2, 1, 3, 1], [1, 1, 4], [1, 1, 4]] k s h2
  exact ⟨k, s, h2, e2, e3, e4, c1, c2, c3⟩

/-! ## C20 -/

/-- C20, as stated, fails: the job `1 1 1` with quantum 0.  After the
first call of `sim_advance` the clock is at tick 2 and the Preempt event
of the first dispatch, due at tick 1, is pending; it stays pending, with
the job on the CPU, while the 64-bit clock runs up to `2 ^ 64 - 1` (after
`2 ^ 64 - 2` calls the trace still ends with the first dispatch).  The
next call wraps the clock to 0, and the call after it (call number
`2 ^ 64`) moves the clock to tick 1, drains the Preempt event, releases the
CPU and dispatches the job again: the trace has the line "preempted" at
tick 1. -/
theorem C20_counterexample :
    (∃ s, advance_n 18446744073709551614 (sim_init 0 [[1, 1, 1]]) = some s ∧
      s.TIME = 18446744073709551615 ∧
      s.EVENT_Q = [event.mk EVT_PREEMPT 0 1] ∧ s.CPU_JOB = some 0 ∧
      s.OUT = [(0, Msg.sim_started 0), (1, Msg.arrives 0), (1, Msg.dispatched_cpu 0 1)]) ∧
    ∃ s, advance_n 18446744073709551616 (sim_init 0 [[1, 1, 1]]) = some s ∧
      s.OUT = [(0, Msg.sim_started 0), (1, Msg.arrives 0), (1, Msg.dispatched_cpu 0 1),
        (1, Msg.preempted 0), (1, Msg.dispatched_cpu 0 1)] ∧
      s.TIME = 2 ∧ s.EVENT_Q = [event.mk EVT_PREEMPT 0 1] ∧ s.CPU_JOB = some 0 := by
  constructor
  · have h := advance_n_trans zero_quantum_first_call
      (zero_quantum_overdue_calls 18446744073709551613 (le_refl _))
    have hnum : 1 + 18446744073709551613 = 18446744073709551614 := by decide
    rw [hnum] at h
    exact ⟨_, h, by decide, rfl, rfl, rfl⟩
  · have h := advance_n_trans (advance_n_trans (advance_n_trans zero_quantum_first_call
      (zero_quantum_overdue_calls _ (le_refl _))) zero_quantum_wrap_call) zero_quantum_drain_call
    have hnum : 1 + 18446744073709551613 + 1 + 1 = 18446744073709551616 := by decide
    rw [hnum] at h
    exact ⟨_, h, rfl, rfl, rfl, rfl⟩

/-- C20, amended: with QUANTUM = 0 (accepted by `sim_init`) and an input
file with a job whose first burst is positive, the simulation never ends:
whatever the number of calls of `sim_advance`, none of them aborts, the
event queue is not empty when the next call starts, the next call
returns true, and that job is not Terminated and has all its bursts
(each Preempt subtracts 0 from the front burst); the loop of `main` does
not end.  A `dispatch` of a job with a positive front burst pushes a
Preempt event due at the current tick, after the drain of that tick is
over.  Once TIME has moved past the due tick of a pending event, the calls
of `sim_advance` only move the clock: no event is drained and no device
is released as long as the 64-bit TIME has not wrapped around. -/
theorem C20_zero_quantum_never_ends (lines : List (List Nat)) (x : Nat) (o : job) (b : Nat)
    (bs : List Nat) (ho : (sim_init 0 lines).JOBS[x]? = some o) (hb : o.bursts = b :: bs)
    (hpos : 1 ≤ b) :
    (∀ n, ∃ s, advance_n n (sim_init 0 lines) = some s ∧ s.EVENT_Q ≠ [] ∧
      (∃ t, sim_advance s = some (true, t)) ∧
      ∃ j, s.JOBS[x]? = some j ∧ j.state ≠ JOB_TERMINATED ∧ j.bursts = o.bursts) ∧
    (∀ n, sim_loop n (sim_init 0 lines) = none) ∧
    (∀ (s : State) (r : Nat) (rest : List Nat) (j : job) (c : Nat) (cs : List Nat),
      s.QUANTUM = 0 → s.TIME < U64 → s.READY_Q = r :: rest → s.JOBS[r]? = some j →
      j.bursts = c :: cs → 1 ≤ c →
      dispatch s = some { s with
        CPU_JOB := some r
        READY_Q := rest
        JOBS := s.JOBS.set r { j with state := JOB_RUNNING }
        OUT := s.OUT ++ [(s.TIME, Msg.dispatched_cpu j.jid c)]
        EVENT_Q := pq_push s.EVENT_Q ⟨EVT_PREEMPT, j.jid, s.TIME⟩ }) ∧
    (∀ (n : Nat) (s : State), advance_n n (sim_init 0 lines) = some s →
      (∃ e ∈ s.EVENT_Q, e.arrival_time < s.TIME) → ∀ k, s.TIME + k < U64 →
      ∃ t, advance_n (n + k) (sim_init 0 lines) = some t ∧ t.TIME = s.TIME + k ∧
        t.EVENT_Q = s.EVENT_Q ∧ t.CPU_JOB = s.CPU_JOB ∧ t.IO_JOB = s.IO_JOB ∧
        t.OUT = s.OUT) := by
  obtain ⟨g1, g2, g3, g4, _⟩ := sim_init_good 0 lines
  have hU0 : Unfinished x (b :: bs) (sim_init 0 lines) :=
    ⟨o, ho, hb, Or.inl (sim_init_fresh 0 lines x o ho).1⟩
  have main : ∀ n, ∃ s, advance_n n (sim_init 0 lines) = some s ∧ s.EVENT_Q ≠ [] ∧
      (∃ t, sim_advance s = some (true, t)) ∧
      ∃ j, s.JOBS[x]? = some j ∧ j.state ≠ JOB_TERMINATED ∧ j.bursts = o.bursts := by
    intro n
    obtain ⟨k, s, h1, h2, h3⟩ := advance_n_chain n _ g1 g2 g3
    obtain ⟨hI, hB⟩ := h2.stays_good g1 g2
    obtain ⟨j, hj, hbj, hst⟩ := h2.stays_unfinished g4 hpos hU0
    have hne : j.state ≠ JOB_TERMINATED := by
      rcases hst with h | h | h <;> rw [h] <;> decide
    have hq : s.EVENT_Q ≠ [] := by
      intro hq
      exact hne ((hI.final h3 hq).1 j (List.getElem?_mem hj))
    have htop : ∃ e, pq_top s.EVENT_Q = some e := by
      cases hQ : s.EVENT_Q with
      | nil => exact absurd hQ hq
      | cons e rest => exact ⟨e, rfl⟩
    obtain ⟨e, he⟩ := htop
    obtain ⟨m, t, ht, _⟩ := sim_advance_spec hI hB h3 he
    exact ⟨s, h1, hq, ⟨t, ht⟩, j, hj, hne, by rw [hbj, hb]⟩
  refine ⟨main, ?_, ?_, ?_⟩
  · intro n
    cases hl : sim_loop n (sim_init 0 lines) with
    | none => rfl
    | some t =>
      obtain ⟨s, h1, hq, _⟩ := main n
      rw [sim_loop_advance_n n _ _ hl] at h1
      cases h1
      exact absurd (sim_loop_final n _ _ hl) hq
  · intro s r rest j c cs hq hT hr hj hc hpos2
    have h := dispatch_long s r rest j c cs hr hj hc (by rw [hq]; omega)
    have hadd : add64 s.TIME s.QUANTUM = s.TIME := by
      rw [hq]
      unfold add64
      unfold U64 at hT
      omega
    rw [hadd] at h
    exact h
  · intro n s hs hov k hk
    obtain ⟨s2, e1, hI, hB, hS⟩ := advance_n_good n _ g1 g2 g3
    rw [hs] at e1
    cases e1
    obtain ⟨t, b1, b2, b3, b4, b5, _, _, b8⟩ := advance_n_stuck k s hI hB hS hov hk
    exact ⟨t, advance_n_trans hs b1, b2, b3, b4, b5, b8⟩

theorem C20_zero_quantum_never_ends_witness :
    1 ≤ 1 ∧ ∃ s, advance_n 5 (sim_init 0 [[1, 1, 1]]) = some s ∧ s.EVENT_Q ≠ [] ∧
      (∃ t, sim_advance s = some (true, t)) ∧
      ∃ j, s.JOBS[0]? = some j ∧ j.state ≠ JOB_TERMINATED ∧
        j.bursts = (job.mk JOB_NEW 0 1 0 0 0 [1]).bursts :=
  ⟨by decide, (C20_zero_quantum_never_ends [[1, 1, 1]] 0 (job.mk JOB_NEW 0 1 0 0 0 [1]) 1 [] rfl
    rfl (by decide)).1 5⟩

end RRSim
